import Mathlib

/-!
# Cache with TTL, bounded size and get-or-compute

Shallow embedding of `concurrency/08_code_review/06_cache_race/solution/main.go`.

Modelling conventions

* A `time.Time` instant is an integer number of nanoseconds on one clock, a
  `time.Duration` is an integer number of nanoseconds; `t.After(u)` is `u < t`
  and `t.Add(d)` is `t + d`.  Every call of `time.Now()` in the source is an
  explicit argument of the operation that makes the call.
* The Go map `map[string]CacheEntry` is a finite association list with unique
  keys (`AList`); `len(c.data)` is the number of its keys.
* Go leaves the iteration order of a map unspecified.  The eviction loop of
  `Set` deletes the first key the iteration yields; which key that is, is the
  argument `pick` of `Set` (position `pick % len` in the key list), so a
  statement quantified over `pick` covers every choice the runtime can make.
* `Cache.Get` describes a call of `Get` that no other call of `Get` overlaps, on
  counters that are not at the upper end of `int64`: there the read and the write of
  `c.hits++` (or `c.misses++`) act as one step and the sum does not wrap around.  The
  source makes the update while holding only the read lock; overlapping calls and the
  `int64` range are covered by the step-by-step system `Readers` at the end of this
  section, and `Get_steps_adjacent` relates the two.
-/

namespace CacheRace

/-- CacheEntry of the source: a value and the instant at which it expires. -/
structure CacheEntry where
  value : String
  expiresAt : Int
deriving DecidableEq, Repr

/-- The map `data` of the source. -/
abbrev Store := AList (fun _ : String => CacheEntry)

/-- Cache of the source, without the mutex and the singleflight group. -/
structure Cache where
  data : Store
  ttl : Int
  maxSize : Int
  hits : Int
  misses : Int

/-- NewCache: empty map, counters zero. -/
def NewCache (ttl maxSize : Int) : Cache :=
  { data := ∅, ttl := ttl, maxSize := maxSize, hits := 0, misses := 0 }

/-- The method `After` of `time.Time`: `t` is strictly later than `u`. -/
def After (t u : Int) : Bool := decide (u < t)

/-- Get: a miss when the key is absent or `now` is after the expiry, a hit otherwise.
The result is the returned pair and the cache with the counter incremented, for a call
that runs without another `Get` in between its read and its write of the counter. -/
def Cache.Get (c : Cache) (now : Int) (key : String) : (String × Bool) × Cache :=
  match c.data.lookup key with
  | none => (("", false), { c with misses := c.misses + 1 })
  | some entry =>
    if After now entry.expiresAt then
      (("", false), { c with misses := c.misses + 1 })
    else
      ((entry.value, true), { c with hits := c.hits + 1 })

/-- The loop `for k := range c.data { delete(c.data, k); break }`: deletes the first
key the iteration yields, nothing when the map is empty. -/
def evictFirst (data : Store) (pick : Nat) : Store :=
  match data.keys[pick % data.keys.length]? with
  | none => data
  | some k => data.erase k

/-- Set: when the map holds at least `maxSize` entries one entry is evicted first,
then the key is written with expiry `now + ttl`. -/
def Cache.Set (c : Cache) (now : Int) (pick : Nat) (key value : String) : Cache :=
  let data := if c.maxSize ≤ (c.data.keys.length : Int) then evictFirst c.data pick else c.data
  { c with data := data.insert key { value := value, expiresAt := now + c.ttl } }

/-- Delete: removes the key from the map. -/
def Cache.Delete (c : Cache) (key : String) : Cache :=
  { c with data := c.data.erase key }

/-- Stats: hits, misses and the number of entries. -/
def Cache.Stats (c : Cache) : Int × Int × Nat :=
  (c.hits, c.misses, c.data.keys.length)

/-- Cleanup: ranges over the entries and deletes every one whose expiry `now` is after. -/
def Cache.Cleanup (c : Cache) (now : Int) : Cache :=
  let sweep : Store → Sigma (fun _ : String => CacheEntry) → Store :=
    fun m kv => if After now kv.2.expiresAt then m.erase kv.1 else m
  { c with data := c.data.entries.foldl sweep c.data }

/-- One call `Set(key, value)`: the clock reading, the eviction choice and the arguments. -/
structure SetCall where
  now : Int
  pick : Nat
  key : String
  value : String

/-- A sequence of `Set` calls executed one after the other. -/
def runSets (c : Cache) (calls : List SetCall) : Cache :=
  calls.foldl (fun c s => c.Set s.now s.pick s.key s.value) c

/-- The store of the scenario: `maxSize = 2` and ttl 100, after `Set a` and `Set b`. -/
def twoEntries : Cache := ((NewCache 100 2).Set 0 0 "a" "1").Set 0 0 "b" "2"

/-- The same two writes into a cache with `maxSize = 3`, which leaves room. -/
def twoEntriesRoom : Cache := ((NewCache 100 3).Set 0 0 "a" "1").Set 0 0 "b" "2"

/-- What a call of `GetOrCompute` yields: the returned value, the cache afterwards, and
the arguments with which `compute` was invoked during the call, in order. -/
structure Computed where
  value : String
  cache : Cache
  calls : List String

/-- Modelled from the spec: the method `Do` of the external package
`golang.org/x/sync/singleflight`, which is not under src/, in single-threaded execution:
no in-flight record exists for the key, so the caller is the leader, `fn` runs once and
its value and error are handed back to the caller. -/
def groupDo {σ ρ : Type} (fn : σ → ρ × σ) (s : σ) : ρ × σ := fn s

/-- GetOrCompute in single-threaded execution.  `tGet` is the clock reading inside `Get`,
`tSet` the one inside `Set` (also used for the fallback `Set`); the state threaded through
`Do` is the cache together with the log of `compute` invocations. -/
def Cache.GetOrCompute (c : Cache) (tGet tSet : Int) (pick : Nat) (key : String)
    (compute : String → String) : Computed :=
  match c.Get tGet key with
  | ((value, true), c1) => { value := value, cache := c1, calls := [] }
  | ((_, false), c1) =>
    let fn : Cache × List String → (String × Option String) × (Cache × List String) :=
      fun st =>
        let value := compute key
        ((value, none), (st.1.Set tSet pick key value, st.2 ++ [key]))
    match groupDo fn (c1, []) with
    | ((result, none), (c2, calls)) => { value := result, cache := c2, calls := calls }
    | ((_, some _), (c2, calls)) =>
      let value := compute key
      { value := value, cache := c2.Set tSet pick key value, calls := calls ++ [key] }

/-- The function literal that `GetOrCompute` passes to `group.Do`: it runs `compute(key)`,
stores the value with `c.Set` and returns the value with a nil error.  `compute` is a Go
function, so a call of it may act on its surroundings: it maps the state `σ` of these
surroundings before the call to the returned string and the state after the call. -/
def computeAndSet {σ : Type} (tSet : Int) (pick : Nat) (key : String)
    (compute : String → σ → String × σ) :
    Cache × σ → (String × Option String) × (Cache × σ) :=
  fun st =>
    let r := compute key st.2
    ((r.1, none), (st.1.Set tSet pick key r.1, r.2))

/-- What a call of `GetOrCompute` with such a `compute` yields: the returned value, the
cache and the surroundings of `compute` afterwards, and the value of `err` after the call
of `Do` (`none` when the call returned before reaching `Do`). -/
structure Outcome (σ : Type) where
  value : String
  cache : Cache
  env : σ
  err : Option (Option String)

/-- GetOrCompute in single-threaded execution, for a `compute` that acts on surroundings
of type `σ`.  `tGet` is the clock reading inside `Get`, `tSet` the one inside `Set`. -/
def Cache.GetOrComputeIn {σ : Type} (c : Cache) (tGet tSet : Int) (pick : Nat) (key : String)
    (compute : String → σ → String × σ) (env : σ) : Outcome σ :=
  match c.Get tGet key with
  | ((value, true), c1) => { value := value, cache := c1, env := env, err := none }
  | ((_, false), c1) =>
    match groupDo (computeAndSet tSet pick key compute) (c1, env) with
    | ((result, none), (c2, env2)) =>
      { value := result, cache := c2, env := env2, err := some none }
    | ((_, some e), (c2, env2)) =>
      let r := compute key env2
      { value := r.1, cache := c2.Set tSet pick key r.1, env := r.2, err := some (some e) }

/-- A `compute` without effects of its own, made to count its invocations and to record
the arguments it is invoked with. -/
def logged (f : String → String) : String → List String → String × List String :=
  fun k log => (f k, log ++ [k])

/-- A `compute` made to count its invocations: the counter is part of the surroundings and
goes up by one in every call. -/
def counted {σ : Type} (compute : String → σ → String × σ) :
    String → σ × Nat → String × (σ × Nat) :=
  fun k st => ((compute k st.1).1, ((compute k st.1).2, st.2 + 1))

/-! ### Sequences of calls -/

/-- One call on the cache, with the clock readings and the eviction choice it meets. -/
inductive Op where
  | get (now : Int) (key : String)
  | set (now : Int) (pick : Nat) (key value : String)
  | delete (key : String)
  | cleanup (now : Int)
  | stats
  | getOrCompute (tGet tSet : Int) (pick : Nat) (key : String) (compute : String → String)

/-- The cache after one call. -/
def Op.apply (c : Cache) : Op → Cache
  | .get now key => (c.Get now key).2
  | .set now pick key value => c.Set now pick key value
  | .delete key => c.Delete key
  | .cleanup now => c.Cleanup now
  | .stats => c
  | .getOrCompute tGet tSet pick key compute => (c.GetOrCompute tGet tSet pick key compute).cache

/-- Number of executions of `Get` one call makes: one for `Get` itself and one for the
fast path of `GetOrCompute`. -/
def Op.gets : Op → Nat
  | .get _ _ => 1
  | .getOrCompute _ _ _ _ _ => 1
  | _ => 0

/-- The cache after a sequence of calls. -/
def run (c : Cache) (ops : List Op) : Cache := ops.foldl Op.apply c

/-- Number of executions of `Get` in a sequence of calls. -/
def getCount (ops : List Op) : Nat := (ops.map Op.gets).sum

/-- The five writes of the sweeper scenario, all at time 0. -/
def fiveWrites : List SetCall :=
  [⟨0, 0, "key0", "value0"⟩, ⟨0, 0, "key1", "value1"⟩, ⟨0, 0, "key2", "value2"⟩,
   ⟨0, 0, "key3", "value3"⟩, ⟨0, 0, "key4", "value4"⟩]

/-- Whether a call passes the key `k` to `Set` or to `GetOrCompute`. -/
def Op.writes (k : String) : Op → Prop
  | .set _ _ key _ => key = k
  | .getOrCompute _ _ _ key _ => key = k
  | _ => False

/-! ### Goroutines calling `GetOrCompute` concurrently

The goroutines all call `GetOrCompute(key, compute)` on one cache.  `Get` and `Set` run
under the cache's lock and `Do` registers or finds the in-flight record under the group's
lock, so a goroutine advances in the atomic steps below; between two steps of one
goroutine any other goroutine may take steps. -/

/-- Where a goroutine stands inside `GetOrCompute`. -/
inductive Phase where
  | start
  | missed
  | leading
  | waiting
  | done (value : String)
deriving DecidableEq, Repr

/-- The shared state: the cache, whether the group holds an in-flight record for the key,
the phase of every goroutine, and how many times `compute` has run. -/
structure System where
  cache : Cache
  inflight : Bool
  phases : List Phase
  computeCalls : Nat

/-- `n` goroutines about to call `GetOrCompute` on cache `c`. -/
def System.init (c : Cache) (n : Nat) : System :=
  { cache := c, inflight := false, phases := List.replicate n Phase.start, computeCalls := 0 }

/-- Followers blocked on the in-flight record receive the leader's value. -/
def wake (value : String) : Phase → Phase
  | .waiting => .done value
  | p => p

/-- Modelled from the spec: the in-flight registry (`Do` of the external package
`golang.org/x/sync/singleflight`, not under src/) as section 4.2 describes it.  One step
of goroutine `i`:
* `start`: the fast path `c.Get(key)`; a hit returns, a miss goes on to `Do`;
* `missed`: the call of `Do`; with no record for the key the goroutine registers one and
  becomes the leader, otherwise it becomes a follower and blocks;
* `leading`: the leader runs `compute(key)` and `c.Set`, the record is removed and the
  leader and every follower return the value;
* `waiting` and `done`: no step. -/
def System.step (key : String) (compute : String → String) (s : System)
    (i : Nat) (now : Int) (pick : Nat) : System :=
  match s.phases[i]? with
  | some .start =>
    match s.cache.Get now key with
    | ((value, true), c1) => { s with cache := c1, phases := s.phases.set i (.done value) }
    | ((_, false), c1) => { s with cache := c1, phases := s.phases.set i .missed }
  | some .missed =>
    if s.inflight then { s with phases := s.phases.set i .waiting }
    else { s with inflight := true, phases := s.phases.set i .leading }
  | some .leading =>
    let value := compute key
    { cache := s.cache.Set now pick key value
      inflight := false
      phases := (s.phases.set i (.done value)).map (wake value)
      computeCalls := s.computeCalls + 1 }
  | _ => s

/-- A schedule: which goroutine moves next, with the clock reading and eviction choice. -/
def System.exec (key : String) (compute : String → String) (s : System)
    (schedule : List (Nat × Int × Nat)) : System :=
  schedule.foldl (fun st m => System.step key compute st m.1 m.2.1 m.2.2) s

/-! ### Goroutines calling `Get` concurrently

`Get` updates `hits` and `misses` while it holds only the read lock, which several
goroutines hold at the same time.  The system below follows a `Get` in two steps, the read
and the write of the counter, and keeps the counters in the range of `int64`. -/

/-- The counters are `int64`: an increment stores the sum reduced to the range from
`-2^63` to `2^63 - 1`. -/
def wrap64 (x : Int) : Int := (x + 2 ^ 63) % 2 ^ 64 - 2 ^ 63

/-- Where a goroutine stands inside `Get(key)`: not yet started; holding the read lock
after it has read the map, compared the time and read the counter it is about to
increment (`old` is the value read); returned. -/
inductive GetPhase where
  | start (key : String)
  | read (value : String) (found : Bool) (old : Int)
  | done (value : String) (found : Bool)
deriving DecidableEq, Repr

/-- Goroutines that call `Get` on one cache, each once. -/
structure Readers where
  cache : Cache
  phases : List GetPhase

/-- One goroutine per key, none started. -/
def Readers.init (c : Cache) (keys : List String) : Readers :=
  { cache := c, phases := keys.map GetPhase.start }

/-- One step of goroutine `i` inside `Get`.  `c.mu.RLock()` is a shared lock, so any
number of goroutines are inside `Get` at the same time and their steps interleave; a
writer (`Set`, `Delete`, `Cleanup`) cannot run while a reader holds the lock, and none is
part of this system.  The statement `c.misses++` (or `c.hits++`) is a read of the field
followed by a write of the incremented value:
* `start`: `RLock`, the map lookup, the ttl test at clock reading `now`, and the read of
  the counter of the branch taken;
* `read`: the write of the incremented counter, `RUnlock` and the return;
* `done`: no step. -/
def Readers.step (s : Readers) (i : Nat) (now : Int) : Readers :=
  match s.phases[i]? with
  | some (.start key) =>
    match s.cache.data.lookup key with
    | none => { s with phases := s.phases.set i (.read "" false s.cache.misses) }
    | some entry =>
      if After now entry.expiresAt then
        { s with phases := s.phases.set i (.read "" false s.cache.misses) }
      else
        { s with phases := s.phases.set i (.read entry.value true s.cache.hits) }
  | some (.read value found old) =>
    { cache :=
        if found then { s.cache with hits := wrap64 (old + 1) }
        else { s.cache with misses := wrap64 (old + 1) }
      phases := s.phases.set i (.done value found) }
  | _ => s

/-- A schedule: which goroutine moves next, and the clock reading it meets. -/
def Readers.exec (s : Readers) (schedule : List (Nat × Int)) : Readers :=
  schedule.foldl (fun st m => st.step m.1 m.2) s

/-- One `Get(key)` that no other `Get` overlaps: both steps of the only goroutine. -/
def Cache.GetAlone (c : Cache) (now : Int) (key : String) : Cache :=
  ((Readers.init c [key]).exec [(0, now), (0, now)]).cache

end CacheRace

/-!
# Valid parentheses

Shallow embedding of `concurrency/algorithm/03_strings/13_valid_parentheses/solution/main.go`.
A string is read as the sequence of its runes, as `range` yields them.
-/

namespace ValidParentheses

/-- The map `pairs` of the source: a closing bracket and the opening bracket it closes. -/
def pairs (char : Char) : Option Char :=
  if char = ')' then some '('
  else if char = '}' then some '{'
  else if char = ']' then some '['
  else none

/-- The loop `for _, char := range s` of `isValid` over the runes still to read; `stack`
is the slice of the source, its top being the last element. -/
def isValidLoop (stack : List Char) : List Char → Bool
  | [] => stack.length == 0
  | char :: rest =>
    match pairs char with
    | some opening =>
      if stack.length = 0 ∨ stack.getLast? ≠ some opening then false
      else isValidLoop stack.dropLast rest
    | none => isValidLoop (stack ++ [char]) rest

/-- isValid: the stack starts empty and the runes of `s` are read in order. -/
def isValid (s : String) : Bool := isValidLoop [] s.toList

/-- Correctly nested bracket sequences, by the grammar
`S -> empty | S S | (S) | [S] | {S}`. -/
inductive Balanced : List Char → Prop
  | empty : Balanced []
  | concat {u v : List Char} : Balanced u → Balanced v → Balanced (u ++ v)
  | paren {u : List Char} : Balanced u → Balanced ('(' :: u ++ [')'])
  | bracket {u : List Char} : Balanced u → Balanced ('[' :: u ++ [']'])
  | brace {u : List Char} : Balanced u → Balanced ('{' :: u ++ ['}'])

end ValidParentheses

/-!
# Container with most water

Shallow embedding of
`concurrency/algorithm/05_two_pointers/22_container_with_most_water/solution/main.go`.
A slice `[]int` is a list of integers.
-/

namespace ContainerWithMostWater

/-- Go's `int` has 64 bits: the result of an arithmetic operation is reduced to the range
from `-2^63` to `2^63 - 1` by wrapping around. -/
def wrapInt (x : Int) : Int := (x + 2 ^ 63) % 2 ^ 64 - 2 ^ 63

/-- The function `min` of the source. -/
def min (a b : Int) : Int := if a < b then a else b

/-- The loop `for left < right` of `maxArea`.  Every iteration moves one pointer by one,
so `fuel` counts down with `right - left`; the index expressions `height[left]` and
`height[right]` read the list at that position.  The product `width * minHeight` wraps
around as Go's `int` does; `right - left` lies between 0 and the length of the slice and
cannot. -/
def maxAreaLoop (height : List Int) : Nat → Int → Int → Int → Int
  | 0, _, _, maxArea => maxArea
  | fuel + 1, left, right, maxArea =>
    if left < right then
      let width := right - left
      let minHeight := min (height.getD left.toNat 0) (height.getD right.toNat 0)
      let currentArea := wrapInt (width * minHeight)
      let maxArea := if currentArea > maxArea then currentArea else maxArea
      if height.getD left.toNat 0 < height.getD right.toNat 0 then
        maxAreaLoop height fuel (left + 1) right maxArea
      else
        maxAreaLoop height fuel left (right - 1) maxArea
    else maxArea

/-- maxArea: `left` starts at 0, `right` at `len(height) - 1`, the best area at 0. -/
def maxArea (height : List Int) : Int :=
  maxAreaLoop height height.length 0 ((height.length : Int) - 1) 0

/-- The water between the lines at positions `i` and `j`: `(j - i) * min(height[i], height[j])`
over the integers. -/
def area (height : List Int) (i j : Nat) : Int :=
  ((j : Int) - (i : Int)) * Min.min (height.getD i 0) (height.getD j 0)

/-- The areas of all index pairs `i < j` of the slice. -/
def pairAreas (height : List Int) : Set Int :=
  { a | ∃ i j, i < j ∧ j < height.length ∧ a = area height i j }

end ContainerWithMostWater

/-!
# Maximum of a sliding window

Shallow embedding of
`concurrency/algorithm/06_sliding_window/26_max_sliding_window/solution/main.go`.
The values of `nums` are only compared, never added, so they are plain integers.
-/

namespace MaxSlidingWindow

/-- The variables the loop of `maxSlidingWindow` updates: the deque of indices (front
first) and the result slice. -/
structure LoopState where
  deque : List Nat
  result : List Int

/-- One iteration of `for i := 0; i < len(nums); i++`. -/
def step (nums : List Int) (k : Int) (st : LoopState) (i : Nat) : LoopState :=
  let deque1 :=
    match st.deque with
    | [] => []
    | front :: rest => if (front : Int) < (i : Int) - k + 1 then rest else front :: rest
  let deque2 := deque1.rdropWhile (fun j => decide (nums.getD j 0 < nums.getD i 0))
  let deque3 := deque2 ++ [i]
  let result :=
    if (i : Int) ≥ k - 1 then st.result ++ [nums.getD (deque3.headD 0) 0] else st.result
  { deque := deque3, result := result }

/-- maxSlidingWindow: `none` stands for the panic of `make` on a negative capacity
(`k < 0`, or `k > len(nums) + 1`). -/
def maxSlidingWindow (nums : List Int) (k : Int) : Option (List Int) :=
  if nums.length = 0 ∨ k = 0 then some []
  else if (nums.length : Int) - k + 1 < 0 ∨ k < 0 then none
  else some ((List.range nums.length).foldl (step nums k) { deque := [], result := [] }).result

/-- The window of `k` elements starting at position `i`: `nums[i], ..., nums[i+k-1]`. -/
def window (nums : List Int) (k i : Nat) : List Int := (nums.drop i).take k

/-- What holds after the iterations for `i = 0, ..., n - 1`: the deque lists indices of
the current window in increasing order with non-increasing values, every index of the
window is dominated by a later index of the deque, and the result holds the maxima of the
windows completed so far. -/
structure Inv (nums : List Int) (k n : Nat) (st : LoopState) : Prop where
  sorted : st.deque.Pairwise (fun a b => a < b ∧ nums.getD b 0 ≤ nums.getD a 0)
  inWin : ∀ j ∈ st.deque, j < n ∧ n ≤ j + k
  dom : ∀ j, j < n → n ≤ j + k → ∃ m ∈ st.deque, j ≤ m ∧ nums.getD j 0 ≤ nums.getD m 0
  len : st.result.length = n + 1 - k
  isMax : ∀ idx, idx < st.result.length →
    (∃ m, idx ≤ m ∧ m < idx + k ∧ st.result.getD idx 0 = nums.getD m 0) ∧
    ∀ j, idx ≤ j → j < idx + k → nums.getD j 0 ≤ st.result.getD idx 0

end MaxSlidingWindow

/-!
# Minimum window substring

Shallow embedding of
`concurrency/algorithm/06_sliding_window/27_minimum_window_substring/solution/main.go`.
A string is the list of its bytes, `s[i]` is the byte at position `i`.
-/

namespace MinimumWindowSubstring

/-- A Go map from bytes to `int` used as a frequency table: the keys written so far, in
the order of their first write, and the value stored for each key (0 for a key that is
not in the map, as Go's zero value). -/
structure Counts (α : Type) where
  keys : List α
  val : α → Int

/-- The empty map, `make(map[byte]int)`. -/
def Counts.empty {α : Type} : Counts α := { keys := [], val := fun _ => 0 }

/-- The statements `m[b]++` (`d = 1`) and `m[b]--` (`d = -1`): the key is created when it
is missing and its value changes by `d`. -/
def Counts.add {α : Type} [DecidableEq α] (m : Counts α) (b : α) (d : Int) : Counts α :=
  { keys := if b ∈ m.keys then m.keys else m.keys ++ [b]
    val := fun x => if x = b then m.val x + d else m.val x }

/-- The variables the loops of `minWindow` update. -/
structure State (α : Type) where
  windowCount : Counts α
  formed : Int
  minLen : Nat
  minLeft : Nat
  minRight : Nat
  left : Nat

/-- The update `if right-left+1 < minLen { ... }` of the best window found so far. -/
def record {α : Type} (right : Nat) (st : State α) : State α :=
  if right - st.left + 1 < st.minLen then
    { st with minLen := right - st.left + 1, minLeft := st.left, minRight := right }
  else st

/-- The rest of the inner loop body: the byte at `left` leaves the window, `formed` is
decremented when its frequency falls below the required one, and `left` advances. -/
def dropLeft {α : Type} [DecidableEq α] [Inhabited α] (s : List α) (tCount : Counts α)
    (st : State α) : State α :=
  let leftChar := s.getD st.left default
  let windowCount := st.windowCount.add leftChar (-1)
  let formed :=
    if leftChar ∈ tCount.keys ∧ windowCount.val leftChar < tCount.val leftChar then
      st.formed - 1
    else st.formed
  { st with windowCount := windowCount, formed := formed, left := st.left + 1 }

/-- The inner loop `for left <= right && formed == required`.  Every iteration increments
`left`, so `fuel = right + 1 - left` iterations reach `left > right`. -/
def shrink {α : Type} [DecidableEq α] [Inhabited α] (s : List α) (tCount : Counts α)
    (required : Int) (right : Nat) : Nat → State α → State α
  | 0, st => st
  | fuel + 1, st =>
    if st.left ≤ right ∧ st.formed = required then
      shrink s tCount required right fuel (dropLeft s tCount (record right st))
    else st

/-- One iteration of the outer loop `for right := 0; right < len(s); right++`. -/
def expand {α : Type} [DecidableEq α] [Inhabited α] (s : List α) (tCount : Counts α)
    (required : Int) (st : State α) (right : Nat) : State α :=
  let char := s.getD right default
  let windowCount := st.windowCount.add char 1
  let formed :=
    if char ∈ tCount.keys ∧ windowCount.val char = tCount.val char then st.formed + 1
    else st.formed
  shrink s tCount required right (right + 1 - st.left)
    { st with windowCount := windowCount, formed := formed }

/-- minWindow on strings given as the sequences of their bytes.  Bytes are only compared
for equality, so the element type is left open. -/
def minWindow {α : Type} [DecidableEq α] [Inhabited α] (s t : List α) : List α :=
  if s.length = 0 ∨ t.length = 0 ∨ s.length < t.length then []
  else
    let tCount := t.foldl (fun m b => m.add b 1) Counts.empty
    let required : Int := tCount.keys.length
    let st := (List.range s.length).foldl (expand s tCount required)
      { windowCount := Counts.empty, formed := 0, minLen := s.length + 1,
        minLeft := 0, minRight := 0, left := 0 }
    if st.minLen = s.length + 1 then []
    else (s.drop st.minLeft).take (st.minRight + 1 - st.minLeft)

/-- The window `w` covers `t`: every byte occurs in `w` at least as often as in `t`. -/
def Covers {α : Type} [DecidableEq α] (w t : List α) : Prop :=
  ∀ b, t.count b ≤ w.count b

/-- Number of occurrences of `b` among the first `n` bytes of `s`. -/
def prefixCount {α : Type} [DecidableEq α] (s : List α) (n : Nat) (b : α) : Int :=
  ((s.take n).count b : Int)

/-- The bytes of `s` at positions `l, ..., r - 1` cover `t`. -/
def ValidWin {α : Type} [DecidableEq α] (s t : List α) (l r : Nat) : Prop :=
  ∀ b, (t.count b : Int) ≤ prefixCount s r b - prefixCount s l b

/-- Number of keys of the table `tc` whose required frequency the table `wc` reaches. -/
def reached {α : Type} (keys : List α) (tc wc : α → Int) : Nat :=
  keys.countP (fun b => decide (tc b ≤ wc b))

/-- The table `tCount` holds the frequencies of `t`. -/
structure TableOf {α : Type} [DecidableEq α] (t : List α) (tCount : Counts α) : Prop where
  nodup : tCount.keys.Nodup
  mem : ∀ b, b ∈ tCount.keys ↔ b ∈ t
  val : ∀ b, tCount.val b = (t.count b : Int)

/-- What holds between iterations: `n` bytes of `s` are in or behind the window, windows
ending at or before `m` are accounted for in `minLen`. -/
structure Inv {α : Type} [DecidableEq α] (s t : List α) (tCount : Counts α) (n m : Nat)
    (st : State α) : Prop where
  left_le : st.left ≤ n
  win : ∀ b, st.windowCount.val b = prefixCount s n b - prefixCount s st.left b
  formed_eq : st.formed = (reached tCount.keys tCount.val st.windowCount.val : Int)
  best : st.minLen = s.length + 1 ∨
    (st.minLeft ≤ st.minRight ∧ st.minRight < n ∧ st.minLen = st.minRight + 1 - st.minLeft ∧
      ValidWin s t st.minLeft (st.minRight + 1))
  older : ∀ l r, l < r → r ≤ m → ValidWin s t l r → st.minLen + l ≤ r
  passed : ∀ l, l < st.left → st.minLen + l ≤ n

end MinimumWindowSubstring

/-!
# Rotate array

Shallow embedding of
`concurrency/algorithm/01_arrays_and_slices/05_rotate_array/solution/main.go`, for `k ≥ 0`.
The slice is a list of integers; a function that writes into the slice returns the list
the call leaves behind.
-/

namespace RotateArray


/-- The assignment `nums[start], nums[end] = nums[end], nums[start]`. -/
def swap (nums : List Int) (i j : Nat) : List Int :=
  (nums.set i (nums.getD j 0)).set j (nums.getD i 0)

/-- The function `reverse` of the source, `for start < end`.  Every iteration narrows
`end - start` by two, so `fuel = end - start` iterations are never used up. -/
def reverse : Nat → List Int → Nat → Nat → List Int
  | 0, nums, _, _ => nums
  | fuel + 1, nums, start, stop =>
    if start < stop then reverse fuel (swap nums start stop) (start + 1) (stop - 1)
    else nums

/-- rotate for `k ≥ 0`; the result is the slice as the call leaves it. -/
def rotate (nums : List Int) (k : Nat) : List Int :=
  let n := nums.length
  if n = 0 then nums
  else
    let k := k % n
    if k = 0 then nums
    else
      let nums1 := reverse (n - 1 - 0) nums 0 (n - 1)
      let nums2 := reverse (k - 1 - 0) nums1 0 (k - 1)
      reverse (n - 1 - k) nums2 k (n - 1)

end RotateArray

/-!
# Remove duplicates from a sorted slice in place

Shallow embedding of
`concurrency/algorithm/05_two_pointers/25_remove_duplicates_in_place/solution/main.go`.
-/

namespace RemoveDuplicatesInPlace


/-- One iteration of `for fast := 1; fast < len(nums); fast++`: the state is the slice and
`slow`. -/
def step (st : List Int × Nat) (fast : Nat) : List Int × Nat :=
  if st.1.getD fast 0 ≠ st.1.getD st.2 0 then
    (st.1.set (st.2 + 1) (st.1.getD fast 0), st.2 + 1)
  else st

/-- removeDuplicates: the returned count together with the slice as the call leaves it. -/
def removeDuplicates (nums : List Int) : Nat × List Int :=
  if nums.length = 0 then (0, nums)
  else
    let st := (List.range' 1 (nums.length - 1)).foldl step (nums, 0)
    (st.2 + 1, st.1)

/-- What holds when the elements before position `f` have been scanned. -/
structure Inv (orig : List Int) (f : Nat) (st : List Int × Nat) : Prop where
  slow_lt : st.2 < f
  len : st.1.length = orig.length
  rest : ∀ j, f ≤ j → st.1.getD j 0 = orig.getD j 0
  last : st.1.getD st.2 0 = orig.getD (f - 1) 0
  sorted : (st.1.take (st.2 + 1)).Sorted (· < ·)
  mem : ∀ x, x ∈ st.1.take (st.2 + 1) ↔ x ∈ orig.take f

end RemoveDuplicatesInPlace

/-!
# Find all anagrams

Shallow embedding of
`concurrency/algorithm/03_strings/15_find_all_anagrams/solution/main.go`.
A string is the list of its bytes; bytes are only compared for equality, so the element
type is left open.
-/

namespace FindAllAnagrams

/-- A Go `map[byte]int`: a finite map with distinct keys. -/
abbrev ByteMap (α : Type) := AList (fun _ : α => Int)

/-- The expression `m[b]`: the stored value, 0 for a missing key. -/
def get {α : Type} [DecidableEq α] (m : ByteMap α) (b : α) : Int := (m.lookup b).getD 0

/-- The statement `m[b]++`. -/
def incr {α : Type} [DecidableEq α] (m : ByteMap α) (b : α) : ByteMap α :=
  m.insert b (get m b + 1)

/-- The statement `m[b]--`. -/
def decr {α : Type} [DecidableEq α] (m : ByteMap α) (b : α) : ByteMap α :=
  m.insert b (get m b - 1)

/-- mapsEqual: the lengths agree and every entry of `m1` has the same value in `m2`. -/
def mapsEqual {α : Type} [DecidableEq α] (m1 m2 : ByteMap α) : Bool :=
  if m1.keys.length ≠ m2.keys.length then false
  else m1.entries.all (fun kv => decide (get m2 kv.1 = kv.2))

/-- One iteration of `for i := pLen; i < sLen; i++`: the state is `windowCount` and
`result`. -/
def slide {α : Type} [DecidableEq α] [Inhabited α] (s : List α) (pLen : Nat)
    (pCount : ByteMap α) (st : ByteMap α × List Nat) (i : Nat) : ByteMap α × List Nat :=
  let windowCount := incr st.1 (s.getD i default)
  let leftChar := s.getD (i - pLen) default
  let windowCount := decr windowCount leftChar
  let windowCount :=
    if get windowCount leftChar = 0 then windowCount.erase leftChar else windowCount
  let result := if mapsEqual pCount windowCount then st.2 ++ [i - pLen + 1] else st.2
  (windowCount, result)

/-- The loops `for i := 0; i < pLen; i++ { m[x[i]]++ }` that fill a frequency table. -/
def fill {α : Type} [DecidableEq α] [Inhabited α] (x : List α) (pLen : Nat) : ByteMap α :=
  (List.range pLen).foldl (fun m i => incr m (x.getD i default)) ∅

/-- findAnagrams on strings given as the sequences of their bytes. -/
def findAnagrams {α : Type} [DecidableEq α] [Inhabited α] (s p : List α) : List Nat :=
  if s.length < p.length then []
  else
    let pCount := fill p p.length
    let windowCount := fill s p.length
    let result := if mapsEqual pCount windowCount then [0] else []
    ((List.range' p.length (s.length - p.length)).foldl (slide s p.length pCount)
      (windowCount, result)).2

/-- The map `m` holds exactly the non-zero frequencies `cnt`. -/
def Represents {α : Type} [DecidableEq α] (m : ByteMap α) (cnt : α → Int) : Prop :=
  ∀ b, m.lookup b = if cnt b = 0 then none else some (cnt b)

end FindAllAnagrams

/-!
# Longest substring without repeating characters

Shallow embedding of
`concurrency/algorithm/03_strings/14_longest_substring_without_repeating/solution/main.go`.
The string is valid UTF-8; `range` yields its runes together with the byte offsets at
which they start.
-/

namespace LongestSubstringWithoutRepeating


/-- What `for right, char := range s` yields from byte offset `offset` on: each rune with
the byte offset at which its UTF-8 encoding starts. -/
def rangeFrom (offset : Nat) : List Char → List (Nat × Char)
  | [] => []
  | char :: rest => (offset, char) :: rangeFrom (offset + char.utf8Size) rest

/-- The variables the loop of `lengthOfLongestSubstring` updates; the map `charIndex` is
the function from a rune to its stored index, `none` for a missing key. -/
structure State where
  charIndex : Char → Option Int
  maxLen : Int
  left : Int

/-- One iteration of the loop, for the pair `(right, char)`. -/
def step (st : State) (rc : Nat × Char) : State :=
  let right : Int := rc.1
  let char := rc.2
  let left :=
    match st.charIndex char with
    | some lastIndex => if lastIndex ≥ st.left then lastIndex + 1 else st.left
    | none => st.left
  let charIndex := fun c => if c = char then some right else st.charIndex c
  let currentLen := right - left + 1
  let maxLen := if currentLen > st.maxLen then currentLen else st.maxLen
  { charIndex := charIndex, maxLen := maxLen, left := left }

/-- lengthOfLongestSubstring: the string is read as the sequence of its runes. -/
def lengthOfLongestSubstring (s : String) : Int :=
  ((rangeFrom 0 s.toList).foldl step
    { charIndex := fun _ => none, maxLen := 0, left := 0 }).maxLen

end LongestSubstringWithoutRepeating

/-! # Linked lists

`src/concurrency/algorithm/02_linked_lists/{07_reverse_linked_list, 08_linked_list_cycle,
09_merge_two_sorted_lists, 10_remove_duplicates_sorted_list}/solution/main.go`.

The four programs declare the same `ListNode` and work on pointers, so they are embedded
over an explicit heap: a pointer is `none` (nil) or the address of a node, an assignment to
`p.Next` updates the heap, and a loop takes a fuel argument (`none` is "out of fuel"). -/

namespace LinkedLists

/-- ListNode of the sources.  A pointer `*ListNode` is `none` for nil and `some a` for the
node at address `a`. -/
structure ListNode where
  Val : Int
  Next : Option Nat
deriving DecidableEq, Repr

/-- The nodes allocated so far; the address of a node is its position. -/
abbrev Heap := List ListNode

/-- The assignment `p.Next = q` for the node at address `a`. -/
def setNext (h : Heap) (a : Nat) (q : Option Nat) : Heap :=
  match h[a]? with
  | some node => h.set a { node with Next := q }
  | none => h

/-- The nodes with addresses and values `cells`, linked in this order, lead from the
pointer `p` to the pointer `q`. -/
def Seg (h : Heap) : Option Nat → List (Nat × Int) → Option Nat → Prop
  | p, [], q => p = q
  | p, (a, v) :: rest, q =>
    p = some a ∧ ∃ nxt, h[a]? = some { Val := v, Next := nxt } ∧ Seg h nxt rest q

/-- The pointer `p` is the head of the finite acyclic list with the nodes `cells`. -/
def IsList (h : Heap) (p : Option Nat) (cells : List (Nat × Int)) : Prop := Seg h p cells none

/-- The loop `for current != nil` of `reverseList`. -/
def reverseLoop : Nat → Heap → Option Nat → Option Nat → Option (Heap × Option Nat)
  | 0, _, _, _ => none
  | _ + 1, h, prev, none => some (h, prev)
  | fuel + 1, h, prev, some a =>
    match h[a]? with
    | none => none
    | some node => reverseLoop fuel (setNext h a prev) (some a) node.Next

/-- reverseList: the heap the call leaves behind and the returned pointer; `none` when
`fuel` iterations do not finish the loop. -/
def reverseList (fuel : Nat) (h : Heap) (head : Option Nat) : Option (Heap × Option Nat) :=
  reverseLoop fuel h none head

/-- The loop `for current != nil && current.Next != nil` of `deleteDuplicates`. -/
def deleteLoop : Nat → Heap → Option Nat → Option Heap
  | 0, _, _ => none
  | _ + 1, h, none => some h
  | fuel + 1, h, some a =>
    match h[a]? with
    | none => none
    | some node =>
      match node.Next with
      | none => some h
      | some b =>
        match h[b]? with
        | none => none
        | some nextNode =>
          if node.Val = nextNode.Val then deleteLoop fuel (setNext h a nextNode.Next) (some a)
          else deleteLoop fuel h (some b)

/-- deleteDuplicates: the heap the call leaves behind and the returned pointer. -/
def deleteDuplicates (fuel : Nat) (h : Heap) (head : Option Nat) :
    Option (Heap × Option Nat) :=
  match head with
  | none => some (h, head)
  | some _ =>
    match deleteLoop fuel h head with
    | none => none
    | some h2 => some (h2, head)

/-- The nodes `deleteDuplicates` keeps behind a node with value `v`: a node is dropped
when its value equals the value of the last node kept. -/
def keepDistinct (v : Int) : List (Nat × Int) → List (Nat × Int)
  | [] => []
  | (b, w) :: rest => if v = w then keepDistinct v rest else (b, w) :: keepDistinct w rest

/-- The loop `for list1 != nil && list2 != nil` of `mergeTwoLists` and the statements
that link the rest of the list not yet exhausted behind `current`. -/
def mergeLoop : Nat → Heap → Nat → Option Nat → Option Nat → Option Heap
  | 0, _, _, _, _ => none
  | fuel + 1, h, current, some a1, some a2 =>
    match h[a1]?, h[a2]? with
    | some node1, some node2 =>
      if node1.Val ≤ node2.Val then
        let h1 := setNext h current (some a1)
        match h1[a1]? with
        | some moved => mergeLoop fuel h1 a1 moved.Next (some a2)
        | none => none
      else
        let h1 := setNext h current (some a2)
        match h1[a2]? with
        | some moved => mergeLoop fuel h1 a2 (some a1) moved.Next
        | none => none
    | _, _ => none
  | _ + 1, h, current, some a1, none => some (setNext h current (some a1))
  | _ + 1, h, current, none, list2 => some (setNext h current list2)

/-- mergeTwoLists: `dummy := &ListNode{}` allocates a node at the next free address; the
result is the heap the call leaves behind and `dummy.Next`. -/
def mergeTwoLists (fuel : Nat) (h : Heap) (list1 list2 : Option Nat) :
    Option (Heap × Option Nat) :=
  let dummy := h.length
  let h0 := h ++ [{ Val := 0, Next := none }]
  match mergeLoop fuel h0 dummy list1 list2 with
  | none => none
  | some h2 =>
    match h2[dummy]? with
    | some node => some (h2, node.Next)
    | none => none

/-- The order in which `mergeTwoLists` links the nodes of two lists. -/
def mergeCells : Nat → List (Nat × Int) → List (Nat × Int) → List (Nat × Int)
  | 0, l1, l2 => l1 ++ l2
  | fuel + 1, (a1, v1) :: rest1, (a2, v2) :: rest2 =>
    if v1 ≤ v2 then (a1, v1) :: mergeCells fuel rest1 ((a2, v2) :: rest2)
    else (a2, v2) :: mergeCells fuel ((a1, v1) :: rest1) rest2
  | _ + 1, l1, [] => l1
  | _ + 1, [], l2 => l2

/-- The heap of the shared-tail example: node 0 holds 1, node 1 holds 2, both point to
node 2, which holds 3 and ends the list. -/
def sharedTail : Heap :=
  [{ Val := 1, Next := some 2 }, { Val := 2, Next := some 2 }, { Val := 3, Next := none }]

/-- The pointer reached from `p` by one `.Next` (nil stays nil; an address outside the heap
has no node to read and is treated as the end). -/
def next (h : Heap) : Option Nat → Option Nat
  | none => none
  | some a =>
    match h[a]? with
    | some node => node.Next
    | none => none

/-- The pointer reached from `head` by following `.Next` `k` times. -/
def follow (h : Heap) (head : Option Nat) (k : Nat) : Option Nat := (next h)^[k] head

/-- The `for fast != nil && fast.Next != nil` loop of `hasCycle`; `none` is "out of fuel"
(or a read outside the heap, which a closed heap excludes). -/
def hasCycleLoop : Nat → Heap → Option Nat → Option Nat → Option Bool
  | 0, _, _, _ => none
  | fuel + 1, h, slow, fast =>
    match fast with
    | none => some false
    | some f =>
      match h[f]? with
      | none => none
      | some fnode =>
        match fnode.Next with
        | none => some false
        | some f1 =>
          match slow with
          | none => none
          | some s =>
            match h[s]?, h[f1]? with
            | some snode, some f1node =>
              if snode.Next = f1node.Next then some true
              else hasCycleLoop fuel h snode.Next f1node.Next
            | _, _ => none

/-- hasCycle: the early return for `head == nil || head.Next == nil`, then the loop
started with `slow = fast = head`. -/
def hasCycle (fuel : Nat) (h : Heap) (head : Option Nat) : Option Bool :=
  match head with
  | none => some false
  | some a =>
    match h[a]? with
    | none => none
    | some node =>
      match node.Next with
      | none => some false
      | some _ => hasCycleLoop fuel h head head

/-- Every `Next` pointer stored in the heap is nil or the address of a node of the heap. -/
def Closed (h : Heap) : Prop :=
  ∀ (a : Nat) (node : ListNode), h[a]? = some node → ∀ b, node.Next = some b → b < h.length

end LinkedLists

/-! # Theorems -/

namespace CacheRace

/-! ## Basic facts about the operations -/

theorem Set_lookup_self (c : Cache) (now : Int) (pick : Nat) (key value : String) :
    (c.Set now pick key value).data.lookup key
      = some { value := value, expiresAt := now + c.ttl } := by
  simp [Cache.Set, AList.lookup_insert]

theorem Set_fields (c : Cache) (now : Int) (pick : Nat) (key value : String) :
    (c.Set now pick key value).ttl = c.ttl ∧ (c.Set now pick key value).maxSize = c.maxSize ∧
    (c.Set now pick key value).hits = c.hits ∧ (c.Set now pick key value).misses = c.misses := by
  simp [Cache.Set]

theorem Get_hit (c : Cache) (now : Int) (key : String) (e : CacheEntry)
    (hl : c.data.lookup key = some e) (hle : now ≤ e.expiresAt) :
    c.Get now key = ((e.value, true), { c with hits := c.hits + 1 }) := by
  have h : ¬ e.expiresAt < now := by omega
  simp [Cache.Get, hl, After, h]

theorem Get_miss_absent (c : Cache) (now : Int) (key : String)
    (hl : c.data.lookup key = none) :
    c.Get now key = (("", false), { c with misses := c.misses + 1 }) := by
  simp [Cache.Get, hl]

theorem Get_miss_expired (c : Cache) (now : Int) (key : String) (e : CacheEntry)
    (hl : c.data.lookup key = some e) (hlt : e.expiresAt < now) :
    c.Get now key = (("", false), { c with misses := c.misses + 1 }) := by
  simp [Cache.Get, hl, After, hlt]

theorem evictFirst_spec (data : Store) (pick : Nat) :
    (data.keys = [] ∧ evictFirst data pick = data) ∨
    (∃ e, e ∈ data.keys ∧ evictFirst data pick = data.erase e) := by
  unfold evictFirst
  cases h : data.keys[pick % data.keys.length]? with
  | none =>
    left
    refine ⟨?_, rfl⟩
    rw [List.getElem?_eq_none_iff] at h
    by_contra hne
    have hpos : 0 < data.keys.length := List.length_pos.mpr hne
    have := Nat.mod_lt pick hpos
    omega
  | some k =>
    right
    exact ⟨k, List.getElem?_mem h, rfl⟩

theorem evictFirst_pick (data : Store) (e : String) (he : e ∈ data.keys) :
    ∃ pick, evictFirst data pick = data.erase e := by
  obtain ⟨i, hi, hget⟩ := List.getElem_of_mem he
  refine ⟨i, ?_⟩
  unfold evictFirst
  rw [Nat.mod_eq_of_lt hi, List.getElem?_eq_getElem hi, hget]

theorem keys_length_erase (data : Store) (e : String) (he : e ∈ data.keys) :
    (data.erase e).keys.length = data.keys.length - 1 := by
  rw [AList.keys_erase, List.length_erase_of_mem he]

theorem keys_length_insert_new (data : Store) (k : String) (b : CacheEntry) (hk : k ∉ data) :
    (data.insert k b).keys.length = data.keys.length + 1 := by
  rw [AList.keys_insert, List.length_cons, List.erase_of_not_mem (fun h => hk (AList.mem_keys.mpr h))]

theorem keys_length_insert_old (data : Store) (k : String) (b : CacheEntry) (hk : k ∈ data) :
    (data.insert k b).keys.length = data.keys.length := by
  have hm : k ∈ data.keys := AList.mem_keys.mp hk
  have hpos : 0 < data.keys.length := List.length_pos_of_mem hm
  rw [AList.keys_insert, List.length_cons, List.length_erase_of_mem hm]
  omega

theorem keys_length_insert_le (data : Store) (k : String) (b : CacheEntry) :
    (data.insert k b).keys.length ≤ data.keys.length + 1 := by
  by_cases hk : k ∈ data
  · rw [keys_length_insert_old data k b hk]; omega
  · rw [keys_length_insert_new data k b hk]

/-! ## C1 -/

/-- C1 (as amended): for every cache state, key and time `now`, if the key is absent or
the stored entry has `expiresAt < now` (more than ttl has elapsed since the write),
`Get` returns `("", false)`; if the stored entry has `expiresAt = now` (exactly ttl has
elapsed), and more generally whenever `now ≤ expiresAt`, `Get` returns the stored value
with found = true.  In terms of the write: after `Set(key, v)` at time `t0`, `Get(key)` at
time `now` misses when `t0 + ttl < now` and returns `(v, true)` otherwise, so also at
`now = t0 + ttl`. -/
theorem Get_absent_or_past_expiry (c : Cache) (now : Int) (key : String) :
    ((c.data.lookup key = none ∨ ∃ e, c.data.lookup key = some e ∧ e.expiresAt < now) →
      (c.Get now key).1 = ("", false)) ∧
    (∀ e, c.data.lookup key = some e → e.expiresAt = now →
      (c.Get now key).1 = (e.value, true)) ∧
    (∀ e, c.data.lookup key = some e → now ≤ e.expiresAt →
      (c.Get now key).1 = (e.value, true)) ∧
    (∀ (t0 : Int) (pick : Nat) (v : String),
      ((c.Set t0 pick key v).Get now key).1
        = if t0 + c.ttl < now then ("", false) else (v, true)) := by
  refine ⟨?_, ?_, ?_, ?_⟩
  · intro h
    rcases h with h | ⟨e, he, hlt⟩
    · rw [Get_miss_absent c now key h]
    · rw [Get_miss_expired c now key e he hlt]
  · intro e he heq
    rw [Get_hit c now key e he (by omega)]
  · intro e he hle
    rw [Get_hit c now key e he hle]
  · intro t0 pick v
    have hl := Set_lookup_self c t0 pick key v
    by_cases hlt : t0 + c.ttl < now
    · rw [if_pos hlt, Get_miss_expired _ now key _ hl hlt]
    · rw [if_neg hlt, Get_hit _ now key _ hl (by simp only; omega)]

theorem Get_absent_or_past_expiry_witness :
    (((NewCache 10 5).Set 0 0 "k" "v").Get 11 "k").1 = ("", false) ∧
    (((NewCache 10 5).Set 0 0 "k" "v").Get 10 "k").1 = ("v", true) ∧
    (((NewCache 10 5).Set 0 0 "k" "v").Get 9 "k").1 = ("v", true) :=
  ⟨(Get_absent_or_past_expiry ((NewCache 10 5).Set 0 0 "k" "v") 11 "k").1
      (Or.inr ⟨{ value := "v", expiresAt := 10 }, by decide, by decide⟩),
   (Get_absent_or_past_expiry ((NewCache 10 5).Set 0 0 "k" "v") 10 "k").2.1
      { value := "v", expiresAt := 10 } (by decide) (by decide),
   (Get_absent_or_past_expiry ((NewCache 10 5).Set 0 0 "k" "v") 9 "k").2.2.1
      { value := "v", expiresAt := 10 } (by decide) (by decide)⟩

/-- C1 fails as stated: an entry written at time 0 with ttl 10 has `expiresAt = 10`;
at `now = 10` (exactly ttl elapsed, `expiresAt ≤ now`) `Get` still returns the value. -/
theorem Get_at_exact_expiry_returns_entry :
    ((NewCache 10 5).Set 0 0 "k" "v").data.lookup "k"
        = some { value := "v", expiresAt := 10 } ∧
      (10 : Int) ≤ 10 ∧
      (((NewCache 10 5).Set 0 0 "k" "v").Get 10 "k").1 = ("v", true) ∧
      (((NewCache 10 5).Set 0 0 "k" "v").Get 10 "k").1 ≠ ("", false) := by
  decide

/-! ## C2 -/

/-- C2: for every cache (any contents, full or not), key `k` and value `v`, after
`Set(k, v)` at time `t0` on a cache with ttl `d`, a `Get(k)` at any time `t` with
`t0 ≤ t < t0 + d` and nothing in between returns `(v, true)`. -/
theorem Get_after_Set_within_ttl (c : Cache) (t0 t : Int) (pick : Nat) (k v : String)
    (_h0 : t0 ≤ t) (h1 : t < t0 + c.ttl) :
    ((c.Set t0 pick k v).Get t k).1 = (v, true) := by
  rw [Get_hit (c.Set t0 pick k v) t k _ (Set_lookup_self c t0 pick k v) (by simp; omega)]

theorem Get_after_Set_within_ttl_witness :
    ((((((NewCache 100 2).Set 0 0 "a" "1").Set 0 0 "b" "2").Set 5 1 "c" "3").Get 104 "c").1
      = ("3", true)) :=
  Get_after_Set_within_ttl (((NewCache 100 2).Set 0 0 "a" "1").Set 0 0 "b" "2") 5 104 1 "c" "3"
    (by decide) (by decide)

/-! ## C3 -/

theorem Set_len_le (c : Cache) (now : Int) (pick : Nat) (key value : String) (bound : Int)
    (hb : 1 ≤ bound) (hm : c.maxSize ≤ bound) (h : (c.data.keys.length : Int) ≤ bound) :
    ((c.Set now pick key value).data.keys.length : Int) ≤ bound := by
  unfold Cache.Set
  by_cases hfull : c.maxSize ≤ (c.data.keys.length : Int)
  · simp only [hfull, if_true]
    rcases evictFirst_spec c.data pick with ⟨hnil, heq⟩ | ⟨e, he, heq⟩
    · have hle := keys_length_insert_le c.data key { value := value, expiresAt := now + c.ttl }
      rw [heq]
      rw [hnil] at hle
      simp only [List.length_nil] at hle
      omega
    · have hle := keys_length_insert_le (c.data.erase e) key
        { value := value, expiresAt := now + c.ttl }
      have hpos : 0 < c.data.keys.length := List.length_pos_of_mem he
      rw [heq]
      rw [keys_length_erase c.data e he] at hle
      omega
  · simp only [hfull, if_false]
    have hle := keys_length_insert_le c.data key { value := value, expiresAt := now + c.ttl }
    omega

theorem runSets_maxSize (c : Cache) (calls : List SetCall) :
    (runSets c calls).maxSize = c.maxSize := by
  induction calls generalizing c with
  | nil => rfl
  | cons s rest ih =>
    simp only [runSets, List.foldl_cons] at ih ⊢
    rw [ih]
    exact (Set_fields c s.now s.pick s.key s.value).2.1

theorem runSets_len_le (c : Cache) (calls : List SetCall) (bound : Int)
    (hb : 1 ≤ bound) (hm : c.maxSize ≤ bound) (h : (c.data.keys.length : Int) ≤ bound) :
    ((runSets c calls).data.keys.length : Int) ≤ bound := by
  induction calls generalizing c with
  | nil => exact h
  | cons s rest ih =>
    simp only [runSets, List.foldl_cons] at ih ⊢
    apply ih
    · rw [(Set_fields c s.now s.pick s.key s.value).2.1]; exact hm
    · exact Set_len_le c s.now s.pick s.key s.value bound hb hm h

/-- C3 (as amended): for every `maxSize` given to `NewCache` and every sequence of `Set`
calls on pairwise distinct keys starting from a new cache, after every call
`Stats().size ≤ max(maxSize, 1)`; so `Stats().size ≤ maxSize` holds after every call
whenever `maxSize ≥ 1`. -/
theorem size_bound_after_every_Set (ttl maxSize : Int) (calls : List SetCall)
    (_hd : (calls.map SetCall.key).Nodup) (n : Nat) :
    (((runSets (NewCache ttl maxSize) (calls.take n)).Stats.2.2 : Int) ≤ max maxSize 1) ∧
    (1 ≤ maxSize →
      ((runSets (NewCache ttl maxSize) (calls.take n)).Stats.2.2 : Int) ≤ maxSize) := by
  have key : ∀ bound : Int, 1 ≤ bound → maxSize ≤ bound →
      ((runSets (NewCache ttl maxSize) (calls.take n)).data.keys.length : Int) ≤ bound := by
    intro bound hb hm
    apply runSets_len_le _ _ bound hb hm
    simp only [NewCache, AList.keys_empty, List.length_nil]
    omega
  constructor
  · exact key (max maxSize 1) (le_max_right _ _) (le_max_left _ _)
  · intro h1
    exact key maxSize h1 le_rfl

theorem size_bound_after_every_Set_witness :
    (((runSets (NewCache 100 2)
        ([⟨0, 0, "a", "1"⟩, ⟨1, 0, "b", "2"⟩, ⟨2, 1, "c", "3"⟩].take 3)).Stats.2.2 : Int)
          ≤ max 2 1) ∧
    (((runSets (NewCache 100 2)
        ([⟨0, 0, "a", "1"⟩, ⟨1, 0, "b", "2"⟩, ⟨2, 1, "c", "3"⟩].take 3)).Stats.2.2 : Int) ≤ 2) :=
  ⟨(size_bound_after_every_Set 100 2 [⟨0, 0, "a", "1"⟩, ⟨1, 0, "b", "2"⟩, ⟨2, 1, "c", "3"⟩]
      (by decide) 3).1,
   (size_bound_after_every_Set 100 2 [⟨0, 0, "a", "1"⟩, ⟨1, 0, "b", "2"⟩, ⟨2, 1, "c", "3"⟩]
      (by decide) 3).2 (by decide)⟩

/-- C3 fails as stated: with `maxSize = 0` a single `Set` on a new cache leaves one entry,
so `Stats().size = 1 > maxSize`. -/
theorem size_exceeds_maxSize_zero :
    (runSets (NewCache 100 0) ([⟨0, 0, "a", "1"⟩].take 1)).Stats.2.2 = 1 ∧
    ¬ ((runSets (NewCache 100 0) ([⟨0, 0, "a", "1"⟩].take 1)).Stats.2.2 : Int) ≤ 0 := by
  decide

/-! ## C4 -/

theorem Set_lookup_other_not_full (c : Cache) (now : Int) (pick : Nat) (key value other : String)
    (hne : other ≠ key) (hroom : (c.data.keys.length : Int) < c.maxSize) :
    (c.Set now pick key value).data.lookup other = c.data.lookup other := by
  have h : ¬ c.maxSize ≤ (c.data.keys.length : Int) := by omega
  simp only [Cache.Set, h, if_false]
  exact AList.lookup_insert_ne hne

theorem Set_lookup_other_full (c : Cache) (now : Int) (pick : Nat) (key value : String)
    (hfull : c.maxSize ≤ (c.data.keys.length : Int)) (hne : c.data.keys ≠ []) :
    ∃ e, e ∈ c.data.keys ∧ ∀ other, other ≠ key →
      (other ≠ e → (c.Set now pick key value).data.lookup other = c.data.lookup other) ∧
      (other = e → (c.Set now pick key value).data.lookup other = none) := by
  rcases evictFirst_spec c.data pick with ⟨hnil, _⟩ | ⟨e, he, heq⟩
  · exact absurd hnil hne
  · refine ⟨e, he, ?_⟩
    intro other hok
    simp only [Cache.Set, hfull, if_true, heq]
    constructor
    · intro hoe
      rw [AList.lookup_insert_ne hok, AList.lookup_erase_ne hoe]
    · intro hoe
      rw [AList.lookup_insert_ne hok, hoe, AList.lookup_erase]

/-- C4 (as amended): when `Set(k, v)` is called with a key `k` that is already present
and the store holds fewer than `maxSize` entries, no entry is evicted: every other key
keeps its value and expiry.  When the store already holds `maxSize` entries (or more),
`Set` evicts one entry of the store although `k` is present: that entry, if it is not `k`
itself, is gone afterwards, and every other key different from `k` keeps its value and
expiry. -/
theorem Set_present_key_eviction (c : Cache) (now : Int) (pick : Nat) (k v : String)
    (hk : k ∈ c.data) :
    ((c.data.keys.length : Int) < c.maxSize → ∀ other, other ≠ k →
      (c.Set now pick k v).data.lookup other = c.data.lookup other) ∧
    (c.maxSize ≤ (c.data.keys.length : Int) →
      ∃ e, e ∈ c.data.keys ∧ ∀ other, other ≠ k →
        (other ≠ e → (c.Set now pick k v).data.lookup other = c.data.lookup other) ∧
        (other = e → (c.Set now pick k v).data.lookup other = none)) := by
  constructor
  · intro hroom other hne
    exact Set_lookup_other_not_full c now pick k v other hne hroom
  · intro hfull
    exact Set_lookup_other_full c now pick k v hfull
      (List.ne_nil_of_mem (AList.mem_keys.mp hk))

theorem Set_present_key_eviction_witness :
    (∀ other, other ≠ "a" →
      (twoEntriesRoom.Set 1 0 "a" "9").data.lookup other = twoEntriesRoom.data.lookup other) ∧
    (∃ e, e ∈ twoEntries.data.keys ∧ ∀ other, other ≠ "a" →
        (other ≠ e →
          (twoEntries.Set 1 0 "a" "9").data.lookup other = twoEntries.data.lookup other) ∧
        (other = e → (twoEntries.Set 1 0 "a" "9").data.lookup other = none)) :=
  ⟨(Set_present_key_eviction twoEntriesRoom 1 0 "a" "9" (by decide)).1 (by decide),
   (Set_present_key_eviction twoEntries 1 0 "a" "9" (by decide)).2 (by decide)⟩

/-- C4 fails as stated: the store holds `maxSize = 2` entries `a` and `b`; `Set(a, 9)`
with the iteration yielding `b` first evicts `b`, although `a` was already present. -/
theorem Set_present_key_evicts_other :
    "a" ∈ twoEntries.data ∧
    twoEntries.data.lookup "b" = some { value := "2", expiresAt := 100 } ∧
    (twoEntries.data.keys.length : Int) = twoEntries.maxSize ∧
    (twoEntries.Set 1 0 "a" "9").data.lookup "b" = none := by
  decide

/-! ## C5 -/

/-- C5: when the store holds exactly `maxSize ≥ 1` entries and `Set(k, v)` is called with
a key `k` not in the store, then whichever entry the eviction picks, afterwards the size
is still `maxSize`, `k` is present with value `v` (expiring at `now + ttl`), exactly one
previously present key is gone, every other previously present key keeps its value and
expiry, and no key other than `k` is new. -/
theorem Set_new_key_on_full_store (c : Cache) (now : Int) (pick : Nat) (k v : String)
    (hfull : (c.Stats.2.2 : Int) = c.maxSize) (hpos : 1 ≤ c.maxSize) (hnew : k ∉ c.data) :
    ((c.Set now pick k v).Stats.2.2 : Int) = c.maxSize ∧
    (c.Set now pick k v).data.lookup k = some { value := v, expiresAt := now + c.ttl } ∧
    (∃! e, e ∈ c.data ∧ e ∉ (c.Set now pick k v).data) ∧
    (∀ other, other ∈ c.data → other ∈ (c.Set now pick k v).data →
      (c.Set now pick k v).data.lookup other = c.data.lookup other) ∧
    (∀ other, other ≠ k → other ∈ (c.Set now pick k v).data → other ∈ c.data) := by
  simp only [Cache.Stats] at hfull ⊢
  have hge : c.maxSize ≤ (c.data.keys.length : Int) := by omega
  have hlen : 0 < c.data.keys.length := by omega
  have hne : c.data.keys ≠ [] := List.ne_nil_of_length_pos hlen
  rcases evictFirst_spec c.data pick with ⟨hnil, _⟩ | ⟨e, he, heq⟩
  · exact absurd hnil hne
  · have hdata : (c.Set now pick k v).data
        = (c.data.erase e).insert k { value := v, expiresAt := now + c.ttl } := by
      simp only [Cache.Set, hge, if_true, heq]
    have hke : k ≠ e := fun h => hnew (AList.mem_keys.mpr (h ▸ he))
    have hk2 : k ∉ c.data.erase e := fun h => hnew (AList.mem_erase.mp h).2
    refine ⟨?_, Set_lookup_self c now pick k v, ?_, ?_, ?_⟩
    · rw [hdata, keys_length_insert_new _ _ _ hk2, keys_length_erase c.data e he]
      omega
    · refine ⟨e, ⟨AList.mem_keys.mpr he, ?_⟩, ?_⟩
      · rw [hdata, AList.mem_insert, AList.mem_erase]
        rintro (h | h)
        · exact hke h.symm
        · exact h.1 rfl
      · rintro y ⟨hy, hny⟩
        by_contra hye
        apply hny
        rw [hdata, AList.mem_insert, AList.mem_erase]
        exact Or.inr ⟨hye, hy⟩
    · intro other ho ho2
      have hok : other ≠ k := fun h => hnew (h ▸ ho)
      rw [hdata, AList.mem_insert, AList.mem_erase] at ho2
      rcases ho2 with h | h
      · exact absurd h hok
      · rw [hdata, AList.lookup_insert_ne hok, AList.lookup_erase_ne h.1]
    · intro other hok ho2
      rw [hdata, AList.mem_insert, AList.mem_erase] at ho2
      rcases ho2 with h | h
      · exact absurd h hok
      · exact h.2

theorem Set_new_key_on_full_store_witness :
    ((twoEntries.Set 2 1 "c" "3").Stats.2.2 : Int) = 2 ∧
    (twoEntries.Set 2 1 "c" "3").data.lookup "c" = some { value := "3", expiresAt := 102 } ∧
    (∃! e, e ∈ twoEntries.data ∧ e ∉ (twoEntries.Set 2 1 "c" "3").data) ∧
    (∀ other, other ∈ twoEntries.data → other ∈ (twoEntries.Set 2 1 "c" "3").data →
      (twoEntries.Set 2 1 "c" "3").data.lookup other = twoEntries.data.lookup other) ∧
    (∀ other, other ≠ "c" → other ∈ (twoEntries.Set 2 1 "c" "3").data →
      other ∈ twoEntries.data) :=
  Set_new_key_on_full_store twoEntries 2 1 "c" "3" (by decide) (by decide) (by decide)

/-! ## C6 -/

theorem Get_cases (c : Cache) (now : Int) (key : String) :
    (∃ e, c.data.lookup key = some e ∧ now ≤ e.expiresAt ∧
      c.Get now key = ((e.value, true), { c with hits := c.hits + 1 })) ∨
    ((c.data.lookup key = none ∨ ∃ e, c.data.lookup key = some e ∧ e.expiresAt < now) ∧
      c.Get now key = (("", false), { c with misses := c.misses + 1 })) := by
  cases hl : c.data.lookup key with
  | none => exact Or.inr ⟨Or.inl rfl, Get_miss_absent c now key hl⟩
  | some e =>
    by_cases hlt : e.expiresAt < now
    · exact Or.inr ⟨Or.inr ⟨e, rfl, hlt⟩, Get_miss_expired c now key e hl hlt⟩
    · exact Or.inl ⟨e, rfl, by omega, Get_hit c now key e hl (by omega)⟩

theorem GetOrCompute_of_hit (c : Cache) (tGet tSet : Int) (pick : Nat) (key : String)
    (compute : String → String) (value : String) (c1 : Cache)
    (h : c.Get tGet key = ((value, true), c1)) :
    c.GetOrCompute tGet tSet pick key compute = { value := value, cache := c1, calls := [] } := by
  simp [Cache.GetOrCompute, h]

theorem GetOrCompute_of_miss (c : Cache) (tGet tSet : Int) (pick : Nat) (key : String)
    (compute : String → String) (value : String) (c1 : Cache)
    (h : c.Get tGet key = ((value, false), c1)) :
    c.GetOrCompute tGet tSet pick key compute
      = { value := compute key, cache := c1.Set tSet pick key (compute key), calls := [key] } := by
  simp [Cache.GetOrCompute, h, groupDo]

/-- C6 (as amended): `GetOrCompute(k, f)` in single-threaded execution: if `k` is present
with value `v` and `now` is not after the entry's expiry (`now ≤ expiresAt`), it returns
`v`, does not invoke `f` and leaves the stored entries unchanged; otherwise (absent, or
`expiresAt < now`) it invokes `f(k)` once, returns `f(k)`, and afterwards the store maps
`k` to `f(k)` with `expiresAt = now + ttl`, `now` being the time of the write. -/
theorem GetOrCompute_single_threaded (c : Cache) (tGet tSet : Int) (pick : Nat) (k : String)
    (f : String → String) :
    (∀ e, c.data.lookup k = some e → tGet ≤ e.expiresAt →
      (c.GetOrCompute tGet tSet pick k f).value = e.value ∧
      (c.GetOrCompute tGet tSet pick k f).calls = [] ∧
      (c.GetOrCompute tGet tSet pick k f).cache.data = c.data) ∧
    ((c.data.lookup k = none ∨ ∃ e, c.data.lookup k = some e ∧ e.expiresAt < tGet) →
      (c.GetOrCompute tGet tSet pick k f).value = f k ∧
      (c.GetOrCompute tGet tSet pick k f).calls = [k] ∧
      (c.GetOrCompute tGet tSet pick k f).cache.data.lookup k
        = some { value := f k, expiresAt := tSet + c.ttl }) := by
  constructor
  · intro e hl hle
    rw [GetOrCompute_of_hit c tGet tSet pick k f _ _ (Get_hit c tGet k e hl hle)]
    exact ⟨rfl, rfl, rfl⟩
  · intro h
    have hg : c.Get tGet k = (("", false), { c with misses := c.misses + 1 }) := by
      rcases h with h | ⟨e, he, hlt⟩
      · exact Get_miss_absent c tGet k h
      · exact Get_miss_expired c tGet k e he hlt
    rw [GetOrCompute_of_miss c tGet tSet pick k f _ _ hg]
    exact ⟨rfl, rfl, Set_lookup_self _ tSet pick k (f k)⟩

theorem GetOrCompute_single_threaded_witness :
    ((((NewCache 10 5).Set 0 0 "k" "v").GetOrCompute 3 4 0 "k" (fun _ => "w")).value = "v" ∧
      (((NewCache 10 5).Set 0 0 "k" "v").GetOrCompute 3 4 0 "k" (fun _ => "w")).calls = [] ∧
      (((NewCache 10 5).Set 0 0 "k" "v").GetOrCompute 3 4 0 "k" (fun _ => "w")).cache.data
        = ((NewCache 10 5).Set 0 0 "k" "v").data) ∧
    ((((NewCache 10 5).Set 0 0 "k" "v").GetOrCompute 11 12 0 "k" (fun _ => "w")).value = "w" ∧
      (((NewCache 10 5).Set 0 0 "k" "v").GetOrCompute 11 12 0 "k" (fun _ => "w")).calls = ["k"] ∧
      (((NewCache 10 5).Set 0 0 "k" "v").GetOrCompute 11 12 0 "k"
          (fun _ => "w")).cache.data.lookup "k"
        = some { value := "w", expiresAt := 12 + 10 }) :=
  ⟨(GetOrCompute_single_threaded ((NewCache 10 5).Set 0 0 "k" "v") 3 4 0 "k" (fun _ => "w")).1
      { value := "v", expiresAt := 10 } (by decide) (by decide),
   (GetOrCompute_single_threaded ((NewCache 10 5).Set 0 0 "k" "v") 11 12 0 "k" (fun _ => "w")).2
      (Or.inr ⟨{ value := "v", expiresAt := 10 }, by decide, by decide⟩)⟩

/-- C6 fails as stated: the entry for `k` expires at 10 and the call is made at
`now = 10`, so the entry is not live (`now < expiresAt` is false); the call still returns
the stored `v` without invoking `f`, and the store keeps the old entry. -/
theorem GetOrCompute_at_exact_expiry_is_hit :
    ((NewCache 10 5).Set 0 0 "k" "v").data.lookup "k"
        = some { value := "v", expiresAt := 10 } ∧
      ¬ ((10 : Int) < 10) ∧
      (((NewCache 10 5).Set 0 0 "k" "v").GetOrCompute 10 10 0 "k" (fun _ => "w")).value = "v" ∧
      (((NewCache 10 5).Set 0 0 "k" "v").GetOrCompute 10 10 0 "k" (fun _ => "w")).value
        ≠ (fun _ => "w") "k" ∧
      (((NewCache 10 5).Set 0 0 "k" "v").GetOrCompute 10 10 0 "k" (fun _ => "w")).calls = [] := by
  decide

theorem Get_increments_one_counter_aux (c : Cache) (now : Int) (key : String) :
    ((c.Get now key).2.hits = c.hits + 1 ∧ (c.Get now key).2.misses = c.misses) ∨
    ((c.Get now key).2.misses = c.misses + 1 ∧ (c.Get now key).2.hits = c.hits) := by
  rcases Get_cases c now key with ⟨e, _, _, he⟩ | ⟨_, he⟩
  · rw [he]; exact Or.inl ⟨rfl, rfl⟩
  · rw [he]; exact Or.inr ⟨rfl, rfl⟩

/-! ## C7 -/

/-- C8 fails on the code: two goroutines call `GetOrCompute("k", f)` on a new cache.
Both run the fast path `Get` and miss; the first then goes through `Do` alone (computes,
writes, record removed); the second reaches `Do` afterwards, finds no in-flight record
and computes again.  Both return the same value, but `f` has run twice. -/
theorem GetOrCompute_concurrent_computes_twice :
    (System.exec "k" (fun _ => "r") (System.init (NewCache 5000 100) 2)
      [(0, 0, 0), (1, 0, 0), (0, 1, 0), (0, 2, 0), (1, 3, 0), (1, 4, 0)]).phases
        = [Phase.done "r", Phase.done "r"] ∧
    (System.exec "k" (fun _ => "r") (System.init (NewCache 5000 100) 2)
      [(0, 0, 0), (1, 0, 0), (0, 1, 0), (0, 2, 0), (1, 3, 0), (1, 4, 0)]).computeCalls = 2 := by
  decide

/-! ## C9 -/

/-- A `Get` call that no other `Get` overlaps, on counters not at the upper end of
`int64`, increments exactly one counter by exactly 1, `hits` when it returns found = true
and `misses` when it returns found = false, and leaves the other counter, the stored
entries (an expired entry included), the ttl and `maxSize` unchanged. -/
theorem Get_increments_one_counter (c : Cache) (now : Int) (key : String) :
    (c.Get now key).2.data = c.data ∧
    (c.Get now key).2.ttl = c.ttl ∧
    (c.Get now key).2.maxSize = c.maxSize ∧
    (((c.Get now key).1.2 = true ∧ (c.Get now key).2.hits = c.hits + 1 ∧
        (c.Get now key).2.misses = c.misses) ∨
     ((c.Get now key).1.2 = false ∧ (c.Get now key).2.misses = c.misses + 1 ∧
        (c.Get now key).2.hits = c.hits)) := by
  rcases Get_cases c now key with ⟨e, _, _, he⟩ | ⟨_, he⟩
  · rw [he]
    exact ⟨rfl, rfl, rfl, Or.inl ⟨rfl, rfl, rfl⟩⟩
  · rw [he]
    exact ⟨rfl, rfl, rfl, Or.inr ⟨rfl, rfl, rfl⟩⟩

theorem wrap64_of_fits (x : Int) (h0 : -2 ^ 63 ≤ x) (h1 : x < 2 ^ 63) : wrap64 x = x := by
  unfold wrap64
  omega

theorem wrap64_succ (x : Int) : wrap64 (wrap64 x + 1) = wrap64 (x + 1) := by
  unfold wrap64
  omega

/-- A `Get` whose two steps are adjacent in the schedule (no other `Get` moves in
between), on counters that are not at the upper end of `int64`, acts as `Cache.Get`: the
goroutine returns the pair `Cache.Get` returns and the cache is the one `Cache.Get`
leaves. -/
theorem Get_steps_adjacent (s : Readers) (i : Nat) (now now2 : Int) (key : String)
    (hi : s.phases[i]? = some (GetPhase.start key))
    (hh : -2 ^ 63 ≤ s.cache.hits + 1 ∧ s.cache.hits + 1 < 2 ^ 63)
    (hm : -2 ^ 63 ≤ s.cache.misses + 1 ∧ s.cache.misses + 1 < 2 ^ 63) :
    (s.step i now).step i now2
      = { cache := (s.cache.Get now key).2
          phases := s.phases.set i
            (GetPhase.done (s.cache.Get now key).1.1 (s.cache.Get now key).1.2) } := by
  have hlt : i < s.phases.length := by
    rcases Nat.lt_or_ge i s.phases.length with h | h
    · exact h
    · rw [List.getElem?_eq_none h] at hi
      cases hi
  have hset : ∀ p, (s.phases.set i p)[i]? = some p := by
    intro p
    rw [List.getElem?_set_self hlt]
  have hw1 := wrap64_of_fits _ hh.1 hh.2
  have hw2 := wrap64_of_fits _ hm.1 hm.2
  cases hl : s.cache.data.lookup key with
  | none =>
    simp only [Readers.step, hi, hl, hset, Cache.Get, List.set_set, hw2]
    simp
  | some entry =>
    cases ha : After now entry.expiresAt with
    | true => simp [Readers.step, hi, hl, hset, Cache.Get, hw2, ha]
    | false => simp [Readers.step, hi, hl, hset, Cache.Get, hw1, ha]

theorem GetAlone_eq_Get (c : Cache) (now : Int) (key : String)
    (hh : -2 ^ 63 ≤ c.hits + 1 ∧ c.hits + 1 < 2 ^ 63)
    (hm : -2 ^ 63 ≤ c.misses + 1 ∧ c.misses + 1 < 2 ^ 63) :
    c.GetAlone now key = (c.Get now key).2 := by
  unfold Cache.GetAlone Readers.exec
  simp only [List.foldl_cons, List.foldl_nil]
  rw [Get_steps_adjacent (Readers.init c [key]) 0 now now key rfl hh hm]
  rfl

/-- C9 fails on the code: two goroutines call `Get("k")` on a new cache at the same time.
`RLock` admits both.  Each finds the key absent and reads `misses = 0`; then each writes
`0 + 1`.  Both calls return `("", false)`, but `misses` is 1 after the two calls: one of
the two increments is lost.  (When the second goroutine starts only after the first has
returned, `misses` is 2.) -/
theorem Get_overlapping_loses_increment :
    ((Readers.init (NewCache 5000 100) ["k", "k"]).exec
        [(0, 0), (1, 0), (0, 0), (1, 0)]).phases
      = [GetPhase.done "" false, GetPhase.done "" false] ∧
    ((Readers.init (NewCache 5000 100) ["k", "k"]).exec
        [(0, 0), (1, 0), (0, 0), (1, 0)]).cache.misses = 1 ∧
    ((Readers.init (NewCache 5000 100) ["k", "k"]).exec
        [(0, 0), (1, 0), (0, 0), (1, 0)]).cache.hits = 0 ∧
    ((Readers.init (NewCache 5000 100) ["k", "k"]).exec
        [(0, 0), (0, 0), (1, 0), (1, 0)]).phases
      = [GetPhase.done "" false, GetPhase.done "" false] ∧
    ((Readers.init (NewCache 5000 100) ["k", "k"]).exec
        [(0, 0), (0, 0), (1, 0), (1, 0)]).cache.misses = 2 := by
  decide

/-! ## C10 -/

theorem GetOrCompute_counters (c : Cache) (tGet tSet : Int) (pick : Nat) (key : String)
    (compute : String → String) :
    (c.GetOrCompute tGet tSet pick key compute).cache.hits = (c.Get tGet key).2.hits ∧
    (c.GetOrCompute tGet tSet pick key compute).cache.misses = (c.Get tGet key).2.misses := by
  rcases Get_cases c tGet key with ⟨e, _, _, he⟩ | ⟨_, he⟩
  · rw [GetOrCompute_of_hit c tGet tSet pick key compute _ _ he, he]
    exact ⟨rfl, rfl⟩
  · rw [GetOrCompute_of_miss c tGet tSet pick key compute _ _ he, he]
    exact ⟨(Set_fields _ tSet pick key (compute key)).2.2.1,
      (Set_fields _ tSet pick key (compute key)).2.2.2⟩

theorem Op.apply_counters (c : Cache) (op : Op) :
    c.hits ≤ (op.apply c).hits ∧ c.misses ≤ (op.apply c).misses ∧
    (op.apply c).hits + (op.apply c).misses = c.hits + c.misses + (op.gets : Int) := by
  cases op with
  | get now key =>
    simp only [Op.apply, Op.gets]
    rcases Get_increments_one_counter_aux c now key with h | h <;> omega
  | set now pick key value =>
    simp only [Op.apply, Op.gets]
    have h := Set_fields c now pick key value
    omega
  | delete key => simp [Op.apply, Op.gets, Cache.Delete]
  | cleanup now => simp [Op.apply, Op.gets, Cache.Cleanup]
  | stats => simp [Op.apply, Op.gets]
  | getOrCompute tGet tSet pick key compute =>
    simp only [Op.apply, Op.gets]
    have h := GetOrCompute_counters c tGet tSet pick key compute
    rcases Get_increments_one_counter_aux c tGet key with h2 | h2 <;> omega

theorem getCount_cons (op : Op) (ops : List Op) :
    getCount (op :: ops) = op.gets + getCount ops := by
  simp [getCount]

theorem run_counters (c : Cache) (ops : List Op) :
    (run c ops).hits + (run c ops).misses = c.hits + c.misses + (getCount ops : Int) := by
  induction ops generalizing c with
  | nil => simp [run, getCount]
  | cons op rest ih =>
    have h := Op.apply_counters c op
    have h2 := ih (op.apply c)
    simp only [run, List.foldl_cons] at h2 ⊢
    rw [h2, getCount_cons]
    push_cast
    omega

/-- Calls made one after the other (none overlapping another), counters away from the
upper end of `int64`: along every sequence of `Get`, `Set`, `Delete`, `Cleanup`, `Stats`
and `GetOrCompute` calls on a new cache, `hits + misses` equals the number of `Get`
executions so far (a `GetOrCompute` executes `Get` once, on its fast path), no call makes
`hits` or `misses` smaller, and a call that executes no `Get` (`Set`, `Delete`, `Cleanup`,
`Stats`) leaves both unchanged. -/
theorem counters_follow_Get_executions (ttl maxSize : Int) (ops : List Op) (op : Op) :
    (run (NewCache ttl maxSize) ops).hits + (run (NewCache ttl maxSize) ops).misses
      = (getCount ops : Int) ∧
    (run (NewCache ttl maxSize) ops).hits ≤ (op.apply (run (NewCache ttl maxSize) ops)).hits ∧
    (run (NewCache ttl maxSize) ops).misses
      ≤ (op.apply (run (NewCache ttl maxSize) ops)).misses ∧
    (op.gets = 0 →
      (op.apply (run (NewCache ttl maxSize) ops)).hits = (run (NewCache ttl maxSize) ops).hits ∧
      (op.apply (run (NewCache ttl maxSize) ops)).misses
        = (run (NewCache ttl maxSize) ops).misses) ∧
    (op.apply (run (NewCache ttl maxSize) ops)).hits
      + (op.apply (run (NewCache ttl maxSize) ops)).misses = (getCount (ops ++ [op]) : Int) := by
  have h0 := run_counters (NewCache ttl maxSize) ops
  have h1 := Op.apply_counters (run (NewCache ttl maxSize) ops) op
  have hc : getCount (ops ++ [op]) = getCount ops + op.gets := by
    simp [getCount]
  simp only [NewCache] at h0 ⊢
  simp only [NewCache] at h1
  refine ⟨by omega, h1.1, h1.2.1, ?_, ?_⟩
  · intro hz
    have h2 := h1.2.2
    rw [hz] at h2
    have := h1.1
    have := h1.2.1
    constructor <;> omega
  · rw [hc]
    push_cast
    omega

/-- C10 fails on the code: on a new cache, after `Set("k", "v")`, two goroutines call
`Get("k")` at the same time.  Both find the live entry and read `hits = 0`, both write
`0 + 1` and return `("v", true)`: `Get` has been executed twice, but
`hits + misses = 1`.  With three goroutines a counter also decreases: the first reads
`hits = 0`, the other two then run their calls to the end (`hits = 2`), and the write of
the first sets `hits = 1`. -/
theorem counters_behind_overlapping_Get_executions :
    ((Readers.init ((NewCache 5000 100).Set 0 0 "k" "v") ["k", "k"]).exec
        [(0, 1), (1, 1), (0, 1), (1, 1)]).phases
      = [GetPhase.done "v" true, GetPhase.done "v" true] ∧
    ((Readers.init ((NewCache 5000 100).Set 0 0 "k" "v") ["k", "k"]).exec
        [(0, 1), (1, 1), (0, 1), (1, 1)]).cache.hits = 1 ∧
    ((Readers.init ((NewCache 5000 100).Set 0 0 "k" "v") ["k", "k"]).exec
        [(0, 1), (1, 1), (0, 1), (1, 1)]).cache.misses = 0 ∧
    ((Readers.init ((NewCache 5000 100).Set 0 0 "k" "v") ["k", "k"]).exec
        [(0, 1), (1, 1), (0, 1), (1, 1)]).cache.hits
      + ((Readers.init ((NewCache 5000 100).Set 0 0 "k" "v") ["k", "k"]).exec
        [(0, 1), (1, 1), (0, 1), (1, 1)]).cache.misses ≠ 2 ∧
    ((Readers.init ((NewCache 5000 100).Set 0 0 "k" "v") ["k", "k", "k"]).exec
        [(0, 1), (1, 1), (1, 1), (2, 1), (2, 1)]).cache.hits = 2 ∧
    ((Readers.init ((NewCache 5000 100).Set 0 0 "k" "v") ["k", "k", "k"]).exec
        [(0, 1), (1, 1), (1, 1), (2, 1), (2, 1), (0, 1)]).cache.hits = 1 ∧
    ((Readers.init ((NewCache 5000 100).Set 0 0 "k" "v") ["k", "k", "k"]).exec
        [(0, 1), (1, 1), (1, 1), (2, 1), (2, 1), (0, 1)]).phases
      = [GetPhase.done "v" true, GetPhase.done "v" true, GetPhase.done "v" true] := by
  decide

theorem GetAlone_hit (c : Cache) (now : Int) (key : String) (e : CacheEntry)
    (hl : c.data.lookup key = some e) (hle : now ≤ e.expiresAt) :
    c.GetAlone now key = { c with hits := wrap64 (c.hits + 1) } := by
  have h : ¬ e.expiresAt < now := by omega
  simp [Cache.GetAlone, Readers.exec, Readers.init, Readers.step, hl, After, h]

theorem GetAlone_iterate_hits (c : Cache) (now : Int) (key : String) (e : CacheEntry)
    (hl : c.data.lookup key = some e) (hle : now ≤ e.expiresAt)
    (hc : wrap64 c.hits = c.hits) (n : Nat) :
    (fun d : Cache => d.GetAlone now key)^[n] c = { c with hits := wrap64 (c.hits + n) } := by
  induction n with
  | zero => simp [hc]
  | succ n ih =>
    rw [Function.iterate_succ_apply', ih,
      GetAlone_hit { c with hits := wrap64 (c.hits + n) } now key e hl hle]
    simp only [wrap64_succ]
    congr 2
    push_cast
    omega

/-- The counters are `int64`: on a new cache, after one `Set(k, v)`, calls `Get(k)` made
one after the other while the entry is live leave `hits = 2^63 - 1` after `2^63 - 1`
calls and `hits = -2^63` after one more, `misses` staying 0: along this sequence of calls
`hits` decreases, and `hits + misses` is not the number of `Get` executions. -/
theorem hits_wraps_around (ttl maxSize t0 now : Int) (pick : Nat) (k v : String)
    (hlive : now ≤ t0 + ttl) :
    ((fun d : Cache => d.GetAlone now k)^[2 ^ 63 - 1]
        ((NewCache ttl maxSize).Set t0 pick k v)).hits = 2 ^ 63 - 1 ∧
    ((fun d : Cache => d.GetAlone now k)^[2 ^ 63]
        ((NewCache ttl maxSize).Set t0 pick k v)).hits = -2 ^ 63 ∧
    ((fun d : Cache => d.GetAlone now k)^[2 ^ 63]
        ((NewCache ttl maxSize).Set t0 pick k v)).misses = 0 := by
  have hl := Set_lookup_self (NewCache ttl maxSize) t0 pick k v
  have hh : ((NewCache ttl maxSize).Set t0 pick k v).hits = 0 := by
    simp [Cache.Set, NewCache]
  have hiter := fun n => GetAlone_iterate_hits _ now k _ hl (by simpa [NewCache] using hlive)
    (by rw [hh]; decide) n
  refine ⟨?_, ?_, ?_⟩
  · rw [hiter (2 ^ 63 - 1)]
    simp only [hh]
    decide
  · rw [hiter (2 ^ 63)]
    simp only [hh]
    decide
  · rw [hiter (2 ^ 63)]
    simp [Cache.Set, NewCache]

/-! ## C11 -/

/-- C11: for every cache, key `k` and value `v`, `Set(k, v)` at time `t1` followed by
`Set(k, v)` at time `t2 ≥ t1` leaves `k` stored with value `v` and
`expiresAt = t2 + ttl`, so a `Get(k)` at a time `t` before `t2 + ttl` returns
`(v, true)`. -/
theorem Set_twice_refreshes_expiry (c : Cache) (t1 t2 t : Int) (pick1 pick2 : Nat)
    (k v : String) (_h12 : t1 ≤ t2) (ht : t < t2 + c.ttl) :
    ((c.Set t1 pick1 k v).Set t2 pick2 k v).data.lookup k
      = some { value := v, expiresAt := t2 + c.ttl } ∧
    (((c.Set t1 pick1 k v).Set t2 pick2 k v).Get t k).1 = (v, true) := by
  have hl := Set_lookup_self (c.Set t1 pick1 k v) t2 pick2 k v
  rw [(Set_fields c t1 pick1 k v).1] at hl
  refine ⟨hl, ?_⟩
  rw [Get_hit _ t k _ hl (by simp; omega)]

theorem Set_twice_refreshes_expiry_witness :
    (((NewCache 10 5).Set 0 0 "k" "v").Set 7 0 "k" "v").data.lookup "k"
      = some { value := "v", expiresAt := 7 + (NewCache 10 5).ttl } ∧
    ((((NewCache 10 5).Set 0 0 "k" "v").Set 7 0 "k" "v").Get 16 "k").1 = ("v", true) :=
  Set_twice_refreshes_expiry (NewCache 10 5) 0 7 16 0 0 "k" "v" (by decide) (by decide)

/-! ## C12 -/

theorem erase_of_not_mem (data : Store) (k : String) (hk : k ∉ data) : data.erase k = data := by
  apply AList.ext
  exact List.kerase_of_not_mem_keys (fun h => hk (AList.mem_keys.mpr h))

/-- C12: `Delete(k)` removes `k` if present and is a no-op otherwise: afterwards `Get(k)`
returns not-found at every time, every other entry is unchanged, hits and misses are
unchanged, and the size decreases by 1 if `k` was present and by 0 if not (the cache is
then unchanged altogether). -/
theorem Delete_removes_only_key (c : Cache) (k : String) (now : Int) :
    ((c.Delete k).Get now k).1 = ("", false) ∧
    (∀ other, other ≠ k → (c.Delete k).data.lookup other = c.data.lookup other) ∧
    (c.Delete k).hits = c.hits ∧ (c.Delete k).misses = c.misses ∧
    (k ∈ c.data → (c.Delete k).Stats.2.2 + 1 = c.Stats.2.2) ∧
    (k ∉ c.data → (c.Delete k).Stats.2.2 = c.Stats.2.2 ∧ c.Delete k = c) := by
  refine ⟨?_, ?_, rfl, rfl, ?_, ?_⟩
  · rw [Get_miss_absent (c.Delete k) now k (by simp [Cache.Delete, AList.lookup_erase])]
  · intro other hne
    simp only [Cache.Delete]
    exact AList.lookup_erase_ne hne
  · intro hk
    have hm : k ∈ c.data.keys := AList.mem_keys.mp hk
    have hpos : 0 < c.data.keys.length := List.length_pos_of_mem hm
    simp only [Cache.Delete, Cache.Stats]
    rw [keys_length_erase c.data k hm]
    omega
  · intro hk
    have h : c.Delete k = c := by
      simp only [Cache.Delete]
      rw [erase_of_not_mem c.data k hk]
    rw [h]
    exact ⟨rfl, rfl⟩

theorem Delete_removes_only_key_witness :
    (twoEntries.Delete "a").Stats.2.2 + 1 = twoEntries.Stats.2.2 ∧
    ((twoEntries.Delete "z").Stats.2.2 = twoEntries.Stats.2.2 ∧
      twoEntries.Delete "z" = twoEntries) :=
  ⟨(Delete_removes_only_key twoEntries "a" 0).2.2.2.2.1 (by decide),
   (Delete_removes_only_key twoEntries "z" 0).2.2.2.2.2 (by decide)⟩

/-! ## C13 -/

theorem sweep_fold_lookup (now : Int) (l : List (Sigma (fun _ : String => CacheEntry)))
    (m : Store) (k : String) :
    (l.foldl (fun (m : Store) kv => if After now kv.2.expiresAt then m.erase kv.1 else m)
        m).lookup k
      = if l.any (fun kv => decide (kv.1 = k) && After now kv.2.expiresAt) then none
        else m.lookup k := by
  induction l generalizing m with
  | nil => simp
  | cons kv rest ih =>
    rw [List.foldl_cons, ih]
    by_cases hany : rest.any (fun kv => decide (kv.1 = k) && After now kv.2.expiresAt) = true
    · simp [hany]
    · by_cases hexp : After now kv.2.expiresAt = true
      · by_cases hk : kv.1 = k
        · subst hk
          simp [hany, hexp, AList.lookup_erase]
        · have hk2 : k ≠ kv.1 := fun h => hk h.symm
          simp [hany, hexp, hk, AList.lookup_erase_ne hk2]
      · simp [hany, hexp]

theorem Cleanup_lookup (c : Cache) (now : Int) (k : String) :
    (c.Cleanup now).data.lookup k
      = match c.data.lookup k with
        | none => none
        | some e => if e.expiresAt < now then none else some e := by
  simp only [Cache.Cleanup]
  rw [sweep_fold_lookup]
  cases hl : c.data.lookup k with
  | none =>
    have hnot : k ∉ c.data := AList.lookup_eq_none.mp hl
    simp only
    split
    · rfl
    · rfl
  | some e =>
    have hmem : Sigma.mk k e ∈ c.data.entries := AList.mem_lookup_iff.mp hl
    simp only
    by_cases hlt : e.expiresAt < now
    · have hany : c.data.entries.any
          (fun kv => decide (kv.1 = k) && After now kv.2.expiresAt) = true := by
        rw [List.any_eq_true]
        exact ⟨Sigma.mk k e, hmem, by simp [After, hlt]⟩
      simp [hany, hlt]
    · have hany : ¬ c.data.entries.any
          (fun kv => decide (kv.1 = k) && After now kv.2.expiresAt) = true := by
        rw [List.any_eq_true]
        rintro ⟨⟨k2, e2⟩, hm2, hp⟩
        simp only [Bool.and_eq_true, decide_eq_true_eq] at hp
        obtain ⟨hk, hexp⟩ := hp
        have hk2 : k2 = k := hk
        subst hk2
        have he2 : c.data.lookup k2 = some e2 := AList.mem_lookup_iff.mpr hm2
        rw [hl] at he2
        cases he2
        simp [After] at hexp
        exact hlt hexp
      simp [hany, hlt]

/-- C13 (as amended): `Cleanup` executed at time `now` deletes exactly the entries with
`expiresAt < now`: afterwards the store consists of precisely the earlier entries with
`expiresAt ≥ now`, each unchanged (an entry with `expiresAt = now` stays), and hits and
misses are unchanged. -/
theorem Cleanup_deletes_past_expiry (c : Cache) (now : Int) :
    (∀ k e, c.data.lookup k = some e → e.expiresAt < now →
      (c.Cleanup now).data.lookup k = none) ∧
    (∀ k e, c.data.lookup k = some e → now ≤ e.expiresAt →
      (c.Cleanup now).data.lookup k = some e) ∧
    (∀ k, c.data.lookup k = none → (c.Cleanup now).data.lookup k = none) ∧
    (c.Cleanup now).hits = c.hits ∧ (c.Cleanup now).misses = c.misses := by
  refine ⟨?_, ?_, ?_, rfl, rfl⟩
  · intro k e hl hlt
    rw [Cleanup_lookup, hl]
    simp [hlt]
  · intro k e hl hle
    have h : ¬ e.expiresAt < now := by omega
    rw [Cleanup_lookup, hl]
    simp [h]
  · intro k hl
    rw [Cleanup_lookup, hl]

theorem Cleanup_deletes_past_expiry_witness :
    (((NewCache 10 5).Set 0 0 "k" "v").Cleanup 11).data.lookup "k" = none ∧
    (((NewCache 10 5).Set 0 0 "k" "v").Cleanup 10).data.lookup "k"
      = some { value := "v", expiresAt := 10 } ∧
    (((NewCache 10 5).Set 0 0 "k" "v").Cleanup 10).data.lookup "z" = none :=
  ⟨(Cleanup_deletes_past_expiry ((NewCache 10 5).Set 0 0 "k" "v") 11).1 "k"
      { value := "v", expiresAt := 10 } (by decide) (by decide),
   (Cleanup_deletes_past_expiry ((NewCache 10 5).Set 0 0 "k" "v") 10).2.1 "k"
      { value := "v", expiresAt := 10 } (by decide) (by decide),
   (Cleanup_deletes_past_expiry ((NewCache 10 5).Set 0 0 "k" "v") 10).2.2.1 "z" (by decide)⟩

/-- C13 fails as stated: the entry written at time 0 with ttl 10 has `expiresAt = 10`;
`Cleanup` at `now = 10` (`expiresAt ≤ now`) leaves it in the store. -/
theorem Cleanup_keeps_entry_at_exact_expiry :
    ((NewCache 10 5).Set 0 0 "k" "v").data.lookup "k"
        = some { value := "v", expiresAt := 10 } ∧
      (10 : Int) ≤ 10 ∧
      (((NewCache 10 5).Set 0 0 "k" "v").Cleanup 10).data.lookup "k"
        = some { value := "v", expiresAt := 10 } ∧
      (((NewCache 10 5).Set 0 0 "k" "v").Cleanup 10).Stats.2.2 = 1 := by
  decide

/-! ## C14 -/

/-- C14: for every cache state, time `now` and key `k`, `Get(k)` at time `now` returns
the same (value, found) on the state as it is and on the state obtained by first running
`Cleanup` at the same time `now`. -/
theorem Get_independent_of_Cleanup (c : Cache) (now : Int) (k : String) :
    ((c.Cleanup now).Get now k).1 = (c.Get now k).1 := by
  have hc := Cleanup_lookup c now k
  rcases Get_cases c now k with ⟨e, hl, hle, he⟩ | ⟨h, he⟩
  · have hnlt : ¬ e.expiresAt < now := by omega
    rw [hl] at hc
    simp only [hnlt, if_false] at hc
    rw [he, Get_hit (c.Cleanup now) now k e hc hle]
  · rw [he]
    rcases h with hl | ⟨e, hl, hlt⟩
    · rw [hl] at hc
      rw [Get_miss_absent (c.Cleanup now) now k hc]
    · rw [hl] at hc
      simp only [hlt, if_true] at hc
      rw [Get_miss_absent (c.Cleanup now) now k hc]

/-! ## C15 -/

theorem evictFirst_lookup_none (data : Store) (pick : Nat) (k : String)
    (h : data.lookup k = none) : (evictFirst data pick).lookup k = none := by
  rcases evictFirst_spec data pick with ⟨_, heq⟩ | ⟨e, _, heq⟩
  · rw [heq]; exact h
  · rw [heq]
    by_cases hke : k = e
    · rw [hke]; exact AList.lookup_erase e data
    · rw [AList.lookup_erase_ne hke]; exact h

theorem Set_lookup_none_other (c : Cache) (now : Int) (pick : Nat) (key value k : String)
    (hne : k ≠ key) (h : c.data.lookup k = none) :
    (c.Set now pick key value).data.lookup k = none := by
  simp only [Cache.Set]
  rw [AList.lookup_insert_ne hne]
  split
  · exact evictFirst_lookup_none c.data pick k h
  · exact h

theorem Op.apply_lookup_none (c : Cache) (op : Op) (k : String) (hw : ¬ op.writes k)
    (h : c.data.lookup k = none) : (op.apply c).data.lookup k = none := by
  cases op with
  | get now key =>
    simp only [Op.apply]
    rcases Get_cases c now key with ⟨e, _, _, he⟩ | ⟨_, he⟩ <;> rw [he] <;> exact h
  | set now pick key value =>
    simp only [Op.apply]
    exact Set_lookup_none_other c now pick key value k (fun hk => hw hk.symm) h
  | delete key =>
    simp only [Op.apply, Cache.Delete]
    by_cases hk : k = key
    · rw [hk]; exact AList.lookup_erase key c.data
    · rw [AList.lookup_erase_ne hk]; exact h
  | cleanup now =>
    simp only [Op.apply]
    rw [Cleanup_lookup, h]
  | stats => exact h
  | getOrCompute tGet tSet pick key compute =>
    simp only [Op.apply]
    rcases Get_cases c tGet key with ⟨e, _, _, he⟩ | ⟨_, he⟩
    · rw [GetOrCompute_of_hit c tGet tSet pick key compute _ _ he]
      exact h
    · rw [GetOrCompute_of_miss c tGet tSet pick key compute _ _ he]
      exact Set_lookup_none_other _ tSet pick key (compute key) k (fun hk => hw hk.symm) h

theorem run_lookup_none (c : Cache) (ops : List Op) (k : String)
    (hw : ∀ op ∈ ops, ¬ op.writes k) (h : c.data.lookup k = none) :
    (run c ops).data.lookup k = none := by
  induction ops generalizing c with
  | nil => exact h
  | cons op rest ih =>
    simp only [run, List.foldl_cons] at ih ⊢
    apply ih
    · intro o ho
      exact hw o (List.mem_cons_of_mem op ho)
    · exact Op.apply_lookup_none c op k (hw op (List.mem_cons_self op rest)) h

/-- C15: for every key `k` and every sequence of `Get`, `Set`, `Delete`, `Cleanup`
(`Stats`) and `GetOrCompute` calls on a new cache in which `k` is never passed to `Set`
or `GetOrCompute`, a `Get(k)` issued after any number `n` of the calls, at any time,
returns `("", false)`. -/
theorem Get_of_never_written_key (ttl maxSize : Int) (ops : List Op) (k : String)
    (hw : ∀ op ∈ ops, ¬ op.writes k) (n : Nat) (now : Int) :
    ((run (NewCache ttl maxSize) (ops.take n)).Get now k).1 = ("", false) := by
  have hnone : (run (NewCache ttl maxSize) (ops.take n)).data.lookup k = none := by
    apply run_lookup_none
    · intro o ho
      exact hw o (List.mem_of_mem_take ho)
    · simp [NewCache]
  rw [Get_miss_absent _ now k hnone]

theorem Get_of_never_written_key_witness :
    ((run (NewCache 10 2)
      ([Op.set 0 0 "a" "1", Op.get 1 "k", Op.getOrCompute 2 3 0 "b" (fun _ => "2"),
        Op.delete "k", Op.set 4 1 "c" "3", Op.cleanup 20].take 5)).Get 5 "k").1
      = ("", false) :=
  Get_of_never_written_key 10 2
    [Op.set 0 0 "a" "1", Op.get 1 "k", Op.getOrCompute 2 3 0 "b" (fun _ => "2"),
      Op.delete "k", Op.set 4 1 "c" "3", Op.cleanup 20] "k"
    (by simp [Op.writes]) 5 5

/-! ## C16 -/

theorem Set_expiry_le (c : Cache) (now : Int) (pick : Nat) (key value : String) (bound : Int)
    (hb : now + c.ttl ≤ bound)
    (h : ∀ k e, c.data.lookup k = some e → e.expiresAt ≤ bound) :
    ∀ k e, (c.Set now pick key value).data.lookup k = some e → e.expiresAt ≤ bound := by
  intro k e hl
  by_cases hk : k = key
  · subst hk
    rw [Set_lookup_self] at hl
    cases hl
    exact hb
  · simp only [Cache.Set] at hl
    rw [AList.lookup_insert_ne hk] at hl
    split at hl
    · rcases evictFirst_spec c.data pick with ⟨_, heq⟩ | ⟨x, _, heq⟩
      · rw [heq] at hl
        exact h k e hl
      · rw [heq] at hl
        by_cases hkx : k = x
        · rw [hkx, AList.lookup_erase] at hl
          cases hl
        · rw [AList.lookup_erase_ne hkx] at hl
          exact h k e hl
    · exact h k e hl

theorem runSets_expiry_le (c : Cache) (calls : List SetCall) (t0 bound : Int)
    (ht : ∀ s ∈ calls, s.now = t0) (hb : t0 + c.ttl ≤ bound)
    (h : ∀ k e, c.data.lookup k = some e → e.expiresAt ≤ bound) :
    ∀ k e, (runSets c calls).data.lookup k = some e → e.expiresAt ≤ bound := by
  induction calls generalizing c with
  | nil => exact h
  | cons s rest ih =>
    simp only [runSets, List.foldl_cons] at ih ⊢
    apply ih
    · intro x hx
      exact ht x (List.mem_cons_of_mem s hx)
    · rw [(Set_fields c s.now s.pick s.key s.value).1]; exact hb
    · apply Set_expiry_le c s.now s.pick s.key s.value bound _ h
      rw [ht s (List.mem_cons_self s rest)]
      exact hb

theorem keys_length_zero_of_lookup_none (data : Store) (h : ∀ k, data.lookup k = none) :
    data.keys.length = 0 := by
  cases hk : data.keys with
  | nil => rfl
  | cons a rest =>
    have hm : a ∈ data := AList.mem_keys.mpr (by rw [hk]; exact List.mem_cons_self a rest)
    exact absurd (h a) (fun hn => (AList.lookup_eq_none.mp hn) hm)

/-- C16: entries (no more than `maxSize` of them) are inserted at time `t0` into a new
cache whose ttl equals the sweep interval `d` (a ticker interval, so `d > 0`), and
`Cleanup` runs at the ticks `t0 + d`, `t0 + 2d` and `t0 + 3d` with no other writes; then
`Stats().size` is 0 afterwards. -/
theorem sweeper_empties_cache (d maxSize t0 : Int) (calls : List SetCall) (hd : 0 < d)
    (_hlen : (calls.length : Int) ≤ maxSize) (ht : ∀ s ∈ calls, s.now = t0) :
    ((((runSets (NewCache d maxSize) calls).Cleanup (t0 + d)).Cleanup
      (t0 + 2 * d)).Cleanup (t0 + 3 * d)).Stats.2.2 = 0 := by
  have h0 : ∀ k e, (runSets (NewCache d maxSize) calls).data.lookup k = some e →
      e.expiresAt ≤ t0 + d := by
    apply runSets_expiry_le (NewCache d maxSize) calls t0 (t0 + d) ht
    · simp [NewCache]
    · intro k e hl
      simp [NewCache] at hl
  have h1 : ∀ k e, ((runSets (NewCache d maxSize) calls).Cleanup (t0 + d)).data.lookup k
      = some e → e.expiresAt ≤ t0 + d := by
    intro k e hl
    rw [Cleanup_lookup] at hl
    split at hl
    · cases hl
    · rename_i e2 he2
      split at hl
      · cases hl
      · cases hl
        exact h0 k e he2
  have h2 : ∀ k, (((runSets (NewCache d maxSize) calls).Cleanup (t0 + d)).Cleanup
      (t0 + 2 * d)).data.lookup k = none := by
    intro k
    rw [Cleanup_lookup]
    split
    · rfl
    · rename_i e2 he2
      have := h1 k e2 he2
      have hlt : e2.expiresAt < t0 + 2 * d := by omega
      simp [hlt]
  have h3 : ∀ k, ((((runSets (NewCache d maxSize) calls).Cleanup (t0 + d)).Cleanup
      (t0 + 2 * d)).Cleanup (t0 + 3 * d)).data.lookup k = none := by
    intro k
    rw [Cleanup_lookup, h2 k]
  exact keys_length_zero_of_lookup_none _ h3

theorem sweeper_empties_cache_witness :
    ((((runSets (NewCache 1000000000 100) fiveWrites).Cleanup (0 + 1000000000)).Cleanup
      (0 + 2 * 1000000000)).Cleanup (0 + 3 * 1000000000)).Stats.2.2 = 0 :=
  sweeper_empties_cache 1000000000 100 0 fiveWrites (by decide) (by decide) (by decide)

/-! ## C29 -/

theorem GetOrComputeIn_of_hit {σ : Type} (c : Cache) (tGet tSet : Int) (pick : Nat)
    (key : String) (compute : String → σ → String × σ) (env : σ) (value : String) (c1 : Cache)
    (h : c.Get tGet key = ((value, true), c1)) :
    c.GetOrComputeIn tGet tSet pick key compute env
      = { value := value, cache := c1, env := env, err := none } := by
  simp [Cache.GetOrComputeIn, h]

theorem GetOrComputeIn_of_miss {σ : Type} (c : Cache) (tGet tSet : Int) (pick : Nat)
    (key : String) (compute : String → σ → String × σ) (env : σ) (value : String) (c1 : Cache)
    (h : c.Get tGet key = ((value, false), c1)) :
    c.GetOrComputeIn tGet tSet pick key compute env
      = { value := (compute key env).1, cache := c1.Set tSet pick key (compute key env).1,
          env := (compute key env).2, err := some none } := by
  simp [Cache.GetOrComputeIn, h, groupDo, computeAndSet]

/-- C29: in `GetOrCompute`, single-threaded, with a `compute` that may act on its
surroundings: the function passed to `Do` returns a nil error in every state and so does
`Do`; the `err` the call holds after `Do` is never non-nil, so the fallback branch is not
taken; on a hit the call returns before `Do` and leaves the surroundings of `compute`
untouched (`compute` is not invoked); on a miss the surroundings are those that a single
invocation `compute(key)` leaves, and its result is returned and stored.  With a
`compute` that counts its invocations the counter goes up by 0 on a hit and by 1 on a
miss.  For a `compute` without effects the call is `Cache.GetOrCompute`, whose log `calls`
is the log such a `compute` writes itself. -/
theorem GetOrCompute_error_nil_one_compute {σ : Type} (c : Cache) (tGet tSet : Int)
    (pick : Nat) (key : String) (compute : String → σ → String × σ) (env : σ) (n : Nat)
    (f : String → String) :
    (∀ st, (groupDo (computeAndSet tSet pick key compute) st).1.2 = none) ∧
    (∀ e, (c.GetOrComputeIn tGet tSet pick key compute env).err ≠ some (some e)) ∧
    ((c.Get tGet key).1.2 = true →
      c.GetOrComputeIn tGet tSet pick key compute env
        = { value := (c.Get tGet key).1.1, cache := (c.Get tGet key).2, env := env,
            err := none }) ∧
    ((c.Get tGet key).1.2 = false →
      c.GetOrComputeIn tGet tSet pick key compute env
        = { value := (compute key env).1,
            cache := (c.Get tGet key).2.Set tSet pick key (compute key env).1,
            env := (compute key env).2, err := some none }) ∧
    (c.GetOrComputeIn tGet tSet pick key (counted compute) (env, n)).env.2
      = n + (if (c.Get tGet key).1.2 = true then 0 else 1) ∧
    c.GetOrCompute tGet tSet pick key f
      = { value := (c.GetOrComputeIn tGet tSet pick key (logged f) []).value,
          cache := (c.GetOrComputeIn tGet tSet pick key (logged f) []).cache,
          calls := (c.GetOrComputeIn tGet tSet pick key (logged f) []).env } := by
  refine ⟨fun st => rfl, ?_, ?_, ?_, ?_, ?_⟩
  · intro e
    rcases Get_cases c tGet key with ⟨x, _, _, he⟩ | ⟨_, he⟩
    · rw [GetOrComputeIn_of_hit c tGet tSet pick key compute env _ _ he]
      simp
    · rw [GetOrComputeIn_of_miss c tGet tSet pick key compute env _ _ he]
      simp
  · intro hhit
    rcases Get_cases c tGet key with ⟨x, _, _, he⟩ | ⟨_, he⟩
    · rw [GetOrComputeIn_of_hit c tGet tSet pick key compute env _ _ he, he]
    · rw [he] at hhit
      exact absurd hhit (by simp)
  · intro hmiss
    rcases Get_cases c tGet key with ⟨x, _, _, he⟩ | ⟨_, he⟩
    · rw [he] at hmiss
      exact absurd hmiss (by simp)
    · rw [GetOrComputeIn_of_miss c tGet tSet pick key compute env _ _ he, he]
  · rcases Get_cases c tGet key with ⟨x, _, _, he⟩ | ⟨_, he⟩
    · rw [GetOrComputeIn_of_hit c tGet tSet pick key (counted compute) (env, n) _ _ he, he]
      simp
    · rw [GetOrComputeIn_of_miss c tGet tSet pick key (counted compute) (env, n) _ _ he, he]
      simp [counted]
  · rcases Get_cases c tGet key with ⟨x, _, _, he⟩ | ⟨_, he⟩
    · rw [GetOrComputeIn_of_hit c tGet tSet pick key (logged f) [] _ _ he,
        GetOrCompute_of_hit c tGet tSet pick key f _ _ he]
    · rw [GetOrComputeIn_of_miss c tGet tSet pick key (logged f) [] _ _ he,
        GetOrCompute_of_miss c tGet tSet pick key f _ _ he]
      simp [logged]

theorem GetOrCompute_error_nil_one_compute_witness :
    ((NewCache 10 5).Set 0 0 "k" "v").GetOrComputeIn 3 4 0 "k"
        (fun _ (m : Nat) => ("w", m + 1)) 0
      = { value := (((NewCache 10 5).Set 0 0 "k" "v").Get 3 "k").1.1,
          cache := (((NewCache 10 5).Set 0 0 "k" "v").Get 3 "k").2, env := 0, err := none } ∧
    (NewCache 10 5).GetOrComputeIn 3 4 0 "k" (fun _ (m : Nat) => ("w", m + 1)) 0
      = { value := ((fun _ (m : Nat) => ("w", m + 1)) "k" 0).1,
          cache := ((NewCache 10 5).Get 3 "k").2.Set 4 0 "k"
            ((fun _ (m : Nat) => ("w", m + 1)) "k" 0).1,
          env := ((fun _ (m : Nat) => ("w", m + 1)) "k" 0).2, err := some none } :=
  ⟨(GetOrCompute_error_nil_one_compute ((NewCache 10 5).Set 0 0 "k" "v") 3 4 0 "k"
      (fun _ (m : Nat) => ("w", m + 1)) 0 0 id).2.2.1 (by decide),
   (GetOrCompute_error_nil_one_compute (NewCache 10 5) 3 4 0 "k"
      (fun _ (m : Nat) => ("w", m + 1)) 0 0 id).2.2.2.1 (by decide)⟩

end CacheRace

/-! ## C20 -/

namespace ValidParentheses

theorem pairs_eq_some {c o : Char} (h : pairs c = some o) :
    (o = '(' ∧ c = ')') ∨ (o = '{' ∧ c = '}') ∨ (o = '[' ∧ c = ']') := by
  unfold pairs at h
  split at h
  · cases h; left; exact ⟨rfl, by assumption⟩
  · split at h
    · cases h; right; left; exact ⟨rfl, by assumption⟩
    · split at h
      · cases h; right; right; exact ⟨rfl, by assumption⟩
      · cases h

theorem balanced_wrap {o c : Char} (h : pairs c = some o) {u : List Char} (hu : Balanced u) :
    Balanced (o :: u ++ [c]) := by
  rcases pairs_eq_some h with ⟨rfl, rfl⟩ | ⟨rfl, rfl⟩ | ⟨rfl, rfl⟩
  · exact Balanced.paren hu
  · exact Balanced.brace hu
  · exact Balanced.bracket hu

theorem isValidLoop_open (stack rest : List Char) (o : Char) (h : pairs o = none) :
    isValidLoop stack (o :: rest) = isValidLoop (stack ++ [o]) rest := by
  simp [isValidLoop, h]

theorem isValidLoop_close (stack rest : List Char) (o c : Char) (h : pairs c = some o) :
    isValidLoop (stack ++ [o]) (c :: rest) = isValidLoop stack rest := by
  simp [isValidLoop, h]

theorem isValidLoop_skip {w : List Char} (hw : Balanced w) :
    ∀ stack rest, isValidLoop stack (w ++ rest) = isValidLoop stack rest := by
  induction hw with
  | empty => intro stack rest; rfl
  | concat _ _ ihu ihv =>
    intro stack rest
    rw [List.append_assoc, ihu, ihv]
  | paren _ ih =>
    intro stack rest
    simp only [List.cons_append, List.append_assoc, List.singleton_append]
    rw [isValidLoop_open _ _ _ (by decide), ih, isValidLoop_close _ _ _ _ (by decide)]
    rfl
  | bracket _ ih =>
    intro stack rest
    simp only [List.cons_append, List.append_assoc, List.singleton_append]
    rw [isValidLoop_open _ _ _ (by decide), ih, isValidLoop_close _ _ _ _ (by decide)]
    rfl
  | brace _ ih =>
    intro stack rest
    simp only [List.cons_append, List.append_assoc, List.singleton_append]
    rw [isValidLoop_open _ _ _ (by decide), ih, isValidLoop_close _ _ _ _ (by decide)]
    rfl

theorem balanced_insert {x : List Char} (hx : Balanced x) {w : List Char} (hw : Balanced w) :
    ∀ u v, w = u ++ v → Balanced (u ++ x ++ v) := by
  have wrapCase : ∀ (o c : Char) (a : List Char), Balanced (o :: a ++ [c]) →
      (∀ u v, a = u ++ v → Balanced (o :: (u ++ x ++ v) ++ [c])) →
      ∀ u v, o :: a ++ [c] = u ++ v → Balanced (u ++ x ++ v) := by
    intro o c a hwhole ih u v huv
    cases u with
    | nil =>
      simp only [List.nil_append] at huv ⊢
      rw [← huv]
      exact Balanced.concat hx hwhole
    | cons o2 u2 =>
      simp only [List.cons_append, List.cons.injEq] at huv
      obtain ⟨ho, hrest⟩ := huv
      subst ho
      rcases List.eq_nil_or_concat v with hv | ⟨v2, c2, hv⟩
      · subst hv
        simp only [List.append_nil] at hrest ⊢
        have : o :: u2 = o :: a ++ [c] := by rw [← hrest]; rfl
        rw [this]
        exact Balanced.concat hwhole hx
      · rw [List.concat_eq_append] at hv
        subst hv
        rw [← List.append_assoc] at hrest
        have h1 := List.append_inj_left' hrest rfl
        have h2 := List.append_inj_right' hrest rfl
        simp only [List.cons.injEq, and_true] at h2
        subst h2
        have := ih u2 v2 h1
        simpa [List.append_assoc] using this
  induction hw with
  | empty =>
    intro u v huv
    have hu : u = [] := (List.append_eq_nil.mp huv.symm).1
    have hv : v = [] := (List.append_eq_nil.mp huv.symm).2
    subst hu; subst hv
    simpa using hx
  | @concat a b ha hb iha ihb =>
    intro u v huv
    rcases List.append_eq_append_iff.mp huv with ⟨a2, hu, hb2⟩ | ⟨c2, ha2, hv⟩
    · subst hu
      have := Balanced.concat ha (ihb a2 v hb2)
      simpa [List.append_assoc] using this
    · subst hv
      have := Balanced.concat (iha u c2 ha2) hb
      simpa [List.append_assoc] using this
  | @paren a ha ih =>
    exact wrapCase _ _ a (Balanced.paren ha) (fun u v h => Balanced.paren (ih u v h))
  | @bracket a ha ih =>
    exact wrapCase _ _ a (Balanced.bracket ha) (fun u v h => Balanced.bracket (ih u v h))
  | @brace a ha ih =>
    exact wrapCase _ _ a (Balanced.brace ha) (fun u v h => Balanced.brace (ih u v h))

theorem isValidLoop_sound : ∀ (s stack : List Char),
    isValidLoop stack s = true → Balanced (stack ++ s) := by
  intro s
  induction s with
  | nil =>
    intro stack h
    simp only [isValidLoop, beq_iff_eq, List.length_eq_zero] at h
    subst h
    exact Balanced.empty
  | cons c rest ih =>
    intro stack h
    cases hp : pairs c with
    | none =>
      rw [isValidLoop_open stack rest c hp] at h
      have := ih (stack ++ [c]) h
      simpa [List.append_assoc] using this
    | some o =>
      rcases List.eq_nil_or_concat stack with hs | ⟨stack2, top, hs⟩
      · subst hs
        simp [isValidLoop, hp] at h
      · rw [List.concat_eq_append] at hs
        subst hs
        by_cases htop : top = o
        · subst htop
          rw [isValidLoop_close stack2 rest top c hp] at h
          have hb := ih stack2 h
          have hpair : Balanced [top, c] := balanced_wrap hp Balanced.empty
          have := balanced_insert hpair hb stack2 rest rfl
          simpa [List.append_assoc] using this
        · simp [isValidLoop, hp, htop] at h

/-- C20: for every string `s` (in particular every string made only of the characters
`( ) [ ] { }`), `isValid(s)` is true if and only if `s` is a correctly nested bracket
sequence generated by `S -> empty | S S | (S) | [S] | {S}`; the empty string is valid. -/
theorem isValid_iff_balanced (s : String) : isValid s = true ↔ Balanced s.toList := by
  constructor
  · intro h
    have := isValidLoop_sound s.toList [] h
    simpa using this
  · intro h
    have := isValidLoop_skip h [] []
    simp only [List.append_nil] at this
    unfold isValid
    rw [this]
    rfl

end ValidParentheses

/-! ## C19 -/

namespace ContainerWithMostWater

theorem wrapInt_of_fits (x : Int) (h0 : 0 ≤ x) (h1 : x < 2 ^ 63) : wrapInt x = x := by
  unfold wrapInt
  omega

theorem min_eq_Min (a b : Int) : min a b = Min.min a b := by
  unfold min
  split
  · rw [min_eq_left (by omega)]
  · rw [min_eq_right (by omega)]

theorem getD_nonneg (height : List Int) (hnn : ∀ x ∈ height, 0 ≤ x) (i : Nat) :
    0 ≤ height.getD i 0 := by
  rw [List.getD_eq_getElem?_getD]
  cases h : height[i]? with
  | none => simp
  | some x => simpa using hnn x (List.getElem?_mem h)

theorem area_nonneg (height : List Int) (hnn : ∀ x ∈ height, 0 ≤ x) (i j : Nat) (hij : i < j) :
    0 ≤ area height i j := by
  unfold area
  apply mul_nonneg
  · omega
  · exact le_min (getD_nonneg height hnn i) (getD_nonneg height hnn j)

theorem area_le_of_left (height : List Int) (hnn : ∀ x ∈ height, 0 ≤ x) (l r j : Nat)
    (hlj : l < j) (hjr : j ≤ r) (hlt : height.getD l 0 < height.getD r 0) :
    area height l j ≤ area height l r := by
  unfold area
  have h1 : Min.min (height.getD l 0) (height.getD r 0) = height.getD l 0 :=
    min_eq_left (le_of_lt hlt)
  rw [h1]
  apply mul_le_mul
  · omega
  · exact min_le_left _ _
  · exact le_min (getD_nonneg height hnn l) (getD_nonneg height hnn j)
  · omega

theorem area_le_of_right (height : List Int) (hnn : ∀ x ∈ height, 0 ≤ x) (l r i : Nat)
    (hli : l ≤ i) (hir : i < r) (hge : ¬ height.getD l 0 < height.getD r 0) :
    area height i r ≤ area height l r := by
  unfold area
  have h1 : Min.min (height.getD l 0) (height.getD r 0) = height.getD r 0 :=
    min_eq_right (by omega)
  rw [h1]
  apply mul_le_mul
  · omega
  · exact min_le_right _ _
  · exact le_min (getD_nonneg height hnn i) (getD_nonneg height hnn r)
  · omega

theorem maxAreaLoop_spec (height : List Int) (hnn : ∀ x ∈ height, 0 ≤ x)
    (hfit : ∀ j < height.length, ∀ i < j, area height i j < 2 ^ 63) :
    ∀ (fuel l r : Nat) (m : Int), r < height.length → r < l + fuel → 0 ≤ m →
      (∀ i j, i < j → j < height.length → (i < l ∨ r < j) → area height i j ≤ m) →
      (m = 0 ∨ m ∈ pairAreas height) →
      (∀ i j, i < j → j < height.length →
        area height i j ≤ maxAreaLoop height fuel (l : Int) (r : Int) m) ∧
      (maxAreaLoop height fuel (l : Int) (r : Int) m = 0 ∨
        maxAreaLoop height fuel (l : Int) (r : Int) m ∈ pairAreas height) := by
  intro fuel
  induction fuel with
  | zero =>
    intro l r m _ hfuel _ hout hin
    simp only [maxAreaLoop]
    refine ⟨?_, hin⟩
    intro i j hij hj
    exact hout i j hij hj (by omega)
  | succ fuel ih =>
    intro l r m hr hfuel hm hout hin
    by_cases hlr : l < r
    · have hlr2 : (l : Int) < (r : Int) := by omega
      have hmem : area height l r ∈ pairAreas height := ⟨l, r, hlr, hr, rfl⟩
      have ha0 := area_nonneg height hnn l r hlr
      have ha1 := hfit r hr l hlr
      have harea : ((r : Int) - (l : Int)) *
          min (height.getD (l : Int).toNat 0) (height.getD (r : Int).toNat 0)
          = area height l r := by
        rw [min_eq_Min]
        simp [area]
      have hcur : wrapInt (((r : Int) - (l : Int)) *
          min (height.getD (l : Int).toNat 0) (height.getD (r : Int).toNat 0))
          = area height l r := by
        rw [harea]
        exact wrapInt_of_fits _ ha0 ha1
      have hm2 : 0 ≤ (if area height l r > m then area height l r else m) := by
        split <;> omega
      have hin2 : (if area height l r > m then area height l r else m) = 0 ∨
          (if area height l r > m then area height l r else m) ∈ pairAreas height := by
        split
        · exact Or.inr hmem
        · exact hin
      have hge1 : m ≤ (if area height l r > m then area height l r else m) := by
        split <;> omega
      have hge2 : area height l r ≤ (if area height l r > m then area height l r else m) := by
        split <;> omega
      simp only [maxAreaLoop, hlr2, if_true, hcur]
      simp only [Int.toNat_ofNat]
      by_cases hlt : height.getD l 0 < height.getD r 0
      · simp only [hlt, if_true]
        have := ih (l + 1) r (if area height l r > m then area height l r else m) hr
          (by omega) hm2 (by
            intro i j hij hj hor
            by_cases hil : i < l
            · exact le_trans (hout i j hij hj (Or.inl hil)) hge1
            · by_cases hrj : r < j
              · exact le_trans (hout i j hij hj (Or.inr hrj)) hge1
              · have hi : i = l := by omega
                subst hi
                exact le_trans (area_le_of_left height hnn i r j hij (by omega) hlt) hge2) hin2
        simpa using this
      · simp only [hlt, if_false]
        have hr1 : ((r : Int) - 1) = ((r - 1 : Nat) : Int) := by omega
        rw [hr1]
        exact ih l (r - 1) (if area height l r > m then area height l r else m) (by omega)
          (by omega) hm2 (by
            intro i j hij hj hor
            by_cases hil : i < l
            · exact le_trans (hout i j hij hj (Or.inl hil)) hge1
            · by_cases hrj : r < j
              · exact le_trans (hout i j hij hj (Or.inr hrj)) hge1
              · have hj2 : j = r := by omega
                subst hj2
                exact le_trans (area_le_of_right height hnn l j i (by omega) hij hlt) hge2) hin2
    · simp only [maxAreaLoop]
      have hlr2 : ¬ (l : Int) < (r : Int) := by omega
      simp only [hlr2, if_false]
      refine ⟨?_, hin⟩
      intro i j hij hj
      exact hout i j hij hj (by omega)

/-- C19 (as amended): for every slice `height` of non-negative ints in which the area
`(j - i) * min(height[i], height[j])` of every index pair `i < j` fits in an `int` (is
below `2^63`), `maxArea(height)` equals the maximum of these areas over all index pairs
`i < j`; and it is 0 when the slice has fewer than two elements. -/
theorem maxArea_is_max_pair_area (height : List Int) (hnn : ∀ x ∈ height, 0 ≤ x)
    (hfit : ∀ j < height.length, ∀ i < j, area height i j < 2 ^ 63) :
    (2 ≤ height.length → IsGreatest (pairAreas height) (maxArea height)) ∧
    (height.length < 2 → maxArea height = 0) := by
  constructor
  · intro hlen
    have hr : ((height.length : Int) - 1) = ((height.length - 1 : Nat) : Int) := by omega
    have h := maxAreaLoop_spec height hnn hfit height.length 0 (height.length - 1) 0
      (by omega) (by omega) le_rfl (by intro i j hij hj hor; omega) (Or.inl rfl)
    unfold maxArea
    rw [hr]
    simp only [Nat.cast_zero] at h
    obtain ⟨hub, hatt⟩ := h
    constructor
    · rcases hatt with h0 | hmem
      · rw [h0]
        refine ⟨0, 1, by omega, by omega, ?_⟩
        have h1 := hub 0 1 (by omega) (by omega)
        have h2 := area_nonneg height hnn 0 1 (by omega)
        rw [h0] at h1
        omega
      · exact hmem
    · rintro a ⟨i, j, hij, hj, rfl⟩
      exact hub i j hij hj
  · intro hlen
    unfold maxArea
    cases hh : height with
    | nil => rfl
    | cons x rest =>
      have : rest = [] := by
        rw [hh] at hlen
        simp only [List.length_cons] at hlen
        exact List.length_eq_zero.mp (by omega)
      subst this
      simp [maxAreaLoop]

theorem maxArea_is_max_pair_area_witness :
    IsGreatest (pairAreas [1, 8, 6, 2, 5, 4, 8, 3, 7]) (maxArea [1, 8, 6, 2, 5, 4, 8, 3, 7]) ∧
    maxArea [7] = 0 :=
  ⟨(maxArea_is_max_pair_area [1, 8, 6, 2, 5, 4, 8, 3, 7] (by decide) (by decide)).1 (by decide),
   (maxArea_is_max_pair_area [7] (by decide) (by decide)).2 (by decide)⟩

/-- C19 fails as stated: the four heights are non-negative ints.  The products for the
pairs (0, 3) and (1, 3), `3 * 2^62` and `2 * 2^62`, wrap around to negative ints, the
pointer `left` moves past the pairs (0, 1), (0, 2) and (1, 2), and `maxArea` returns 0,
although the pair (0, 1) has area `2^62`, which fits in an `int`. -/
theorem maxArea_overflow_misses_maximum :
    (∀ x ∈ [(4611686018427387904 : Int), 4611686018427387904, 0, 4611686018427387905],
      0 ≤ x ∧ x < 2 ^ 63) ∧
    maxArea [4611686018427387904, 4611686018427387904, 0, 4611686018427387905] = 0 ∧
    area [4611686018427387904, 4611686018427387904, 0, 4611686018427387905] 0 1
      = 4611686018427387904 ∧
    wrapInt (area [4611686018427387904, 4611686018427387904, 0, 4611686018427387905] 0 1)
      = 4611686018427387904 ∧
    area [4611686018427387904, 4611686018427387904, 0, 4611686018427387905] 0 1
      ∈ pairAreas [4611686018427387904, 4611686018427387904, 0, 4611686018427387905] :=
  ⟨by decide, by decide, by decide, by decide, ⟨0, 1, by decide, by decide, rfl⟩⟩

end ContainerWithMostWater

/-! ## C17 -/

namespace MaxSlidingWindow

theorem rdropWhile_split {α : Type} (p : α → Bool) (l : List α) :
    ∃ t, l = l.rdropWhile p ++ t ∧ ∀ x ∈ t, p x = true := by
  induction l using List.reverseRecOn with
  | nil => exact ⟨[], by simp, by simp⟩
  | append_singleton l x ih =>
    by_cases hx : p x = true
    · obtain ⟨t, ht, hall⟩ := ih
      refine ⟨t ++ [x], ?_, ?_⟩
      · rw [List.rdropWhile_concat_pos p l x hx, ← List.append_assoc, ← ht]
      · intro y hy
        rcases List.mem_append.mp hy with h | h
        · exact hall y h
        · simp only [List.mem_singleton] at h
          rw [h]; exact hx
    · refine ⟨[], ?_, by simp⟩
      rw [List.rdropWhile_concat_neg p l x hx]
      simp

theorem rdropWhile_kept_ge (nums : List Int) (x : Int) (d : List Nat)
    (hs : d.Pairwise (fun a b => a < b ∧ nums.getD b 0 ≤ nums.getD a 0)) :
    ∀ a ∈ d.rdropWhile (fun j => decide (nums.getD j 0 < x)), x ≤ nums.getD a 0 := by
  intro a ha
  have hne : d.rdropWhile (fun j => decide (nums.getD j 0 < x)) ≠ [] :=
    List.ne_nil_of_mem ha
  have hlast := List.rdropWhile_last_not (fun j => decide (nums.getD j 0 < x)) d hne
  simp only [decide_eq_true_eq, not_lt] at hlast
  have hpre : (d.rdropWhile (fun j => decide (nums.getD j 0 < x))) <+: d :=
    List.rdropWhile_prefix _ d
  have hs2 := hs.sublist hpre.sublist
  rw [← List.dropLast_append_getLast hne] at ha hs2
  rw [List.pairwise_append] at hs2
  rcases List.mem_append.mp ha with h | h
  · have := hs2.2.2 a h _ (List.mem_singleton_self _)
    omega
  · simp only [List.mem_singleton] at h
    rw [h]; exact hlast

theorem deque_front_drop (nums : List Int) (k n : Nat) (d : List Nat)
    (hs : d.Pairwise (fun a b => a < b ∧ nums.getD b 0 ≤ nums.getD a 0))
    (hw : ∀ j ∈ d, j < n ∧ n ≤ j + k)
    (hd : ∀ j, j < n → n ≤ j + k → ∃ m ∈ d, j ≤ m ∧ nums.getD j 0 ≤ nums.getD m 0) :
    (match d with
      | [] => []
      | front :: rest =>
        if (front : Int) < (n : Int) - (k : Int) + 1 then rest else front :: rest).Pairwise
        (fun a b => a < b ∧ nums.getD b 0 ≤ nums.getD a 0) ∧
    (∀ j ∈ (match d with
      | [] => []
      | front :: rest =>
        if (front : Int) < (n : Int) - (k : Int) + 1 then rest else front :: rest),
        j < n ∧ n + 1 ≤ j + k) ∧
    (∀ j, j < n → n + 1 ≤ j + k → ∃ m ∈ (match d with
      | [] => []
      | front :: rest =>
        if (front : Int) < (n : Int) - (k : Int) + 1 then rest else front :: rest),
        j ≤ m ∧ nums.getD j 0 ≤ nums.getD m 0) := by
  cases d with
  | nil =>
    refine ⟨List.Pairwise.nil, by simp, ?_⟩
    intro j hj hjk
    obtain ⟨m, hm, _⟩ := hd j hj (by omega)
    simp at hm
  | cons front rest =>
    have hrel : ∀ {j}, j ∈ rest → front < j ∧ nums.getD j 0 ≤ nums.getD front 0 :=
      fun hj => List.rel_of_pairwise_cons hs hj
    by_cases hf : (front : Int) < (n : Int) - (k : Int) + 1
    · simp only [hf, if_true]
      refine ⟨hs.of_cons, ?_, ?_⟩
      · intro j hj
        have h1 := hw j (List.mem_cons_of_mem _ hj)
        have h2 := (hrel hj).1
        have h3 := hw front (List.mem_cons_self _ _)
        omega
      · intro j hj hjk
        obtain ⟨m, hm, hjm, hv⟩ := hd j hj (by omega)
        rcases List.mem_cons.mp hm with h | h
        · omega
        · exact ⟨m, h, hjm, hv⟩
    · simp only [hf, if_false]
      refine ⟨hs, ?_, ?_⟩
      · intro j hj
        have h1 := hw j hj
        rcases List.mem_cons.mp hj with h | h
        · omega
        · have h2 := (hrel h).1
          omega
      · intro j hj hjk
        exact hd j hj (by omega)

theorem deque_step_inv (nums : List Int) (k n : Nat) (hk : 1 ≤ k) (st : LoopState)
    (h : Inv nums k n st) : Inv nums k (n + 1) (step nums (k : Int) st n) := by
  obtain ⟨hs1, hw1, hd1⟩ := deque_front_drop nums k n st.deque h.sorted h.inWin h.dom
  generalize hd1def : (match st.deque with
      | [] => []
      | front :: rest =>
        if (front : Int) < (n : Int) - (k : Int) + 1 then rest else front :: rest) = d1
    at hs1 hw1 hd1
  obtain ⟨t, ht, htp⟩ := rdropWhile_split (fun j => decide (nums.getD j 0 < nums.getD n 0)) d1
  have hge := rdropWhile_kept_ge nums (nums.getD n 0) d1 hs1
  generalize hd2def : d1.rdropWhile (fun j => decide (nums.getD j 0 < nums.getD n 0)) = d2
    at ht hge
  have hsub : ∀ j ∈ d2, j ∈ d1 := by
    intro j hj
    rw [ht]
    exact List.mem_append_left _ hj
  have hs2 : d2.Pairwise (fun a b => a < b ∧ nums.getD b 0 ≤ nums.getD a 0) := by
    rw [ht] at hs1
    exact (List.pairwise_append.mp hs1).1
  have hs3 : (d2 ++ [n]).Pairwise (fun a b => a < b ∧ nums.getD b 0 ≤ nums.getD a 0) := by
    rw [List.pairwise_append]
    refine ⟨hs2, List.pairwise_singleton _ _, ?_⟩
    intro a ha b hb
    simp only [List.mem_singleton] at hb
    subst hb
    exact ⟨(hw1 a (hsub a ha)).1, hge a ha⟩
  have hw3 : ∀ j ∈ d2 ++ [n], j < n + 1 ∧ n + 1 ≤ j + k := by
    intro j hj
    rcases List.mem_append.mp hj with hj | hj
    · have := hw1 j (hsub j hj)
      omega
    · simp only [List.mem_singleton] at hj
      omega
  have hd3 : ∀ j, j < n + 1 → n + 1 ≤ j + k →
      ∃ m ∈ d2 ++ [n], j ≤ m ∧ nums.getD j 0 ≤ nums.getD m 0 := by
    intro j hj hjk
    by_cases hjn : j = n
    · subst hjn
      exact ⟨j, by simp, le_rfl, le_rfl⟩
    · obtain ⟨m, hm, hjm, hv⟩ := hd1 j (by omega) hjk
      rw [ht] at hm
      rcases List.mem_append.mp hm with hm | hm
      · exact ⟨m, List.mem_append_left _ hm, hjm, hv⟩
      · have hp := htp m hm
        simp only [decide_eq_true_eq] at hp
        exact ⟨n, by simp, by omega, by omega⟩
  have hhead : (d2 ++ [n]).headD 0 ∈ d2 ++ [n] := by
    cases d2 with
    | nil => simp
    | cons a rest => simp
  have hheadmax : ∀ m ∈ d2 ++ [n], nums.getD m 0 ≤ nums.getD ((d2 ++ [n]).headD 0) 0 := by
    intro m hm
    cases hd2 : d2 with
    | nil =>
      rw [hd2] at hm
      simp only [List.nil_append, List.mem_singleton] at hm
      subst hm
      simp
    | cons a rest =>
      rw [hd2] at hm hs3
      simp only [List.cons_append, List.headD_cons] at hm ⊢
      rcases List.mem_cons.mp hm with h | h
      · rw [h]
      · exact (List.rel_of_pairwise_cons hs3 h).2
  have hstep : step nums (k : Int) st n =
      { deque := d2 ++ [n]
        result := if (n : Int) ≥ (k : Int) - 1
          then st.result ++ [nums.getD ((d2 ++ [n]).headD 0) 0] else st.result } := by
    simp only [step]
    rw [hd1def, hd2def]
  rw [hstep]
  refine ⟨hs3, hw3, hd3, ?_, ?_⟩
  · by_cases hc : (n : Int) ≥ (k : Int) - 1
    · simp only [hc, if_true, List.length_append, List.length_singleton, h.len]
      omega
    · simp only [hc, if_false, h.len]
      omega
  · by_cases hc : (n : Int) ≥ (k : Int) - 1
    · simp only [hc, if_true, List.length_append, List.length_singleton]
      intro idx hidx
      by_cases hold : idx < st.result.length
      · have := h.isMax idx hold
        rw [List.getD_append _ _ _ _ hold]
        exact this
      · have hidx2 : idx = st.result.length := by omega
        have hlen := h.len
        rw [hidx2, List.getD_append_right _ _ _ _ le_rfl]
        simp only [Nat.sub_self, List.getD_cons_zero]
        have hin := hw3 _ hhead
        refine ⟨⟨(d2 ++ [n]).headD 0, by omega, by omega, rfl⟩, ?_⟩
        intro j hj1 hj2
        obtain ⟨m, hm, _, hv⟩ := hd3 j (by omega) (by omega)
        exact le_trans hv (hheadmax m hm)
    · simp only [hc, if_false]
      exact h.isMax

theorem deque_loop_inv (nums : List Int) (k : Nat) (hk : 1 ≤ k) (n : Nat) :
    Inv nums k n ((List.range n).foldl (step nums (k : Int)) { deque := [], result := [] }) := by
  induction n with
  | zero =>
    refine ⟨List.Pairwise.nil, by simp, ?_, ?_, by simp⟩
    · intro j hj
      omega
    · simp only [List.range_zero, List.foldl_nil, List.length_nil]
      omega
  | succ n ih =>
    rw [List.range_succ, List.foldl_append]
    exact deque_step_inv nums k n hk _ ih

theorem mem_window_iff (nums : List Int) (k i : Nat) (x : Int) :
    x ∈ window nums k i ↔ ∃ j, i ≤ j ∧ j < i + k ∧ nums[j]? = some x := by
  unfold window
  rw [List.mem_iff_getElem?]
  constructor
  · rintro ⟨m, hm⟩
    rw [List.getElem?_take] at hm
    split at hm
    · rw [List.getElem?_drop] at hm
      exact ⟨i + m, by omega, by omega, hm⟩
    · cases hm
  · rintro ⟨j, h1, h2, hj⟩
    refine ⟨j - i, ?_⟩
    rw [List.getElem?_take]
    have : j - i < k := by omega
    simp only [this, if_true]
    rw [List.getElem?_drop]
    have : i + (j - i) = j := by omega
    rw [this]
    exact hj

theorem getD_eq_of_lt (nums : List Int) (j : Nat) (hj : j < nums.length) :
    nums[j]? = some (nums.getD j 0) := by
  rw [List.getD_eq_getElem?_getD, List.getElem?_eq_getElem hj]
  rfl

/-- C17: for every `nums` and `k` with `1 ≤ k ≤ len(nums)`, `maxSlidingWindow(nums, k)`
returns a slice of length `len(nums) - k + 1` whose `i`-th element is the maximum of
`nums[i], ..., nums[i+k-1]` (it occurs in that window and no element of the window is
larger); for empty `nums` or `k = 0` it returns an empty slice. -/
theorem maxSlidingWindow_window_maxima (nums : List Int) :
    (∀ k : Nat, 1 ≤ k → k ≤ nums.length →
      ∃ r, maxSlidingWindow nums (k : Int) = some r ∧ r.length = nums.length - k + 1 ∧
        ∀ i, i < r.length →
          r.getD i 0 ∈ window nums k i ∧ ∀ x ∈ window nums k i, x ≤ r.getD i 0) ∧
    (∀ k : Int, nums = [] ∨ k = 0 → maxSlidingWindow nums k = some []) := by
  constructor
  · intro k hk1 hk2
    have hinv := deque_loop_inv nums k hk1 nums.length
    refine ⟨((List.range nums.length).foldl (step nums (k : Int))
      { deque := [], result := [] }).result, ?_, ?_, ?_⟩
    · unfold maxSlidingWindow
      have h1 : ¬ (nums.length = 0 ∨ (k : Int) = 0) := by omega
      have h2 : ¬ ((nums.length : Int) - (k : Int) + 1 < 0 ∨ (k : Int) < 0) := by omega
      rw [if_neg h1, if_neg h2]
    · rw [hinv.len]
      omega
    · intro i hi
      have hlen := hinv.len
      obtain ⟨⟨m, hm1, hm2, hm3⟩, hub⟩ := hinv.isMax i hi
      constructor
      · rw [mem_window_iff]
        refine ⟨m, hm1, hm2, ?_⟩
        rw [hm3]
        exact getD_eq_of_lt nums m (by omega)
      · intro x hx
        rw [mem_window_iff] at hx
        obtain ⟨j, hj1, hj2, hj3⟩ := hx
        have := hub j hj1 hj2
        rw [List.getD_eq_getElem?_getD, hj3] at this
        exact this
  · intro k hk
    unfold maxSlidingWindow
    have h1 : nums.length = 0 ∨ k = 0 := by
      rcases hk with h | h
      · left; rw [h]; rfl
      · right; exact h
    rw [if_pos h1]

theorem maxSlidingWindow_window_maxima_witness :
    (∃ r, maxSlidingWindow [1, 3, -1, -3, 5, 3, 6, 7] ((3 : Nat) : Int) = some r ∧
        r.length = [1, 3, -1, -3, 5, 3, 6, 7].length - 3 + 1 ∧
        ∀ i, i < r.length →
          r.getD i 0 ∈ window [1, 3, -1, -3, 5, 3, 6, 7] 3 i ∧
          ∀ x ∈ window [1, 3, -1, -3, 5, 3, 6, 7] 3 i, x ≤ r.getD i 0) ∧
    maxSlidingWindow [1, 3, -1, -3, 5, 3, 6, 7] 0 = some [] :=
  ⟨(maxSlidingWindow_window_maxima [1, 3, -1, -3, 5, 3, 6, 7]).1 3 (by decide) (by decide),
   (maxSlidingWindow_window_maxima [1, 3, -1, -3, 5, 3, 6, 7]).2 0 (Or.inr rfl)⟩

end MaxSlidingWindow

/-! ## C18 -/

namespace MinimumWindowSubstring

theorem prefixCount_succ {α : Type} [DecidableEq α] [Inhabited α] (s : List α) (n : Nat)
    (hn : n < s.length) (b : α) :
    prefixCount s (n + 1) b = prefixCount s n b + if s.getD n default = b then 1 else 0 := by
  unfold prefixCount
  rw [List.take_succ, List.getElem?_eq_getElem hn, List.getD_eq_getElem _ _ hn]
  simp only [Option.toList_some, List.count_append, List.count_singleton]
  by_cases h : s[n] = b
  · simp [h]
  · have h2 : ¬ b = s[n] := fun e => h e.symm
    simp [h, h2]

theorem prefixCount_mono {α : Type} [DecidableEq α] (s : List α) {m n : Nat} (h : m ≤ n)
    (b : α) : prefixCount s m b ≤ prefixCount s n b := by
  unfold prefixCount
  have hsub : (s.take m).Sublist (s.take n) := List.take_sublist_take_left s h
  exact_mod_cast hsub.count_le b

theorem prefixCount_nonneg {α : Type} [DecidableEq α] (s : List α) (n : Nat) (b : α) :
    0 ≤ prefixCount s n b := by
  unfold prefixCount
  omega

theorem validWin_mono {α : Type} [DecidableEq α] (s t : List α) {l l2 r r2 : Nat}
    (hl : l2 ≤ l) (hr : r ≤ r2) (h : ValidWin s t l r) : ValidWin s t l2 r2 := by
  intro b
  have h1 := h b
  have h2 := prefixCount_mono s hl b
  have h3 := prefixCount_mono s hr b
  omega

theorem fold_add_val {α : Type} [DecidableEq α] (t : List α) (m : Counts α) (b : α) :
    (t.foldl (fun m b => m.add b 1) m).val b = m.val b + (t.count b : Int) := by
  induction t generalizing m with
  | nil => simp
  | cons x rest ih =>
    rw [List.foldl_cons, ih]
    simp only [Counts.add, List.count_cons]
    by_cases h : b = x
    · subst h
      simp
      omega
    · have h2 : ¬ (x == b) = true := by simpa using fun e => h e.symm
      simp [h, h2]

theorem fold_add_keys {α : Type} [DecidableEq α] (t : List α) (m : Counts α)
    (hm : m.keys.Nodup) :
    (t.foldl (fun m b => m.add b 1) m).keys.Nodup ∧
    ∀ b, b ∈ (t.foldl (fun m b => m.add b 1) m).keys ↔ b ∈ m.keys ∨ b ∈ t := by
  induction t generalizing m with
  | nil => simp [hm]
  | cons x rest ih =>
    rw [List.foldl_cons]
    have hnd : (m.add x 1).keys.Nodup := by
      simp only [Counts.add]
      split
      · exact hm
      · rename_i hx
        rw [List.nodup_append]
        refine ⟨hm, List.nodup_singleton x, ?_⟩
        intro a ha hb
        simp only [List.mem_singleton] at hb
        subst hb
        exact hx ha
    obtain ⟨h1, h2⟩ := ih (m.add x 1) hnd
    refine ⟨h1, ?_⟩
    intro b
    rw [h2]
    simp only [Counts.add]
    split
    · rename_i hx
      simp only [List.mem_cons]
      constructor
      · rintro (h | h)
        · exact Or.inl h
        · exact Or.inr (Or.inr h)
      · rintro (h | h | h)
        · exact Or.inl h
        · subst h; exact Or.inl hx
        · exact Or.inr h
    · simp only [List.mem_append, List.mem_singleton, List.mem_cons]
      tauto

theorem reached_update {α : Type} [DecidableEq α] (keys : List α) (hnd : keys.Nodup)
    (tc wc wc2 : α → Int) (c : α) (hsame : ∀ b, b ≠ c → wc2 b = wc b) :
    (reached keys tc wc2 : Int) = reached keys tc wc +
      (if c ∈ keys then
        (if tc c ≤ wc2 c then 1 else 0) - (if tc c ≤ wc c then 1 else 0) else 0) := by
  unfold reached
  induction keys with
  | nil => simp
  | cons x rest ih =>
    have hx : x ∉ rest := (List.nodup_cons.mp hnd).1
    have ih2 := ih (List.nodup_cons.mp hnd).2
    rw [List.countP_cons, List.countP_cons]
    push_cast
    rw [ih2]
    by_cases hxc : x = c
    · subst hxc
      simp only [hx, if_false, List.mem_cons, true_or, if_true, decide_eq_true_eq]
      split <;> split <;> simp
    · have hcx : ¬ c = x := fun e => hxc e.symm
      rw [hsame x hxc]
      simp only [List.mem_cons, hcx, false_or]
      omega

theorem tableOf_fold {α : Type} [DecidableEq α] (t : List α) :
    TableOf t (t.foldl (fun m b => m.add b 1) Counts.empty) := by
  have h := fold_add_keys t Counts.empty (by simp [Counts.empty])
  refine ⟨h.1, ?_, ?_⟩
  · intro b
    rw [h.2 b]
    simp [Counts.empty]
  · intro b
    rw [fold_add_val]
    simp [Counts.empty]

theorem reached_all_iff {α : Type} [DecidableEq α] (s t : List α) (tCount : Counts α)
    (ht : TableOf t tCount) (wc : α → Int) (l n : Nat) (hln : l ≤ n)
    (hw : ∀ b, wc b = prefixCount s n b - prefixCount s l b) :
    (reached tCount.keys tCount.val wc : Int) = (tCount.keys.length : Int) ↔
      ValidWin s t l n := by
  unfold reached
  rw [Nat.cast_inj, List.countP_eq_length]
  constructor
  · intro h b
    by_cases hb : b ∈ tCount.keys
    · have := h b hb
      simp only [decide_eq_true_eq] at this
      rw [ht.val b, hw b] at this
      exact this
    · have hnt : b ∉ t := fun hm => hb ((ht.mem b).mpr hm)
      rw [List.count_eq_zero_of_not_mem hnt]
      have := prefixCount_mono s hln b
      simp only [Nat.cast_zero]
      omega
  · intro h b _
    simp only [decide_eq_true_eq]
    rw [ht.val b, hw b]
    exact h b

theorem record_inv {α : Type} [DecidableEq α] (s t : List α) (tCount : Counts α) (n : Nat)
    (st : State α) (h : Inv s t tCount (n + 1) n st)
    (hl : st.left ≤ n) (hv : ValidWin s t st.left (n + 1)) :
    Inv s t tCount (n + 1) n (record n st) ∧ (record n st).minLen + st.left ≤ n + 1 ∧
      (record n st).left = st.left ∧ (record n st).formed = st.formed ∧
      (record n st).windowCount = st.windowCount := by
  unfold record
  by_cases hc : n - st.left + 1 < st.minLen
  · rw [if_pos hc]
    refine ⟨⟨h.left_le, h.win, h.formed_eq, ?_, ?_, ?_⟩, ?_, rfl, rfl, rfl⟩
    · right
      dsimp only
      refine ⟨hl, by omega, by omega, hv⟩
    · intro l r hlr hr hval
      have := h.older l r hlr hr hval
      dsimp only
      omega
    · intro l hlt
      have := h.passed l hlt
      dsimp only at hlt ⊢
      omega
    · dsimp only
      omega
  · rw [if_neg hc]
    refine ⟨h, by omega, rfl, rfl, rfl⟩

theorem dropLeft_inv {α : Type} [DecidableEq α] [Inhabited α] (s t : List α)
    (tCount : Counts α) (ht : TableOf t tCount) (n : Nat) (hn : n < s.length) (st : State α)
    (h : Inv s t tCount (n + 1) n st) (hl : st.left ≤ n)
    (hall : st.formed = (tCount.keys.length : Int)) (hmin : st.minLen + st.left ≤ n + 1) :
    Inv s t tCount (n + 1) n (dropLeft s tCount st) := by
  have hreach : ∀ b ∈ tCount.keys, tCount.val b ≤ st.windowCount.val b := by
    have h1 := h.formed_eq
    rw [hall] at h1
    have h2 : reached tCount.keys tCount.val st.windowCount.val = tCount.keys.length := by
      exact_mod_cast h1.symm
    unfold reached at h2
    rw [List.countP_eq_length] at h2
    intro b hb
    simpa using h2 b hb
  have hupd := reached_update tCount.keys ht.nodup tCount.val st.windowCount.val
    (st.windowCount.add (s.getD st.left default) (-1)).val (s.getD st.left default)
    (by intro b hb; simp only [Counts.add, if_neg hb])
  have hvalc : (st.windowCount.add (s.getD st.left default) (-1)).val (s.getD st.left default)
      = st.windowCount.val (s.getD st.left default) - 1 := by
    simp only [Counts.add, if_true]
    omega
  refine ⟨?_, ?_, ?_, ?_, ?_, ?_⟩
  · simp only [dropLeft]
    omega
  · intro b
    simp only [dropLeft, Counts.add]
    rw [prefixCount_succ s st.left (by omega) b, h.win b]
    by_cases hb : b = s.getD st.left default
    · have hb2 : s.getD st.left default = b := hb.symm
      simp only [hb, if_true]
      omega
    · have hb2 : ¬ s.getD st.left default = b := fun e => hb e.symm
      simp only [hb, hb2, if_false]
      omega
  · simp only [dropLeft]
    rw [hupd, ← h.formed_eq, hvalc]
    by_cases hk : s.getD st.left default ∈ tCount.keys
    · have hr := hreach _ hk
      simp only [hk, true_and, if_true]
      split <;> split <;> omega
    · simp only [hk, false_and, if_false]
      omega
  · exact h.best
  · exact h.older
  · intro l hlt
    simp only [dropLeft] at hlt ⊢
    by_cases hlo : l < st.left
    · exact h.passed l hlo
    · have : l = st.left := by omega
      omega

theorem shrink_inv {α : Type} [DecidableEq α] [Inhabited α] (s t : List α)
    (tCount : Counts α) (ht : TableOf t tCount) (n : Nat) (hn : n < s.length) :
    ∀ (fuel : Nat) (st : State α), Inv s t tCount (n + 1) n st → n + 1 - st.left ≤ fuel →
      Inv s t tCount (n + 1) n (shrink s tCount (tCount.keys.length : Int) n fuel st) ∧
      ¬ ((shrink s tCount (tCount.keys.length : Int) n fuel st).left ≤ n ∧
        (shrink s tCount (tCount.keys.length : Int) n fuel st).formed
          = (tCount.keys.length : Int)) := by
  intro fuel
  induction fuel with
  | zero =>
    intro st h hf
    simp only [shrink]
    exact ⟨h, fun hc => by omega⟩
  | succ fuel ih =>
    intro st h hf
    by_cases hc : st.left ≤ n ∧ st.formed = (tCount.keys.length : Int)
    · simp only [shrink, hc, and_self, if_true]
      have hv : ValidWin s t st.left (n + 1) := by
        rw [← reached_all_iff s t tCount ht st.windowCount.val st.left (n + 1) h.left_le h.win,
          ← h.formed_eq]
        exact hc.2
      obtain ⟨h1, hmin, hleft, hformed, _⟩ := record_inv s t tCount n st h hc.1 hv
      have h2 := dropLeft_inv s t tCount ht n hn (record n st) h1 (by omega)
        (by rw [hformed]; exact hc.2) (by omega)
      apply ih _ h2
      simp only [dropLeft]
      omega
    · have hst : shrink s tCount (tCount.keys.length : Int) n (fuel + 1) st = st := by
        simp only [shrink, hc, if_false]
      rw [hst]
      exact ⟨h, hc⟩

theorem expand_inv {α : Type} [DecidableEq α] [Inhabited α] (s t : List α)
    (tCount : Counts α) (ht : TableOf t tCount) (n : Nat) (hn : n < s.length) (st : State α)
    (h : Inv s t tCount n n st) :
    Inv s t tCount (n + 1) (n + 1) (expand s tCount (tCount.keys.length : Int) st n) := by
  have hupd := reached_update tCount.keys ht.nodup tCount.val st.windowCount.val
    (st.windowCount.add (s.getD n default) 1).val (s.getD n default)
    (by intro b hb; simp only [Counts.add, if_neg hb])
  have hvalc : (st.windowCount.add (s.getD n default) 1).val (s.getD n default)
      = st.windowCount.val (s.getD n default) + 1 := by
    simp only [Counts.add, if_true]
  have h1 : Inv s t tCount (n + 1) n
      { st with
        windowCount := st.windowCount.add (s.getD n default) 1
        formed :=
          if s.getD n default ∈ tCount.keys ∧
              (st.windowCount.add (s.getD n default) 1).val (s.getD n default)
                = tCount.val (s.getD n default)
          then st.formed + 1 else st.formed } := by
    refine ⟨?_, ?_, ?_, ?_, ?_, ?_⟩
    · have := h.left_le
      dsimp only
      omega
    · intro b
      dsimp only
      simp only [Counts.add]
      rw [prefixCount_succ s n hn b, h.win b]
      by_cases hb : b = s.getD n default
      · have hb2 : s.getD n default = b := hb.symm
        simp only [hb, if_true]
        omega
      · have hb2 : ¬ s.getD n default = b := fun e => hb e.symm
        simp only [hb, hb2, if_false]
        omega
    · dsimp only
      rw [hupd, ← h.formed_eq, hvalc]
      by_cases hk : s.getD n default ∈ tCount.keys
      · simp only [hk, true_and, if_true]
        split <;> split <;> split <;> omega
      · simp only [hk, false_and, if_false]
        omega
    · rcases h.best with hb | ⟨hb1, hb2, hb3, hb4⟩
      · exact Or.inl hb
      · exact Or.inr ⟨hb1, by dsimp only; omega, hb3, hb4⟩
    · exact h.older
    · intro l hl
      have := h.passed l hl
      dsimp only
      omega
  have hfuel : n + 1 - st.left ≤ n + 1 - st.left := le_rfl
  obtain ⟨h2, hexit⟩ := shrink_inv s t tCount ht n hn (n + 1 - st.left) _ h1 hfuel
  have hexp : expand s tCount (tCount.keys.length : Int) st n
      = shrink s tCount (tCount.keys.length : Int) n (n + 1 - st.left)
        { st with
          windowCount := st.windowCount.add (s.getD n default) 1
          formed :=
            if s.getD n default ∈ tCount.keys ∧
                (st.windowCount.add (s.getD n default) 1).val (s.getD n default)
                  = tCount.val (s.getD n default)
            then st.formed + 1 else st.formed } := rfl
  rw [hexp]
  refine ⟨h2.left_le, h2.win, h2.formed_eq, h2.best, ?_, h2.passed⟩
  intro l r hlr hr hval
  by_cases hrn : r ≤ n
  · exact h2.older l r hlr hrn hval
  · have hr2 : r = n + 1 := by omega
    subst hr2
    by_cases hlp : l < (shrink s tCount (tCount.keys.length : Int) n (n + 1 - st.left)
        { st with
          windowCount := st.windowCount.add (s.getD n default) 1
          formed :=
            if s.getD n default ∈ tCount.keys ∧
                (st.windowCount.add (s.getD n default) 1).val (s.getD n default)
                  = tCount.val (s.getD n default)
            then st.formed + 1 else st.formed }).left
    · exact h2.passed l hlp
    · exfalso
      apply hexit
      refine ⟨by omega, ?_⟩
      rw [h2.formed_eq, reached_all_iff s t tCount ht _ _ (n + 1) h2.left_le h2.win]
      exact validWin_mono s t (by omega) le_rfl hval

theorem window_loop_inv {α : Type} [DecidableEq α] [Inhabited α] (s t : List α)
    (tCount : Counts α) (ht : TableOf t tCount) (n : Nat) (hn : n ≤ s.length) :
    Inv s t tCount n n ((List.range n).foldl (expand s tCount (tCount.keys.length : Int))
      { windowCount := Counts.empty, formed := 0, minLen := s.length + 1,
        minLeft := 0, minRight := 0, left := 0 }) := by
  induction n with
  | zero =>
    refine ⟨le_rfl, ?_, ?_, Or.inl rfl, ?_, ?_⟩
    · intro b
      simp [Counts.empty]
    · simp only [List.range_zero, List.foldl_nil, Counts.empty, reached]
      have : tCount.keys.countP (fun b => decide (tCount.val b ≤ 0)) = 0 := by
        rw [List.countP_eq_zero]
        intro b hb
        have h1 : b ∈ t := (ht.mem b).mp hb
        have h2 := List.count_pos_iff.mpr h1
        simp only [decide_eq_true_eq, not_le]
        rw [ht.val b]
        omega
      rw [this]
      rfl
    · intro l r hlr hr
      omega
    · intro l hl
      simp at hl
  | succ n ih =>
    rw [List.range_succ, List.foldl_append]
    exact expand_inv s t tCount ht n (by omega) _ (ih (by omega))

theorem count_window {α : Type} [DecidableEq α] (s : List α) (l k : Nat) (b : α) :
    (((s.drop l).take k).count b : Int) = prefixCount s (l + k) b - prefixCount s l b := by
  unfold prefixCount
  rw [List.take_add, List.count_append]
  push_cast
  omega

theorem infix_window {α : Type} (s w : List α) (h : w <:+: s) :
    ∃ l, l + w.length ≤ s.length ∧ w = (s.drop l).take w.length := by
  obtain ⟨a, c, hs⟩ := h
  refine ⟨a.length, ?_, ?_⟩
  · rw [← hs]
    simp only [List.length_append]
    omega
  · rw [← hs, List.append_assoc, List.drop_left, List.take_left]

theorem covers_length_le {α : Type} [DecidableEq α] (w t : List α) (h : Covers w t) :
    t.length ≤ w.length := by
  have hle : (t : Multiset α) ≤ (w : Multiset α) := by
    rw [Multiset.le_iff_count]
    intro b
    simpa using h b
  simpa using Multiset.card_le_card hle

theorem covers_iff_validWin {α : Type} [DecidableEq α] (s t : List α) (l k : Nat) :
    Covers ((s.drop l).take k) t ↔ ValidWin s t l (l + k) := by
  unfold Covers ValidWin
  constructor
  · intro h b
    rw [← count_window]
    exact_mod_cast h b
  · intro h b
    have := h b
    rw [← count_window] at this
    exact_mod_cast this

/-- C18: for all byte strings `s` and non-empty `t`, `minWindow(s, t)` returns `""` if and
only if no contiguous substring of `s` contains every byte of `t` at least as many times
as it occurs in `t`; otherwise it returns a contiguous substring of `s` that does, and no
contiguous substring of `s` that covers `t` is shorter. -/
theorem minWindow_minimum_cover {α : Type} [DecidableEq α] [Inhabited α] (s t : List α)
    (hne : t ≠ []) :
    (minWindow s t = [] ↔ ¬ ∃ w, w <:+: s ∧ Covers w t) ∧
    (minWindow s t ≠ [] →
      minWindow s t <:+: s ∧ Covers (minWindow s t) t ∧
      ∀ w, w <:+: s → Covers w t → (minWindow s t).length ≤ w.length) := by
  have htl : 0 < t.length := List.length_pos.mpr hne
  by_cases hearly : s.length = 0 ∨ t.length = 0 ∨ s.length < t.length
  · have hres : minWindow s t = [] := by
      unfold minWindow
      rw [if_pos hearly]
    rw [hres]
    refine ⟨⟨fun _ => ?_, fun _ => rfl⟩, fun h => absurd rfl h⟩
    rintro ⟨w, hw, hc⟩
    have h1 := covers_length_le w t hc
    have h2 := hw.length_le
    omega
  · have ht := tableOf_fold t
    have hinv := window_loop_inv s t _ ht s.length le_rfl
    generalize hst : (List.range s.length).foldl
        (expand s (t.foldl (fun m b => m.add b 1) Counts.empty)
          ((t.foldl (fun m b => m.add b 1) Counts.empty).keys.length : Int))
        { windowCount := Counts.empty, formed := 0, minLen := s.length + 1,
          minLeft := 0, minRight := 0, left := 0 } = st at hinv
    have hres : minWindow s t = if st.minLen = s.length + 1 then []
        else (s.drop st.minLeft).take (st.minRight + 1 - st.minLeft) := by
      unfold minWindow
      rw [if_neg hearly]
      simp only [hst]
    have hbound : ∀ w, w <:+: s → Covers w t → st.minLen ≤ w.length := by
      intro w hw hc
      obtain ⟨l, hl, hweq⟩ := infix_window s w hw
      have hwl := covers_length_le w t hc
      rw [hweq, covers_iff_validWin] at hc
      have := hinv.older l (l + w.length) (by omega) hl hc
      omega
    by_cases hmin : st.minLen = s.length + 1
    · rw [hres, if_pos hmin]
      refine ⟨⟨fun _ => ?_, fun _ => rfl⟩, fun h => absurd rfl h⟩
      rintro ⟨w, hw, hc⟩
      have h1 := hbound w hw hc
      have h2 := hw.length_le
      omega
    · rw [hres, if_neg hmin]
      rcases hinv.best with hb | ⟨hb1, hb2, hb3, hb4⟩
      · exact absurd hb hmin
      · have hlen : ((s.drop st.minLeft).take (st.minRight + 1 - st.minLeft)).length
            = st.minLen := by
          rw [List.length_take, List.length_drop]
          omega
        have hcov : Covers ((s.drop st.minLeft).take (st.minRight + 1 - st.minLeft)) t := by
          rw [covers_iff_validWin]
          have : st.minLeft + (st.minRight + 1 - st.minLeft) = st.minRight + 1 := by omega
          rw [this]
          exact hb4
        have hinf : (s.drop st.minLeft).take (st.minRight + 1 - st.minLeft) <:+: s :=
          (List.take_prefix _ _).isInfix.trans (List.drop_suffix _ _).isInfix
        have hnonempty : (s.drop st.minLeft).take (st.minRight + 1 - st.minLeft) ≠ [] := by
          intro h
          rw [h] at hlen
          simp only [List.length_nil] at hlen
          omega
        refine ⟨⟨fun h => absurd h hnonempty, fun h => absurd ⟨_, hinf, hcov⟩ h⟩, ?_⟩
        intro _
        refine ⟨hinf, hcov, ?_⟩
        intro w hw hc
        rw [hlen]
        exact hbound w hw hc

theorem minWindow_minimum_cover_witness :
    (minWindow "a".toList "aa".toList = [] ↔
      ¬ ∃ w, w <:+: "a".toList ∧ Covers w "aa".toList) ∧
    (minWindow "ADOBECODEBANC".toList "ABC".toList <:+: "ADOBECODEBANC".toList ∧
      Covers (minWindow "ADOBECODEBANC".toList "ABC".toList) "ABC".toList ∧
      ∀ w, w <:+: "ADOBECODEBANC".toList → Covers w "ABC".toList →
        (minWindow "ADOBECODEBANC".toList "ABC".toList).length ≤ w.length) :=
  ⟨(minWindow_minimum_cover "a".toList "aa".toList (by decide)).1,
   (minWindow_minimum_cover "ADOBECODEBANC".toList "ABC".toList (by decide)).2 (by decide)⟩

end MinimumWindowSubstring

/-! ## C23 -/

namespace RotateArray

theorem swap_length (nums : List Int) (i j : Nat) : (swap nums i j).length = nums.length := by
  simp [swap]

theorem swap_getElem? (nums : List Int) (i j : Nat) (hi : i < nums.length)
    (hj : j < nums.length) (x : Nat) :
    (swap nums i j)[x]? = if x = j then nums[i]? else if x = i then nums[j]? else nums[x]? := by
  unfold swap
  rw [List.getD_eq_getElem _ _ hi, List.getD_eq_getElem _ _ hj]
  by_cases hxj : x = j
  · subst hxj
    rw [List.getElem?_set_self (by simp; exact hj)]
    simp [List.getElem?_eq_getElem hi]
  · rw [List.getElem?_set_ne (fun h => hxj h.symm)]
    by_cases hxi : x = i
    · subst hxi
      rw [List.getElem?_set_self hi]
      simp [hxj, List.getElem?_eq_getElem hj]
    · rw [List.getElem?_set_ne (fun h => hxi h.symm)]
      simp [hxj, hxi]

theorem reverse_spec : ∀ (fuel : Nat) (nums : List Int) (start stop : Nat),
    stop < nums.length → stop - start ≤ fuel →
    (reverse fuel nums start stop).length = nums.length ∧
    ∀ x, (reverse fuel nums start stop)[x]?
      = if start ≤ x ∧ x ≤ stop then nums[start + stop - x]? else nums[x]? := by
  intro fuel
  induction fuel with
  | zero =>
    intro nums start stop hstop hfuel
    have hr : reverse 0 nums start stop = nums := rfl
    rw [hr]
    refine ⟨rfl, ?_⟩
    intro x
    split
    · rename_i h
      have : start + stop - x = x := by omega
      rw [this]
    · rfl
  | succ fuel ih =>
    intro nums start stop hstop hfuel
    by_cases hlt : start < stop
    · simp only [reverse, hlt, if_true]
      obtain ⟨hlen, hget⟩ := ih (swap nums start stop) (start + 1) (stop - 1)
        (by rw [swap_length]; omega) (by omega)
      refine ⟨by rw [hlen, swap_length], ?_⟩
      intro x
      rw [hget x]
      by_cases hin : start + 1 ≤ x ∧ x ≤ stop - 1
      · rw [if_pos hin, if_pos (by omega), swap_getElem? nums start stop (by omega) hstop]
        have h1 : ¬ (start + 1 + (stop - 1) - x = stop) := by omega
        have h2 : ¬ (start + 1 + (stop - 1) - x = start) := by omega
        rw [if_neg h1, if_neg h2]
        congr 1
        omega
      · rw [if_neg hin, swap_getElem? nums start stop (by omega) hstop]
        by_cases hxs : x = stop
        · subst hxs
          rw [if_pos rfl, if_pos (by omega)]
          congr 1
          omega
        · rw [if_neg hxs]
          by_cases hxst : x = start
          · subst hxst
            rw [if_pos rfl, if_pos (by omega)]
            congr 1
            omega
          · rw [if_neg hxst, if_neg (by omega)]
    · have hr : reverse (fuel + 1) nums start stop = nums := by
        simp only [reverse, hlt, if_false]
      rw [hr]
      refine ⟨rfl, ?_⟩
      intro x
      split
      · have : start + stop - x = x := by omega
        rw [this]
      · rfl

theorem rotate_of_pos (nums : List Int) (k : Nat) (hn : nums.length ≠ 0)
    (hk : k % nums.length ≠ 0) :
    rotate nums k = reverse (nums.length - 1 - k % nums.length)
      (reverse (k % nums.length - 1 - 0) (reverse (nums.length - 1 - 0) nums 0 (nums.length - 1))
        0 (k % nums.length - 1)) (k % nums.length) (nums.length - 1) := by
  unfold rotate
  simp only [hn, hk, if_false]

/-- C23: for every slice `nums` of length `n > 0` and every `k ≥ 0`, after
`rotate(nums, k)` the element originally at index `i` is at index `(i + k) mod n` for
every `i` (the length is unchanged); `k` and `k mod n` give the same result, `k` a
multiple of `n` leaves `nums` unchanged, and an empty slice is left unchanged. -/
theorem rotate_moves_right (nums : List Int) (k : Nat) :
    (nums ≠ [] → ∀ i, i < nums.length →
      (rotate nums k)[(i + k) % nums.length]? = nums[i]?) ∧
    (rotate nums k).length = nums.length ∧
    rotate nums (k % nums.length) = rotate nums k ∧
    (k % nums.length = 0 → rotate nums k = nums) ∧
    rotate [] k = [] := by
  have hzero : k % nums.length = 0 → rotate nums k = nums := by
    intro h
    unfold rotate
    simp only [h, if_true, ite_self]
  have hempty : nums.length = 0 → rotate nums k = nums := by
    intro h
    unfold rotate
    simp only [h, if_true]
  have hlen : (rotate nums k).length = nums.length := by
    by_cases hk : k % nums.length = 0
    · rw [hzero hk]
    · rcases Nat.eq_zero_or_pos nums.length with hn0 | hn
      · rw [hempty hn0]
      have hkn : k % nums.length < nums.length := Nat.mod_lt _ hn
      rw [rotate_of_pos nums k (by omega) hk]
      have h1 := reverse_spec (nums.length - 1 - 0) nums 0 (nums.length - 1) (by omega) (by omega)
      have h2 := reverse_spec (k % nums.length - 1 - 0) _ 0 (k % nums.length - 1)
        (by rw [h1.1]; omega) (by omega)
      have h3 := reverse_spec (nums.length - 1 - k % nums.length) _ (k % nums.length)
        (nums.length - 1) (by rw [h2.1, h1.1]; omega) (by omega)
      rw [h3.1, h2.1, h1.1]
  refine ⟨?_, hlen, ?_, hzero, ?_⟩
  · intro hne i hi
    have hn : 0 < nums.length := List.length_pos.mpr hne
    have hkn : k % nums.length < nums.length := Nat.mod_lt _ hn
    have hmod : (i + k) % nums.length = (i + k % nums.length) % nums.length := by
      rw [Nat.add_mod, Nat.mod_eq_of_lt hi, Nat.add_mod i (k % nums.length),
        Nat.mod_eq_of_lt hi, Nat.mod_mod]
    by_cases hk : k % nums.length = 0
    · rw [hzero hk, hmod, hk, Nat.add_zero, Nat.mod_eq_of_lt hi]
    · rw [rotate_of_pos nums k (by omega) hk, hmod]
      have h1 := reverse_spec (nums.length - 1 - 0) nums 0 (nums.length - 1) (by omega) (by omega)
      have h2 := reverse_spec (k % nums.length - 1 - 0) _ 0 (k % nums.length - 1)
        (by rw [h1.1]; omega) (by omega)
      have h3 := reverse_spec (nums.length - 1 - k % nums.length) _ (k % nums.length)
        (nums.length - 1) (by rw [h2.1, h1.1]; omega) (by omega)
      generalize k % nums.length = r at *
      by_cases hlt : i + r < nums.length
      · rw [Nat.mod_eq_of_lt hlt, h3.2, if_pos (by omega), h2.2, if_neg (by omega), h1.2,
          if_pos (by omega)]
        congr 1
        omega
      · have hj : (i + r) % nums.length = i + r - nums.length := by
          rw [Nat.mod_eq_sub_mod (by omega), Nat.mod_eq_of_lt (by omega)]
        rw [hj, h3.2, if_neg (by omega), h2.2, if_pos (by omega), h1.2, if_pos (by omega)]
        congr 1
        omega
  · unfold rotate
    simp only [Nat.mod_mod]
  · rfl

theorem rotate_moves_right_witness :
    (∀ i, i < [1, 2, 3, 4, 5, 6, 7].length →
      (rotate [1, 2, 3, 4, 5, 6, 7] 10)[(i + 10) % [1, 2, 3, 4, 5, 6, 7].length]?
        = [1, 2, 3, 4, 5, 6, 7][i]?) ∧
    rotate [1, 2, 3, 4, 5, 6, 7] 14 = [1, 2, 3, 4, 5, 6, 7] :=
  ⟨(rotate_moves_right [1, 2, 3, 4, 5, 6, 7] 10).1 (by decide),
   (rotate_moves_right [1, 2, 3, 4, 5, 6, 7] 14).2.2.2.1 (by decide)⟩

end RotateArray

/-! ## C28 -/

namespace RemoveDuplicatesInPlace

theorem sorted_getD_le (orig : List Int) (hs : orig.Sorted (· ≤ ·)) {i j : Nat} (hij : i ≤ j)
    (hj : j < orig.length) : orig.getD i 0 ≤ orig.getD j 0 := by
  rw [List.getD_eq_getElem _ _ hj, List.getD_eq_getElem _ _ (by omega : i < orig.length)]
  rcases Nat.lt_or_eq_of_le hij with h | h
  · exact (List.pairwise_iff_getElem.mp hs) i j (by omega) hj h
  · subst h
    exact le_rfl

theorem mem_take_iff_getElem (l : List Int) (f : Nat) (x : Int) :
    x ∈ l.take f ↔ ∃ i, i < f ∧ l[i]? = some x := by
  rw [List.mem_iff_getElem?]
  constructor
  · rintro ⟨i, hi⟩
    rw [List.getElem?_take] at hi
    split at hi
    · exact ⟨i, by assumption, hi⟩
    · cases hi
  · rintro ⟨i, hif, hi⟩
    exact ⟨i, by rw [List.getElem?_take_of_lt hif]; exact hi⟩

theorem take_set_succ (l : List Int) (i : Nat) (x : Int) (hi : i < l.length) :
    (l.set i x).take (i + 1) = l.take i ++ [x] := by
  have h1 : (l.set i x).take i = l.take i := by
    apply List.ext_getElem?
    intro j
    rw [List.getElem?_take, List.getElem?_take]
    split
    · rw [List.getElem?_set_ne (by omega)]
    · rfl
  rw [List.take_succ, List.getElem?_set_self hi, h1]
  rfl

theorem scan_step_inv (orig : List Int) (hs : orig.Sorted (· ≤ ·)) (f : Nat) (hf : f < orig.length)
    (st : List Int × Nat) (h : Inv orig f st) : Inv orig (f + 1) (step st f) := by
  have hx : st.1.getD f 0 = orig.getD f 0 := h.rest f le_rfl
  have hslow := h.slow_lt
  have hlen := h.len
  have hle : orig.getD (f - 1) 0 ≤ orig.getD f 0 := sorted_getD_le orig hs (by omega) hf
  have htake : orig.take (f + 1) = orig.take f ++ [orig.getD f 0] := by
    rw [List.take_succ, List.getElem?_eq_getElem hf, List.getD_eq_getElem _ _ hf]
    rfl
  unfold step
  by_cases hne : st.1.getD f 0 ≠ st.1.getD st.2 0
  · rw [if_pos hne]
    have hlt : orig.getD (f - 1) 0 < orig.getD f 0 := by
      rw [h.last, hx] at hne
      omega
    refine ⟨by dsimp only; omega, by simp [hlen], ?_, ?_, ?_, ?_⟩
    · intro j hj
      dsimp only
      rw [List.getD_eq_getElem?_getD, List.getElem?_set_ne (by omega),
        ← List.getD_eq_getElem?_getD]
      exact h.rest j (by omega)
    · dsimp only
      rw [List.getD_eq_getElem?_getD, List.getElem?_set_self (by omega)]
      simp only [Option.getD_some, Nat.add_sub_cancel]
      exact hx
    · dsimp only
      rw [take_set_succ _ _ _ (by omega)]
      unfold List.Sorted
      rw [List.pairwise_append]
      refine ⟨h.sorted, List.pairwise_singleton _ _, ?_⟩
      intro a ha b hb
      simp only [List.mem_singleton] at hb
      subst hb
      rw [h.mem a, mem_take_iff_getElem] at ha
      obtain ⟨i, hi, hia⟩ := ha
      have h1 := sorted_getD_le orig hs (show i ≤ f - 1 by omega) (by omega)
      rw [List.getD_eq_getElem?_getD, hia] at h1
      simp only [Option.getD_some] at h1
      rw [hx]
      omega
    · intro y
      dsimp only
      rw [take_set_succ _ _ _ (by omega), htake, List.mem_append, List.mem_append, h.mem y, hx]
  · rw [if_neg hne]
    have heq : st.1.getD f 0 = st.1.getD st.2 0 := by
      by_contra hc
      exact hne hc
    refine ⟨by omega, hlen, ?_, ?_, h.sorted, ?_⟩
    · intro j hj
      exact h.rest j (by omega)
    · rw [← heq, hx]
      simp
    · intro y
      rw [htake, List.mem_append, h.mem y]
      constructor
      · intro hy
        exact Or.inl hy
      · rintro (hy | hy)
        · exact hy
        · simp only [List.mem_singleton] at hy
          rw [← h.mem y, hy, ← hx, heq, mem_take_iff_getElem]
          refine ⟨st.2, by omega, ?_⟩
          rw [List.getD_eq_getElem _ _ (by omega : st.2 < st.1.length),
            List.getElem?_eq_getElem (by omega)]

theorem scan_loop_inv (orig : List Int) (hs : orig.Sorted (· ≤ ·)) (hne : orig ≠ []) (m : Nat)
    (hm : m + 1 ≤ orig.length) :
    Inv orig (m + 1) ((List.range' 1 m).foldl step (orig, 0)) := by
  induction m with
  | zero =>
    have hpos : 0 < orig.length := List.length_pos.mpr hne
    refine ⟨by simp, rfl, fun j _ => rfl, rfl, ?_, ?_⟩
    · simp only [List.range'_zero, List.foldl_nil]
      cases orig with
      | nil => exact absurd rfl hne
      | cons a rest => simp
    · intro x
      simp
  | succ m ih =>
    rw [List.range'_1_concat, List.foldl_append]
    simp only [List.foldl_cons, List.foldl_nil]
    have := scan_step_inv orig hs (m + 1) (by omega) _ (ih (by omega))
    rw [Nat.add_comm 1 m]
    exact this

/-- C28: for every slice `nums` sorted in non-decreasing order, `removeDuplicates(nums)`
returns `k` equal to the number of distinct values in `nums` and leaves `nums[0..k)` equal
to those distinct values in strictly increasing order; it returns 0 for an empty slice. -/
theorem removeDuplicates_distinct_prefix (nums : List Int) (hs : nums.Sorted (· ≤ ·)) :
    (removeDuplicates nums).1 = nums.dedup.length ∧
    ((removeDuplicates nums).2.take (removeDuplicates nums).1).Sorted (· < ·) ∧
    (∀ x, x ∈ (removeDuplicates nums).2.take (removeDuplicates nums).1 ↔ x ∈ nums) ∧
    (removeDuplicates nums).2.length = nums.length ∧
    (removeDuplicates []).1 = 0 := by
  by_cases hne : nums = []
  · subst hne
    simp [removeDuplicates]
  · have hpos : 0 < nums.length := List.length_pos.mpr hne
    have hinv := scan_loop_inv nums hs hne (nums.length - 1) (by omega)
    have hl : nums.length - 1 + 1 = nums.length := by omega
    rw [hl] at hinv
    have hres : removeDuplicates nums
        = (((List.range' 1 (nums.length - 1)).foldl step (nums, 0)).2 + 1,
           ((List.range' 1 (nums.length - 1)).foldl step (nums, 0)).1) := by
      unfold removeDuplicates
      rw [if_neg (by omega)]
    rw [hres]
    dsimp only
    have hmem : ∀ x, x ∈ ((List.range' 1 (nums.length - 1)).foldl step (nums, 0)).1.take
        (((List.range' 1 (nums.length - 1)).foldl step (nums, 0)).2 + 1) ↔ x ∈ nums := by
      intro x
      rw [hinv.mem x, List.take_length]
    refine ⟨?_, hinv.sorted, hmem, hinv.len, rfl⟩
    have hnd : (((List.range' 1 (nums.length - 1)).foldl step (nums, 0)).1.take
        (((List.range' 1 (nums.length - 1)).foldl step (nums, 0)).2 + 1)).Nodup :=
      hinv.sorted.nodup
    have hperm : (((List.range' 1 (nums.length - 1)).foldl step (nums, 0)).1.take
        (((List.range' 1 (nums.length - 1)).foldl step (nums, 0)).2 + 1)).Perm nums.dedup := by
      rw [List.perm_ext_iff_of_nodup hnd (List.nodup_dedup nums)]
      intro x
      rw [hmem x, List.mem_dedup]
    have hlen := hperm.length_eq
    rw [List.length_take] at hlen
    have := hinv.slow_lt
    have := hinv.len
    omega

theorem removeDuplicates_distinct_prefix_witness :
    (removeDuplicates [0, 0, 1, 1, 1, 2, 2, 3, 3, 4]).1
      = ([0, 0, 1, 1, 1, 2, 2, 3, 3, 4] : List Int).dedup.length ∧
    ((removeDuplicates [0, 0, 1, 1, 1, 2, 2, 3, 3, 4]).2.take
      (removeDuplicates [0, 0, 1, 1, 1, 2, 2, 3, 3, 4]).1).Sorted (· < ·) ∧
    (∀ x, x ∈ (removeDuplicates [0, 0, 1, 1, 1, 2, 2, 3, 3, 4]).2.take
      (removeDuplicates [0, 0, 1, 1, 1, 2, 2, 3, 3, 4]).1
        ↔ x ∈ ([0, 0, 1, 1, 1, 2, 2, 3, 3, 4] : List Int)) ∧
    (removeDuplicates [0, 0, 1, 1, 1, 2, 2, 3, 3, 4]).2.length
      = ([0, 0, 1, 1, 1, 2, 2, 3, 3, 4] : List Int).length ∧
    (removeDuplicates []).1 = 0 :=
  removeDuplicates_distinct_prefix [0, 0, 1, 1, 1, 2, 2, 3, 3, 4] (by decide)

end RemoveDuplicatesInPlace

/-! ## C22 -/

namespace FindAllAnagrams


open MinimumWindowSubstring (prefixCount prefixCount_succ prefixCount_mono count_window)

theorem get_of_represents {α : Type} [DecidableEq α] (m : ByteMap α) (cnt : α → Int)
    (h : Represents m cnt) (b : α) : get m b = cnt b := by
  unfold get
  rw [h b]
  split
  · rename_i h0
    simp [h0]
  · simp

theorem mem_keys_of_represents {α : Type} [DecidableEq α] (m : ByteMap α) (cnt : α → Int)
    (h : Represents m cnt) (b : α) : b ∈ m.keys ↔ cnt b ≠ 0 := by
  rw [← AList.mem_keys, ← AList.lookup_isSome, h b]
  split
  · rename_i h0
    simp [h0]
  · rename_i h0
    simp [h0]

theorem represents_incr {α : Type} [DecidableEq α] (m : ByteMap α) (cnt : α → Int)
    (h : Represents m cnt) (c : α) (hc : 0 ≤ cnt c) :
    Represents (incr m c) (fun b => if b = c then cnt b + 1 else cnt b) := by
  intro b
  unfold incr
  by_cases hb : b = c
  · subst hb
    rw [AList.lookup_insert, get_of_represents m cnt h]
    have : ¬ cnt b + 1 = 0 := by omega
    simp [this]
  · rw [AList.lookup_insert_ne hb, h b]
    simp [hb]

theorem represents_decr {α : Type} [DecidableEq α] (m : ByteMap α) (cnt : α → Int)
    (h : Represents m cnt) (c : α) :
    Represents (if get (decr m c) c = 0 then (decr m c).erase c else decr m c)
      (fun b => if b = c then cnt b - 1 else cnt b) := by
  have hg : get (decr m c) c = cnt c - 1 := by
    have hgm := get_of_represents m cnt h c
    unfold decr
    unfold get at hgm ⊢
    rw [AList.lookup_insert, Option.getD_some, hgm]
  intro b
  rw [hg]
  by_cases hz : cnt c - 1 = 0
  · rw [if_pos hz]
    by_cases hb : b = c
    · subst hb
      rw [AList.lookup_erase]
      simp [hz]
    · rw [AList.lookup_erase_ne hb]
      unfold decr
      rw [AList.lookup_insert_ne hb, h b]
      simp [hb]
  · rw [if_neg hz]
    unfold decr
    by_cases hb : b = c
    · subst hb
      rw [AList.lookup_insert, get_of_represents m cnt h]
      simp [hz]
    · rw [AList.lookup_insert_ne hb, h b]
      simp [hb]

theorem represents_congr {α : Type} [DecidableEq α] (m : ByteMap α) (c1 c2 : α → Int)
    (h : Represents m c1) (heq : ∀ b, c1 b = c2 b) : Represents m c2 := by
  intro b
  rw [h b, heq b]

theorem represents_fill {α : Type} [DecidableEq α] [Inhabited α] (x : List α) (n : Nat)
    (hn : n ≤ x.length) : Represents (fill x n) (fun b => prefixCount x n b) := by
  induction n with
  | zero =>
    intro b
    simp [fill, prefixCount]
  | succ n ih =>
    have h1 := ih (by omega)
    have h2 := represents_incr _ _ h1 (x.getD n default)
      (by unfold prefixCount; omega)
    have hf : fill x (n + 1) = incr (fill x n) (x.getD n default) := by
      unfold fill
      rw [List.range_succ, List.foldl_append]
      rfl
    rw [hf]
    apply represents_congr _ _ _ h2
    intro b
    rw [prefixCount_succ x n (by omega) b]
    by_cases hb : b = x.getD n default
    · have hb2 : x.getD n default = b := hb.symm
      simp only [hb, if_true]
    · have hb2 : ¬ x.getD n default = b := fun e => hb e.symm
      simp only [hb, hb2, if_false]
      omega

theorem mapsEqual_iff {α : Type} [DecidableEq α] (m1 m2 : ByteMap α) (c1 c2 : α → Int)
    (h1 : Represents m1 c1) (h2 : Represents m2 c2) :
    mapsEqual m1 m2 = true ↔ ∀ b, c1 b = c2 b := by
  unfold mapsEqual
  constructor
  · intro h
    by_cases hlen : m1.keys.length ≠ m2.keys.length
    · rw [if_pos hlen] at h
      cases h
    · rw [if_neg hlen, List.all_eq_true] at h
      have hlen2 : m1.keys.length = m2.keys.length := by
        by_contra hc
        exact hlen hc
      have hkey : ∀ b, c1 b ≠ 0 → c2 b = c1 b := by
        intro b hb
        have hl : m1.lookup b = some (c1 b) := by
          rw [h1 b]
          simp [hb]
        have hmem : Sigma.mk b (c1 b) ∈ m1.entries := AList.mem_lookup_iff.mp hl
        have := h _ hmem
        simp only [decide_eq_true_eq] at this
        rw [get_of_represents m2 c2 h2] at this
        exact this
      have hsub : m1.keys.toFinset ⊆ m2.keys.toFinset := by
        intro b hb
        rw [List.mem_toFinset] at hb ⊢
        rw [mem_keys_of_represents m1 c1 h1] at hb
        rw [mem_keys_of_represents m2 c2 h2, hkey b hb]
        exact hb
      have hcard : m2.keys.toFinset.card ≤ m1.keys.toFinset.card := by
        rw [List.toFinset_card_of_nodup m1.keys_nodup, List.toFinset_card_of_nodup m2.keys_nodup]
        omega
      have heq := Finset.eq_of_subset_of_card_le hsub hcard
      intro b
      by_cases hb : c1 b = 0
      · rw [hb]
        by_contra hc
        have hb2 : b ∈ m2.keys.toFinset := by
          rw [List.mem_toFinset, mem_keys_of_represents m2 c2 h2]
          exact fun e => hc e.symm
        rw [← heq, List.mem_toFinset, mem_keys_of_represents m1 c1 h1] at hb2
        exact hb2 hb
      · exact (hkey b hb).symm
  · intro h
    have hperm : m1.keys.Perm m2.keys := by
      rw [List.perm_ext_iff_of_nodup m1.keys_nodup m2.keys_nodup]
      intro b
      rw [mem_keys_of_represents m1 c1 h1, mem_keys_of_represents m2 c2 h2, h b]
    have hlen : ¬ m1.keys.length ≠ m2.keys.length := by
      rw [hperm.length_eq]
      simp
    rw [if_neg hlen, List.all_eq_true]
    intro kv hkv
    simp only [decide_eq_true_eq]
    have hl : m1.lookup kv.1 = some kv.2 := AList.mem_lookup_iff.mpr (by cases kv; exact hkv)
    rw [get_of_represents m2 c2 h2, ← h kv.1]
    rw [h1 kv.1] at hl
    split at hl
    · cases hl
    · exact Option.some.inj hl

theorem anagram_iff_counts {α : Type} [DecidableEq α] (s p : List α) (j : Nat) :
    ((s.drop j).take p.length).Perm p ↔
      ∀ b, prefixCount p p.length b = prefixCount s (j + p.length) b - prefixCount s j b := by
  rw [List.perm_iff_count]
  constructor
  · intro h b
    rw [← count_window, h b]
    unfold prefixCount
    rw [List.take_length]
  · intro h b
    have := h b
    rw [← count_window] at this
    unfold prefixCount at this
    rw [List.take_length] at this
    exact_mod_cast this.symm

theorem slide_inv {α : Type} [DecidableEq α] [Inhabited α] (s p : List α)
    (hlen : p.length ≤ s.length) (j : Nat) (hj : j ≤ s.length - p.length) :
    Represents ((List.range' p.length j).foldl (slide s p.length (fill p p.length))
        (fill s p.length,
          if mapsEqual (fill p p.length) (fill s p.length) then [0] else [])).1
      (fun b => prefixCount s (j + p.length) b - prefixCount s j b) ∧
    ((List.range' p.length j).foldl (slide s p.length (fill p p.length))
        (fill s p.length,
          if mapsEqual (fill p p.length) (fill s p.length) then [0] else [])).2
      = (List.range (j + 1)).filter
          (fun i => decide (((s.drop i).take p.length).Perm p)) := by
  have hp := represents_fill p p.length le_rfl
  induction j with
  | zero =>
    have hw := represents_fill s p.length hlen
    simp only [List.range'_zero, List.foldl_nil]
    constructor
    · apply represents_congr _ _ _ hw
      intro b
      simp [prefixCount]
    · have hiff := mapsEqual_iff _ _ _ _ hp hw
      have han := anagram_iff_counts s p 0
      simp only [Nat.zero_add] at han
      have hpc0 : ∀ b, prefixCount s 0 b = 0 := by
        intro b
        simp [prefixCount]
      by_cases hm : mapsEqual (fill p p.length) (fill s p.length) = true
      · have hperm : ((s.drop 0).take p.length).Perm p := by
          rw [han]
          intro b
          rw [hpc0 b, sub_zero]
          exact hiff.mp hm b
        have hperm2 : (s.take p.length).Perm p := by simpa using hperm
        simp [hm, List.range_succ, List.filter_cons, hperm2]
      · have hperm : ¬ ((s.drop 0).take p.length).Perm p := by
          rw [han]
          intro h
          apply hm
          rw [hiff]
          intro b
          have := h b
          rw [hpc0 b, sub_zero] at this
          exact this
        have hperm2 : ¬ (s.take p.length).Perm p := by simpa using hperm
        simp [hm, List.range_succ, List.filter_cons, hperm2]
  | succ j ih =>
    obtain ⟨ih1, ih2⟩ := ih (by omega)
    rw [List.range'_1_concat, List.foldl_append]
    simp only [List.foldl_cons, List.foldl_nil]
    generalize (List.range' p.length j).foldl (slide s p.length (fill p p.length))
        (fill s p.length,
          if mapsEqual (fill p p.length) (fill s p.length) then [0] else []) = st at ih1 ih2
    have hge : 0 ≤ prefixCount s (j + p.length) (s.getD (p.length + j) default)
        - prefixCount s j (s.getD (p.length + j) default) := by
      have := prefixCount_mono s (show j ≤ j + p.length by omega)
        (s.getD (p.length + j) default)
      omega
    have h1 := represents_incr _ _ ih1 (s.getD (p.length + j) default) hge
    have h2 := represents_decr _ _ h1 (s.getD (p.length + j - p.length) default)
    have hrep : Represents (slide s p.length (fill p p.length) st (p.length + j)).1
        (fun b => prefixCount s (j + 1 + p.length) b - prefixCount s (j + 1) b) := by
      apply represents_congr _ _ _ h2
      intro b
      have e1 : j + 1 + p.length = (p.length + j) + 1 := by omega
      have e2 : p.length + j - p.length = j := by omega
      rw [e1, e2, prefixCount_succ s (p.length + j) (by omega) b,
        prefixCount_succ s j (by omega) b]
      have e3 : j + p.length = p.length + j := by omega
      rw [e3]
      by_cases hb1 : b = s.getD j default
      · have hb1s : s.getD j default = b := hb1.symm
        by_cases hb2 : b = s.getD (p.length + j) default
        · have hb2s : s.getD (p.length + j) default = b := hb2.symm
          simp only [hb1s, hb2s, if_true]
          omega
        · have hb2s : ¬ s.getD (p.length + j) default = b := fun e => hb2 e.symm
          simp only [hb1s, hb2, hb2s, if_true, if_false]
          omega
      · have hb1s : ¬ s.getD j default = b := fun e => hb1 e.symm
        by_cases hb2 : b = s.getD (p.length + j) default
        · have hb2s : s.getD (p.length + j) default = b := hb2.symm
          simp only [hb1, hb1s, hb2s, if_true, if_false]
          omega
        · have hb2s : ¬ s.getD (p.length + j) default = b := fun e => hb2 e.symm
          simp only [hb1, hb1s, hb2, hb2s, if_false]
          omega
    refine ⟨hrep, ?_⟩
    have hiff := mapsEqual_iff _ _ _ _ hp hrep
    have han := anagram_iff_counts s p (j + 1)
    have hres : (slide s p.length (fill p p.length) st (p.length + j)).2
        = if mapsEqual (fill p p.length)
            (slide s p.length (fill p p.length) st (p.length + j)).1
          then st.2 ++ [p.length + j - p.length + 1] else st.2 := rfl
    rw [hres, ih2, List.range_succ (j + 1), List.filter_append]
    have e2 : p.length + j - p.length + 1 = j + 1 := by omega
    rw [e2]
    by_cases hm : mapsEqual (fill p p.length)
        (slide s p.length (fill p p.length) st (p.length + j)).1 = true
    · have hperm : ((s.drop (j + 1)).take p.length).Perm p := by
        rw [han]
        exact hiff.mp hm
      simp [hm, hperm]
    · have hperm : ¬ ((s.drop (j + 1)).take p.length).Perm p := by
        rw [han]
        intro h
        exact hm (hiff.mpr h)
      simp [hm, hperm]

/-- C22: for all strings `s` and `p` (as byte sequences), `findAnagrams(s, p)` returns, in
strictly increasing order, exactly the indices `i` with `0 ≤ i ≤ len(s) - len(p)` such
that `s[i : i+len(p)]` is a permutation of `p`; it returns an empty slice when
`len(s) < len(p)`. -/
theorem findAnagrams_all_anagram_starts {α : Type} [DecidableEq α] [Inhabited α]
    (s p : List α) :
    (findAnagrams s p).Sorted (· < ·) ∧
    (∀ i, i ∈ findAnagrams s p ↔
      i + p.length ≤ s.length ∧ ((s.drop i).take p.length).Perm p) ∧
    (s.length < p.length → findAnagrams s p = []) := by
  by_cases hlt : s.length < p.length
  · have hres : findAnagrams s p = [] := by
      unfold findAnagrams
      rw [if_pos hlt]
    rw [hres]
    refine ⟨List.sorted_nil, ?_, fun _ => rfl⟩
    intro i
    constructor
    · intro h
      cases h
    · rintro ⟨h, _⟩
      omega
  · have hinv := (slide_inv s p (by omega) (s.length - p.length) le_rfl).2
    have hres : findAnagrams s p = (List.range (s.length - p.length + 1)).filter
        (fun i => decide (((s.drop i).take p.length).Perm p)) := by
      unfold findAnagrams
      rw [if_neg hlt]
      exact hinv
    rw [hres]
    refine ⟨?_, ?_, fun h => absurd h hlt⟩
    · exact (List.sorted_lt_range _).filter _
    · intro i
      rw [List.mem_filter, List.mem_range]
      simp only [decide_eq_true_eq]
      constructor
      · rintro ⟨h1, h2⟩
        exact ⟨by omega, h2⟩
      · rintro ⟨h1, h2⟩
        exact ⟨by omega, h2⟩

theorem findAnagrams_all_anagram_starts_witness :
    (findAnagrams "cbaebabacd".toList "abc".toList).Sorted (· < ·) ∧
    (∀ i, i ∈ findAnagrams "cbaebabacd".toList "abc".toList ↔
      i + "abc".toList.length ≤ "cbaebabacd".toList.length ∧
        (("cbaebabacd".toList.drop i).take "abc".toList.length).Perm "abc".toList) ∧
    findAnagrams "".toList "a".toList = [] :=
  ⟨(findAnagrams_all_anagram_starts "cbaebabacd".toList "abc".toList).1,
   (findAnagrams_all_anagram_starts "cbaebabacd".toList "abc".toList).2.1,
   (findAnagrams_all_anagram_starts "".toList "a".toList).2.2 (by decide)⟩

end FindAllAnagrams

/-! ## C21 -/

namespace LongestSubstringWithoutRepeating

/-- The model returns the expected values on the six tests of the source's `main`, all
of them strings of single-byte characters. -/
theorem lengthOfLongestSubstring_source_tests :
    lengthOfLongestSubstring "abcabcbb" = 3 ∧ lengthOfLongestSubstring "bbbbb" = 1 ∧
    lengthOfLongestSubstring "pwwkew" = 3 ∧ lengthOfLongestSubstring "" = 0 ∧
    lengthOfLongestSubstring "dvdf" = 3 ∧ lengthOfLongestSubstring "abba" = 2 := by
  decide

/-- C21 fails on the code: the string "яб" has two characters, both different, each two
bytes long.  `range` yields the byte offsets 0 and 2, the second iteration computes
`currentLen = 2 - 0 + 1 = 3`, and the function returns 3, more than the number of
characters of the whole string; the longest substring without a repeated character is
the string itself, of 2 characters. -/
theorem lengthOfLongestSubstring_counts_byte_offsets :
    rangeFrom 0 "яб".toList = [(0, 'я'), (2, 'б')] ∧
    lengthOfLongestSubstring "яб" = 3 ∧
    "яб".toList.Nodup ∧ "яб".toList.length = 2 ∧
    ∀ w : List Char, w <:+: "яб".toList → w.length ≤ 2 :=
  ⟨by decide, by decide, by decide, by decide, fun _ hw => hw.length_le⟩

end LongestSubstringWithoutRepeating

/-! # Linked lists: theorems -/

namespace LinkedLists

/-! ## Segments of a heap -/

theorem seg_frame (h h2 : Heap) (cells : List (Nat × Int)) :
    ∀ (p q : Option Nat), (∀ a ∈ cells.map Prod.fst, h2[a]? = h[a]?) →
      Seg h p cells q → Seg h2 p cells q := by
  induction cells with
  | nil => intro p q _ hs; exact hs
  | cons c rest ih =>
    intro p q hsame hs
    obtain ⟨a, v⟩ := c
    obtain ⟨hp, nxt, hn, hrest⟩ := hs
    refine ⟨hp, nxt, ?_, ?_⟩
    · rw [hsame a (by simp)]
      exact hn
    · apply ih nxt q _ hrest
      intro b hb
      exact hsame b (by simp only [List.map_cons, List.mem_cons]; exact Or.inr hb)

theorem seg_append (h : Heap) (c1 c2 : List (Nat × Int)) :
    ∀ (p r : Option Nat), Seg h p (c1 ++ c2) r ↔ ∃ q, Seg h p c1 q ∧ Seg h q c2 r := by
  induction c1 with
  | nil =>
    intro p r
    simp only [List.nil_append, Seg]
    constructor
    · intro hs
      exact ⟨p, rfl, hs⟩
    · rintro ⟨q, hpq, hs⟩
      rw [hpq]
      exact hs
  | cons c rest ih =>
    intro p r
    obtain ⟨a, v⟩ := c
    simp only [List.cons_append, Seg]
    constructor
    · rintro ⟨hp, nxt, hn, hs⟩
      obtain ⟨q, h1, h2⟩ := (ih nxt r).mp hs
      exact ⟨q, ⟨hp, nxt, hn, h1⟩, h2⟩
    · rintro ⟨q, ⟨hp, nxt, hn, h1⟩, h2⟩
      exact ⟨hp, nxt, hn, (ih nxt r).mpr ⟨q, h1, h2⟩⟩

theorem isList_det (h : Heap) (c1 : List (Nat × Int)) :
    ∀ (p : Option Nat) (c2 : List (Nat × Int)), IsList h p c1 → IsList h p c2 → c1 = c2 := by
  induction c1 with
  | nil =>
    intro p c2 h1 h2
    cases c2 with
    | nil => rfl
    | cons c rest =>
      obtain ⟨a, v⟩ := c
      unfold IsList at h1 h2
      simp only [Seg] at h1 h2
      rw [h1] at h2
      exact absurd h2.1 (by simp)
  | cons c rest ih =>
    intro p c2 h1 h2
    obtain ⟨a, v⟩ := c
    unfold IsList at h1 h2
    cases c2 with
    | nil =>
      simp only [Seg] at h1 h2
      rw [h2] at h1
      exact absurd h1.1 (by simp)
    | cons c' rest' =>
      obtain ⟨a', v'⟩ := c'
      simp only [Seg] at h1 h2
      obtain ⟨hp1, n1, hn1, hs1⟩ := h1
      obtain ⟨hp2, n2, hn2, hs2⟩ := h2
      rw [hp1] at hp2
      have ha : a = a' := Option.some.inj hp2
      subst ha
      rw [hn1] at hn2
      have hnode := Option.some.inj hn2
      have hv : v = v' := congrArg ListNode.Val hnode
      have hn : n1 = n2 := congrArg ListNode.Next hnode
      subst hv; subst hn
      rw [ih n1 rest' hs1 hs2]

theorem isList_nodup (h : Heap) (cells : List (Nat × Int)) :
    ∀ (p : Option Nat), IsList h p cells → (cells.map Prod.fst).Nodup := by
  induction cells with
  | nil => intro p _; exact List.nodup_nil
  | cons c rest ih =>
    intro p hl
    obtain ⟨a, v⟩ := c
    have hl2 := hl
    unfold IsList at hl2
    simp only [Seg] at hl2
    obtain ⟨hp, nxt, hn, hs⟩ := hl2
    rw [List.map_cons, List.nodup_cons]
    refine ⟨?_, ih nxt hs⟩
    intro hmem
    rw [List.mem_map] at hmem
    obtain ⟨⟨a2, v2⟩, hm, ha2⟩ := hmem
    simp only at ha2
    subst ha2
    obtain ⟨l1, l2, hsplit⟩ := List.append_of_mem hm
    have hs2 : Seg h nxt (l1 ++ (a2, v2) :: l2) none := by
      rw [← hsplit]; exact hs
    obtain ⟨q, _, hq⟩ := (seg_append h l1 ((a2, v2) :: l2) nxt none).mp hs2
    have hq2 := hq
    simp only [Seg] at hq2
    obtain ⟨hqa, n2, hn2, hs3⟩ := hq2
    rw [hn] at hn2
    have hnode := Option.some.inj hn2
    have hnn : nxt = n2 := congrArg ListNode.Next hnode
    subst hnn
    have heq := isList_det h rest nxt l2 hs hs3
    have hlen := congrArg List.length hsplit
    rw [heq] at hlen
    simp only [List.length_append, List.length_cons] at hlen
    omega

theorem setNext_getElem?_ne (h : Heap) (a b : Nat) (q : Option Nat) (hab : b ≠ a) :
    (setNext h a q)[b]? = h[b]? := by
  unfold setNext
  split
  · rw [List.getElem?_set_ne (fun e => hab e.symm)]
  · rfl

theorem setNext_getElem?_self (h : Heap) (a : Nat) (q : Option Nat) (node : ListNode)
    (ha : h[a]? = some node) :
    (setNext h a q)[a]? = some { Val := node.Val, Next := q } := by
  unfold setNext
  rw [ha]
  have hlt : a < h.length := by
    rcases Nat.lt_or_ge a h.length with hlt | hge
    · exact hlt
    · rw [List.getElem?_eq_none hge] at ha
      cases ha
  simp only
  rw [List.getElem?_set_self hlt]

theorem setNext_length (h : Heap) (a : Nat) (q : Option Nat) :
    (setNext h a q).length = h.length := by
  unfold setNext
  split
  · simp
  · rfl

theorem seg_setNext_frame (h : Heap) (c : Nat) (r : Option Nat) (cells : List (Nat × Int))
    (p q : Option Nat) (hc : c ∉ cells.map Prod.fst) (hs : Seg h p cells q) :
    Seg (setNext h c r) p cells q := by
  apply seg_frame h _ cells p q _ hs
  intro a ha
  exact setNext_getElem?_ne h c a r (fun e => hc (e ▸ ha))

/-! ## C26 -/

theorem reverseLoop_spec (cur : List (Nat × Int)) :
    ∀ (fuel : Nat) (h : Heap) (prev current : Option Nat) (done : List (Nat × Int)),
      IsList h prev done → IsList h current cur →
      (∀ a ∈ cur.map Prod.fst, a ∉ done.map Prod.fst) → cur.length < fuel →
      ∃ h2 p, reverseLoop fuel h prev current = some (h2, p) ∧
        IsList h2 p (cur.reverse ++ done) ∧ h2.length = h.length := by
  induction cur with
  | nil =>
    intro fuel h prev current done hd hc _ hf
    unfold IsList at hc
    simp only [Seg] at hc
    subst hc
    obtain ⟨f, rfl⟩ : ∃ f, fuel = f + 1 := ⟨fuel - 1, by simp only [List.length_nil] at hf; omega⟩
    exact ⟨h, prev, rfl, by simpa using hd, rfl⟩
  | cons c rest ih =>
    intro fuel h prev current done hd hc hdisj hf
    obtain ⟨a, v⟩ := c
    have hnd := isList_nodup h _ current hc
    unfold IsList at hc
    simp only [Seg] at hc
    obtain ⟨hp, nxt, hn, hs⟩ := hc
    subst hp
    obtain ⟨f, rfl⟩ : ∃ f, fuel = f + 1 := ⟨fuel - 1, by simp only [List.length_cons] at hf; omega⟩
    simp only [List.map_cons, List.nodup_cons] at hnd
    have hstep : reverseLoop (f + 1) h prev (some a)
        = reverseLoop f (setNext h a prev) (some a) nxt := by
      simp only [reverseLoop, hn]
    have hd2 : IsList (setNext h a prev) (some a) ((a, v) :: done) := by
      unfold IsList
      simp only [Seg]
      refine ⟨trivial, prev, setNext_getElem?_self h a prev _ hn, ?_⟩
      exact seg_setNext_frame h a prev done prev none
        (hdisj a (by simp)) hd
    have hc2 : IsList (setNext h a prev) nxt rest :=
      seg_setNext_frame h a prev rest nxt none hnd.1 hs
    obtain ⟨h2, p, hres, hl, hlen⟩ := ih f (setNext h a prev) (some a) nxt ((a, v) :: done)
      hd2 hc2 (by
        intro b hb
        simp only [List.map_cons, List.mem_cons, not_or]
        refine ⟨fun e => hnd.1 (e ▸ hb), hdisj b (by simp only [List.map_cons, List.mem_cons]; exact Or.inr hb)⟩)
      (by simp only [List.length_cons] at hf; omega)
    refine ⟨h2, p, by rw [hstep]; exact hres, ?_, by rw [hlen, setNext_length]⟩
    simpa using hl

/-- C26: for every finite acyclic list (with nodes `cells` in the heap `h`, `head`
pointing to the first), `reverseList` terminates (any `fuel` above the length is enough)
and returns the head of a list made of the same nodes, holding the same values, in
exactly the reverse order; for the empty list it returns nil and leaves the heap as it
was. -/
theorem reverseList_reverses (h : Heap) (head : Option Nat) (cells : List (Nat × Int))
    (hl : IsList h head cells) (fuel : Nat) (hf : cells.length < fuel) :
    (∃ h2 p, reverseList fuel h head = some (h2, p) ∧ IsList h2 p cells.reverse ∧
      (cells.reverse.map Prod.snd) = (cells.map Prod.snd).reverse) ∧
    reverseList fuel h none = some (h, none) := by
  constructor
  · obtain ⟨h2, p, hres, hl2, _⟩ := reverseLoop_spec cells fuel h none head []
      (by unfold IsList; simp [Seg]) hl (by simp) hf
    refine ⟨h2, p, hres, by simpa using hl2, by simp⟩
  · obtain ⟨f, rfl⟩ : ∃ f, fuel = f + 1 := ⟨fuel - 1, by omega⟩
    rfl

theorem reverseList_reverses_witness :
    (∃ h2 p, reverseList 4 [⟨1, some 1⟩, ⟨2, some 2⟩, ⟨3, none⟩] (some 0) = some (h2, p) ∧
      IsList h2 p [(0, (1 : Int)), (1, 2), (2, 3)].reverse ∧
      ([(0, (1 : Int)), (1, 2), (2, 3)].reverse.map Prod.snd)
        = ([(0, (1 : Int)), (1, 2), (2, 3)].map Prod.snd).reverse) ∧
    reverseList 4 [⟨1, some 1⟩, ⟨2, some 2⟩, ⟨3, none⟩] none
      = some ([⟨1, some 1⟩, ⟨2, some 2⟩, ⟨3, none⟩], none) :=
  reverseList_reverses [⟨1, some 1⟩, ⟨2, some 2⟩, ⟨3, none⟩] (some 0)
    [(0, 1), (1, 2), (2, 3)] (by simp [IsList, Seg]) 4 (by decide)

/-! ## C27 -/

theorem deleteLoop_spec (rest : List (Nat × Int)) :
    ∀ (fuel : Nat) (h : Heap) (head : Option Nat) (done : List (Nat × Int)) (a : Nat) (v : Int),
      IsList h head (done ++ (a, v) :: rest) → rest.length < fuel →
      ∃ h2, deleteLoop fuel h (some a) = some h2 ∧
        IsList h2 head (done ++ (a, v) :: keepDistinct v rest) := by
  induction rest with
  | nil =>
    intro fuel h head done a v hl hf
    obtain ⟨f, rfl⟩ : ∃ f, fuel = f + 1 := ⟨fuel - 1, by simp only [List.length_nil] at hf; omega⟩
    have hl2 := hl
    unfold IsList at hl2
    obtain ⟨q, _, hq⟩ := (seg_append h done [(a, v)] head none).mp hl2
    simp only [Seg] at hq
    obtain ⟨_, nxt, hn, hnone⟩ := hq
    subst hnone
    refine ⟨h, ?_, hl⟩
    simp only [deleteLoop, hn]
  | cons c rest ih =>
    intro fuel h head done a v hl hf
    obtain ⟨b, w⟩ := c
    obtain ⟨f, rfl⟩ : ∃ f, fuel = f + 1 := ⟨fuel - 1, by simp only [List.length_cons] at hf; omega⟩
    have hnd := isList_nodup h _ head hl
    have hl2 := hl
    unfold IsList at hl2
    obtain ⟨q, hseg1, hq⟩ := (seg_append h done ((a, v) :: (b, w) :: rest) head none).mp hl2
    simp only [Seg] at hq
    obtain ⟨hqa, nxt, hn, hnb, nxt2, hn2, hrest⟩ := hq
    subst hnb
    subst hqa
    simp only [List.map_append, List.map_cons, List.nodup_append, List.nodup_cons,
      List.mem_cons, not_or] at hnd
    by_cases hvw : v = w
    · have hstep : deleteLoop (f + 1) h (some a) = deleteLoop f (setNext h a nxt2) (some a) := by
        simp only [deleteLoop, hn, hn2, hvw, if_true]
      have ha_done : a ∉ done.map Prod.fst := by
        intro hmem
        exact hnd.2.2 hmem (List.mem_cons_self _ _)
      have hl3 : IsList (setNext h a nxt2) head (done ++ (a, v) :: rest) := by
        unfold IsList
        rw [seg_append]
        refine ⟨some a, seg_setNext_frame h a nxt2 done head (some a) ha_done hseg1, ?_⟩
        simp only [Seg]
        refine ⟨trivial, nxt2, setNext_getElem?_self h a nxt2 _ hn, ?_⟩
        exact seg_setNext_frame h a nxt2 rest nxt2 none hnd.2.1.1.2 hrest
      obtain ⟨h2, hres, hfin⟩ := ih f (setNext h a nxt2) head done a v hl3
        (by simp only [List.length_cons] at hf; omega)
      refine ⟨h2, by rw [hstep]; exact hres, ?_⟩
      simp only [keepDistinct, hvw, if_true]
      rw [hvw] at hfin
      exact hfin
    · have hstep : deleteLoop (f + 1) h (some a) = deleteLoop f h (some b) := by
        simp only [deleteLoop, hn, hn2, hvw, if_false]
      have hl3 : IsList h head ((done ++ [(a, v)]) ++ (b, w) :: rest) := by
        simpa using hl
      obtain ⟨h2, hres, hfin⟩ := ih f h head (done ++ [(a, v)]) b w hl3
        (by simp only [List.length_cons] at hf; omega)
      refine ⟨h2, by rw [hstep]; exact hres, ?_⟩
      simp only [keepDistinct, hvw, if_false]
      simpa using hfin

theorem keepDistinct_sublist (rest : List (Nat × Int)) :
    ∀ v, (keepDistinct v rest).Sublist rest := by
  induction rest with
  | nil => intro v; exact List.Sublist.refl _
  | cons c rest ih =>
    intro v
    obtain ⟨b, w⟩ := c
    simp only [keepDistinct]
    split
    · exact (ih v).cons _
    · exact (ih w).cons₂ _

theorem keepDistinct_mem (rest : List (Nat × Int)) :
    ∀ v x, x ∈ (v :: rest.map Prod.snd) → x ∈ v :: (keepDistinct v rest).map Prod.snd := by
  induction rest with
  | nil => intro v x hx; simpa [keepDistinct] using hx
  | cons c rest ih =>
    intro v x hx
    obtain ⟨b, w⟩ := c
    simp only [List.map_cons, List.mem_cons] at hx
    simp only [keepDistinct]
    split
    · rename_i hvw
      apply ih v x
      rcases hx with hx | hx | hx
      · exact hx ▸ List.mem_cons_self _ _
      · rw [hx, ← hvw]; exact List.mem_cons_self _ _
      · exact List.mem_cons_of_mem _ hx
    · simp only [List.map_cons, List.mem_cons]
      rcases hx with hx | hx | hx
      · exact Or.inl hx
      · exact Or.inr (Or.inl hx)
      · have := ih w x (List.mem_cons_of_mem _ hx)
        simp only [List.mem_cons] at this
        exact Or.inr this

theorem keepDistinct_strict (rest : List (Nat × Int)) :
    ∀ v, (v :: rest.map Prod.snd).Sorted (· ≤ ·) →
      (v :: (keepDistinct v rest).map Prod.snd).Sorted (· < ·) := by
  induction rest with
  | nil => intro v _; simp [keepDistinct]
  | cons c rest ih =>
    intro v hs
    obtain ⟨b, w⟩ := c
    simp only [List.map_cons] at hs
    have hvw : v ≤ w := List.rel_of_sorted_cons hs w (List.mem_cons_self _ _)
    have hs2 : (w :: rest.map Prod.snd).Sorted (· ≤ ·) := hs.of_cons
    simp only [keepDistinct]
    split
    · rename_i heq
      apply ih v
      rw [heq]
      exact hs2
    · rename_i hne
      have hlt : v < w := by omega
      have ih2 := ih w hs2
      simp only [List.map_cons]
      unfold List.Sorted at ih2 ⊢
      rw [List.pairwise_cons]
      refine ⟨?_, ih2⟩
      intro x hx
      rcases List.mem_cons.mp hx with hx | hx
      · rw [hx]; exact hlt
      · exact lt_trans hlt (List.rel_of_pairwise_cons ih2 hx)

/-- C27: for every finite list sorted in non-decreasing order (nodes `cells` in the heap
`h`), `deleteDuplicates` terminates (any `fuel` of at least the length is enough) and
returns the same head; the list then consists of a sub-sequence of the original nodes,
its values are strictly increasing and are exactly the values of the input, each once
and in their original order.  For the empty list it returns nil. -/
theorem deleteDuplicates_keeps_distinct (h : Heap) (head : Option Nat)
    (cells : List (Nat × Int)) (hl : IsList h head cells)
    (hs : (cells.map Prod.snd).Sorted (· ≤ ·)) (fuel : Nat) (hf : cells.length ≤ fuel) :
    (∃ h2 kept, deleteDuplicates fuel h head = some (h2, head) ∧ IsList h2 head kept ∧
      kept.Sublist cells ∧ (kept.map Prod.snd).Sorted (· < ·) ∧
      ∀ x, x ∈ kept.map Prod.snd ↔ x ∈ cells.map Prod.snd) ∧
    deleteDuplicates fuel h none = some (h, none) := by
  refine ⟨?_, rfl⟩
  cases cells with
  | nil =>
    unfold IsList at hl
    simp only [Seg] at hl
    subst hl
    exact ⟨h, [], rfl, by simp [IsList, Seg], List.Sublist.refl _, List.sorted_nil, by simp⟩
  | cons c rest =>
    obtain ⟨a, v⟩ := c
    have hhead : head = some a := by
      unfold IsList at hl
      simp only [Seg] at hl
      exact hl.1
    obtain ⟨h2, hres, hfin⟩ := deleteLoop_spec rest fuel h head [] a v (by simpa using hl)
      (by simp only [List.length_cons] at hf; omega)
    refine ⟨h2, (a, v) :: keepDistinct v rest, ?_, by simpa using hfin, ?_, ?_, ?_⟩
    · subst hhead
      simp only [deleteDuplicates, hres]
    · exact (keepDistinct_sublist rest v).cons₂ _
    · simpa using keepDistinct_strict rest v (by simpa using hs)
    · intro x
      constructor
      · intro hx
        exact ((keepDistinct_sublist rest v).cons₂ (a, v)).map Prod.snd |>.subset hx
      · intro hx
        simpa using keepDistinct_mem rest v x (by simpa using hx)

/-- Witness for C27: the source's list `1 → 1 → 2 → 3 → 3`. -/
theorem deleteDuplicates_keeps_distinct_witness :
    (∃ h2 kept, deleteDuplicates 5 [{ Val := 1, Next := some 1 }, { Val := 1, Next := some 2 },
          { Val := 2, Next := some 3 }, { Val := 3, Next := some 4 }, { Val := 3, Next := none }]
          (some 0) = some (h2, some 0) ∧
      IsList h2 (some 0) kept ∧
      kept.Sublist [(0, 1), (1, 1), (2, 2), (3, 3), (4, 3)] ∧
      (kept.map Prod.snd).Sorted (· < ·) ∧
      ∀ x, x ∈ kept.map Prod.snd
        ↔ x ∈ ([(0, 1), (1, 1), (2, 2), (3, 3), (4, 3)] : List (Nat × Int)).map Prod.snd) ∧
    deleteDuplicates 5 [{ Val := 1, Next := some 1 }, { Val := 1, Next := some 2 },
          { Val := 2, Next := some 3 }, { Val := 3, Next := some 4 }, { Val := 3, Next := none }]
          none
      = some ([{ Val := 1, Next := some 1 }, { Val := 1, Next := some 2 },
          { Val := 2, Next := some 3 }, { Val := 3, Next := some 4 }, { Val := 3, Next := none }],
          none) :=
  deleteDuplicates_keeps_distinct _ (some 0) [(0, 1), (1, 1), (2, 2), (3, 3), (4, 3)]
    (by simp [IsList, Seg]) (by decide) 5 (by decide)

/-! ## C24 -/

theorem seg_addr_lt (h : Heap) (cells : List (Nat × Int)) :
    ∀ (p q : Option Nat), Seg h p cells q → ∀ a ∈ cells.map Prod.fst, a < h.length := by
  induction cells with
  | nil => intro p q _ a ha; simp at ha
  | cons c rest ih =>
    intro p q hs a ha
    obtain ⟨b, v⟩ := c
    simp only [Seg] at hs
    obtain ⟨_, nxt, hn, hrest⟩ := hs
    simp only [List.map_cons, List.mem_cons] at ha
    rcases ha with ha | ha
    · subst ha
      rcases Nat.lt_or_ge a h.length with hlt | hge
      · exact hlt
      · rw [List.getElem?_eq_none hge] at hn
        cases hn
    · exact ih nxt q hrest a ha

theorem seg_setNext_last (h : Heap) (out : List (Nat × Int)) (c : Nat) (vc : Int)
    (p q r : Option Nat) (hc : c ∉ out.map Prod.fst) (hs : Seg h p (out ++ [(c, vc)]) q) :
    Seg (setNext h c r) p (out ++ [(c, vc)]) r := by
  obtain ⟨m, h1, h2⟩ := (seg_append h out [(c, vc)] p q).mp hs
  rw [seg_append]
  refine ⟨m, seg_setNext_frame h c r out p m hc h1, ?_⟩
  simp only [Seg] at h2 ⊢
  obtain ⟨hm, nxt, hn, _⟩ := h2
  exact ⟨hm, r, setNext_getElem?_self h c r _ hn, rfl⟩

theorem mergeLoop_spec : ∀ (fuel : Nat) (h : Heap) (d : Nat) (out : List (Nat × Int))
    (c : Nat) (vc : Int) (q : Option Nat) (l1 l2 : Option Nat) (L1 L2 : List (Nat × Int)),
    Seg h (some d) (out ++ [(c, vc)]) q → IsList h l1 L1 → IsList h l2 L2 →
    c ∉ out.map Prod.fst →
    (∀ x ∈ (out ++ [(c, vc)]).map Prod.fst, x ∉ L1.map Prod.fst ∧ x ∉ L2.map Prod.fst) →
    (∀ x ∈ L1.map Prod.fst, x ∉ L2.map Prod.fst) →
    L1.length + L2.length < fuel →
    ∃ h2, mergeLoop fuel h c l1 l2 = some h2 ∧
      IsList h2 (some d) ((out ++ [(c, vc)]) ++ mergeCells fuel L1 L2) := by
  intro fuel
  induction fuel with
  | zero =>
    intro h d out c vc q l1 l2 L1 L2 _ _ _ _ _ _ hf
    omega
  | succ f ih =>
    intro h d out c vc q l1 l2 L1 L2 hout hl1 hl2 hc hdisj h12 hf
    have hcL1 : c ∉ L1.map Prod.fst := (hdisj c (by simp)).1
    have hcL2 : c ∉ L2.map Prod.fst := (hdisj c (by simp)).2
    cases L1 with
    | nil =>
      have hl1n : l1 = none := by
        unfold IsList at hl1
        simpa [Seg] using hl1
      subst hl1n
      refine ⟨setNext h c l2, by simp only [mergeLoop], ?_⟩
      have hm : mergeCells (f + 1) [] L2 = L2 := by
        cases L2 with
        | nil => simp [mergeCells]
        | cons x xs => simp [mergeCells]
      rw [hm]
      unfold IsList
      rw [seg_append]
      exact ⟨l2, seg_setNext_last h out c vc (some d) q l2 hc hout,
        seg_setNext_frame h c l2 L2 l2 none hcL2 hl2⟩
    | cons x1 rest1 =>
      obtain ⟨a1, v1⟩ := x1
      have hnd1 := isList_nodup h _ l1 hl1
      have hl1b := hl1
      unfold IsList at hl1b
      simp only [Seg] at hl1b
      obtain ⟨hl1a, n1, hn1, hrest1⟩ := hl1b
      subst hl1a
      cases L2 with
      | nil =>
        have hl2n : l2 = none := by
          unfold IsList at hl2
          simpa [Seg] using hl2
        subst hl2n
        refine ⟨setNext h c (some a1), by simp only [mergeLoop], ?_⟩
        have hm : mergeCells (f + 1) ((a1, v1) :: rest1) [] = (a1, v1) :: rest1 := by
          simp [mergeCells]
        rw [hm]
        unfold IsList
        rw [seg_append]
        exact ⟨some a1, seg_setNext_last h out c vc (some d) q (some a1) hc hout,
          seg_setNext_frame h c (some a1) _ (some a1) none hcL1 hl1⟩
      | cons x2 rest2 =>
        obtain ⟨a2, v2⟩ := x2
        have hnd2 := isList_nodup h _ l2 hl2
        have hl2b := hl2
        unfold IsList at hl2b
        simp only [Seg] at hl2b
        obtain ⟨hl2a, n2, hn2, hrest2⟩ := hl2b
        subst hl2a
        simp only [List.map_cons, List.nodup_cons] at hnd1 hnd2
        simp only [List.map_cons, List.mem_cons, not_or] at hcL1 hcL2
        simp only [List.length_cons] at hf
        by_cases hle : v1 ≤ v2
        · have hmoved : (setNext h c (some a1))[a1]? = some { Val := v1, Next := n1 } := by
            rw [setNext_getElem?_ne h c a1 (some a1) (fun e => hcL1.1 e.symm)]
            exact hn1
          have hstep : mergeLoop (f + 1) h c (some a1) (some a2)
              = mergeLoop f (setNext h c (some a1)) a1 n1 (some a2) := by
            simp only [mergeLoop, hn1, hn2, hle, if_true, hmoved]
          have hseg : Seg (setNext h c (some a1)) (some d)
              ((out ++ [(c, vc)]) ++ [(a1, v1)]) n1 := by
            rw [seg_append]
            refine ⟨some a1, seg_setNext_last h out c vc (some d) q (some a1) hc hout, ?_⟩
            simp only [Seg]
            exact ⟨trivial, n1, hmoved, rfl⟩
          obtain ⟨h2, hres, hfin⟩ := ih (setNext h c (some a1)) d (out ++ [(c, vc)]) a1 v1 n1
            n1 (some a2) rest1 ((a2, v2) :: rest2) hseg
            (seg_setNext_frame h c (some a1) rest1 n1 none hcL1.2 hrest1)
            (seg_setNext_frame h c (some a1) _ (some a2) none
              (by simp only [List.map_cons, List.mem_cons, not_or]; exact hcL2) hl2)
            (by
              intro hmem
              exact (hdisj a1 hmem).1 (by simp))
            (by
              intro x hx
              simp only [List.map_append, List.map_cons, List.map_nil, List.mem_append,
                List.mem_singleton] at hx
              rcases hx with hx | hx
              · have := hdisj x (by
                  simp only [List.map_append, List.map_cons, List.map_nil, List.mem_append,
                    List.mem_singleton]
                  exact hx)
                refine ⟨fun hm => this.1 (by simp only [List.map_cons, List.mem_cons]; exact Or.inr hm), this.2⟩
              · subst hx
                exact ⟨hnd1.1, h12 x (by simp)⟩)
            (by
              intro x hx
              exact h12 x (by simp only [List.map_cons, List.mem_cons]; exact Or.inr hx))
            (by simp only [List.length_cons]; omega)
          refine ⟨h2, by rw [hstep]; exact hres, ?_⟩
          have hm : mergeCells (f + 1) ((a1, v1) :: rest1) ((a2, v2) :: rest2)
              = (a1, v1) :: mergeCells f rest1 ((a2, v2) :: rest2) := by
            simp only [mergeCells, hle, if_true]
          rw [hm]
          simpa using hfin
        · have hmoved : (setNext h c (some a2))[a2]? = some { Val := v2, Next := n2 } := by
            rw [setNext_getElem?_ne h c a2 (some a2) (fun e => hcL2.1 e.symm)]
            exact hn2
          have hstep : mergeLoop (f + 1) h c (some a1) (some a2)
              = mergeLoop f (setNext h c (some a2)) a2 (some a1) n2 := by
            simp only [mergeLoop, hn1, hn2, hle, if_false, hmoved]
          have hseg : Seg (setNext h c (some a2)) (some d)
              ((out ++ [(c, vc)]) ++ [(a2, v2)]) n2 := by
            rw [seg_append]
            refine ⟨some a2, seg_setNext_last h out c vc (some d) q (some a2) hc hout, ?_⟩
            simp only [Seg]
            exact ⟨trivial, n2, hmoved, rfl⟩
          obtain ⟨h2, hres, hfin⟩ := ih (setNext h c (some a2)) d (out ++ [(c, vc)]) a2 v2 n2
            (some a1) n2 ((a1, v1) :: rest1) rest2 hseg
            (seg_setNext_frame h c (some a2) _ (some a1) none
              (by simp only [List.map_cons, List.mem_cons, not_or]; exact hcL1) hl1)
            (seg_setNext_frame h c (some a2) rest2 n2 none hcL2.2 hrest2)
            (by
              intro hmem
              exact (hdisj a2 hmem).2 (by simp))
            (by
              intro x hx
              simp only [List.map_append, List.map_cons, List.map_nil, List.mem_append,
                List.mem_singleton] at hx
              rcases hx with hx | hx
              · have := hdisj x (by
                  simp only [List.map_append, List.map_cons, List.map_nil, List.mem_append,
                    List.mem_singleton]
                  exact hx)
                refine ⟨this.1, fun hm => this.2 (by simp only [List.map_cons, List.mem_cons]; exact Or.inr hm)⟩
              · subst hx
                refine ⟨fun hm => h12 x hm (by simp), hnd2.1⟩)
            (by
              intro x hx hx2
              exact h12 x hx (by simp only [List.map_cons, List.mem_cons]; exact Or.inr hx2))
            (by simp only [List.length_cons]; omega)
          refine ⟨h2, by rw [hstep]; exact hres, ?_⟩
          have hm : mergeCells (f + 1) ((a1, v1) :: rest1) ((a2, v2) :: rest2)
              = (a2, v2) :: mergeCells f ((a1, v1) :: rest1) rest2 := by
            simp only [mergeCells, hle, if_false]
          rw [hm]
          simpa using hfin

theorem mergeCells_perm : ∀ (fuel : Nat) (L1 L2 : List (Nat × Int)),
    (mergeCells fuel L1 L2).Perm (L1 ++ L2) := by
  intro fuel
  induction fuel with
  | zero => intro L1 L2; simp [mergeCells]
  | succ f ih =>
    intro L1 L2
    cases L1 with
    | nil =>
      cases L2 with
      | nil => simp [mergeCells]
      | cons x xs => simp [mergeCells]
    | cons x1 rest1 =>
      obtain ⟨a1, v1⟩ := x1
      cases L2 with
      | nil => simp [mergeCells]
      | cons x2 rest2 =>
        obtain ⟨a2, v2⟩ := x2
        by_cases hle : v1 ≤ v2
        · simp only [mergeCells, hle, if_true, List.cons_append]
          exact (ih rest1 ((a2, v2) :: rest2)).cons _
        · simp only [mergeCells, hle, if_false]
          refine ((ih ((a1, v1) :: rest1) rest2).cons _).trans ?_
          exact (List.perm_middle).symm

theorem mergeCells_sorted : ∀ (fuel : Nat) (L1 L2 : List (Nat × Int)),
    L1.length + L2.length ≤ fuel →
    (L1.map Prod.snd).Sorted (· ≤ ·) → (L2.map Prod.snd).Sorted (· ≤ ·) →
    ((mergeCells fuel L1 L2).map Prod.snd).Sorted (· ≤ ·) := by
  intro fuel
  induction fuel with
  | zero =>
    intro L1 L2 hf _ _
    have h1 : L1 = [] := List.length_eq_zero.mp (by omega)
    have h2 : L2 = [] := List.length_eq_zero.mp (by omega)
    subst h1 h2
    simp [mergeCells]
  | succ f ih =>
    intro L1 L2 hf hs1 hs2
    cases L1 with
    | nil =>
      cases L2 with
      | nil => simp [mergeCells]
      | cons x xs => simpa [mergeCells] using hs2
    | cons x1 rest1 =>
      obtain ⟨a1, v1⟩ := x1
      cases L2 with
      | nil => simpa [mergeCells] using hs1
      | cons x2 rest2 =>
        obtain ⟨a2, v2⟩ := x2
        simp only [List.length_cons] at hf
        simp only [List.map_cons, List.sorted_cons] at hs1 hs2
        by_cases hle : v1 ≤ v2
        · simp only [mergeCells, hle, if_true, List.map_cons, List.sorted_cons]
          refine ⟨?_, ih rest1 ((a2, v2) :: rest2) (by simp only [List.length_cons]; omega)
            hs1.2 (by simp only [List.map_cons, List.sorted_cons]; exact hs2)⟩
          intro b hb
          have hb2 : b ∈ (rest1 ++ (a2, v2) :: rest2).map Prod.snd :=
            ((mergeCells_perm f rest1 ((a2, v2) :: rest2)).map Prod.snd).subset hb
          simp only [List.map_append, List.map_cons, List.mem_append, List.mem_cons] at hb2
          rcases hb2 with hb2 | hb2 | hb2
          · exact hs1.1 b hb2
          · rw [hb2]; exact hle
          · exact le_trans hle (hs2.1 b hb2)
        · simp only [mergeCells, hle, if_false, List.map_cons, List.sorted_cons]
          have hlt : v2 ≤ v1 := le_of_lt (not_le.mp hle)
          refine ⟨?_, ih ((a1, v1) :: rest1) rest2 (by simp only [List.length_cons]; omega)
            (by simp only [List.map_cons, List.sorted_cons]; exact hs1) hs2.2⟩
          intro b hb
          have hb2 : b ∈ (((a1, v1) :: rest1) ++ rest2).map Prod.snd :=
            ((mergeCells_perm f ((a1, v1) :: rest1) rest2).map Prod.snd).subset hb
          simp only [List.map_append, List.map_cons, List.mem_append, List.mem_cons] at hb2
          rcases hb2 with (hb2 | hb2) | hb2
          · rw [hb2]; exact hlt
          · exact le_trans hlt (hs1.1 b hb2)
          · exact hs2.1 b hb2

theorem seg_append_heap (h : Heap) (extra : Heap) (cells : List (Nat × Int)) :
    ∀ (p q : Option Nat), Seg h p cells q → Seg (h ++ extra) p cells q := by
  induction cells with
  | nil => intro p q hs; simpa [Seg] using hs
  | cons c rest ih =>
    intro p q hs
    obtain ⟨b, v⟩ := c
    simp only [Seg] at hs ⊢
    obtain ⟨hp, nxt, hn, hrest⟩ := hs
    refine ⟨hp, nxt, ?_, ih nxt q hrest⟩
    have hlt : b < h.length := by
      rcases Nat.lt_or_ge b h.length with hlt | hge
      · exact hlt
      · rw [List.getElem?_eq_none hge] at hn
        cases hn
    rw [List.getElem?_append_left hlt]
    exact hn

/-- C24 (counterexample): the lists `1 → 3` (head at node 0) and `2 → 3` (head at node 1)
of the heap `sharedTail` are finite and sorted, but they share the node holding 3. On them
`mergeTwoLists` needs three loop iterations and then links that node to itself: whatever the
fuel, a returned pointer is not the head of any finite list (with enough fuel the result
is `1 → 2 → 3 → 3 → ...`). -/
theorem mergeTwoLists_shared_node_cycle :
    IsList sharedTail (some 0) [(0, 1), (2, 3)] ∧
    IsList sharedTail (some 1) [(1, 2), (2, 3)] ∧
    mergeTwoLists 4 sharedTail (some 0) (some 1)
      = some ([{ Val := 1, Next := some 1 }, { Val := 2, Next := some 2 },
               { Val := 3, Next := some 2 }, { Val := 0, Next := some 0 }], some 0) ∧
    ∀ (fuel : Nat) (h2 : Heap) (p : Option Nat),
      mergeTwoLists fuel sharedTail (some 0) (some 1) = some (h2, p) →
      ¬ ∃ cells, IsList h2 p cells := by
  refine ⟨by simp [IsList, Seg, sharedTail], by simp [IsList, Seg, sharedTail], by decide, ?_⟩
  intro fuel h2 p hres
  have hcase : fuel < 4 ∨ ∃ n, fuel = n + 4 := by
    rcases Nat.lt_or_ge fuel 4 with hlt | hge
    · exact Or.inl hlt
    · exact Or.inr ⟨fuel - 4, by omega⟩
  rcases hcase with hlt | ⟨n, hn⟩
  · exfalso
    have hnone : mergeTwoLists fuel sharedTail (some 0) (some 1) = none := by
      interval_cases fuel <;> decide
    rw [hnone] at hres
    cases hres
  · subst hn
    have hval : mergeTwoLists (n + 4) sharedTail (some 0) (some 1)
        = some ([{ Val := 1, Next := some 1 }, { Val := 2, Next := some 2 },
                 { Val := 3, Next := some 2 }, { Val := 0, Next := some 0 }], some 0) := by
      simp [mergeTwoLists, mergeLoop, setNext, sharedTail]
    rw [hval] at hres
    simp only [Option.some.injEq, Prod.mk.injEq] at hres
    obtain ⟨hh, hp⟩ := hres
    subst hh hp
    rintro ⟨cells, hcells⟩
    unfold IsList at hcells
    cases cells with
    | nil => simp [Seg] at hcells
    | cons x0 t0 =>
      obtain ⟨b0, w0⟩ := x0
      simp only [Seg] at hcells
      obtain ⟨hb0, n0, hn0, ht0⟩ := hcells
      cases hb0
      simp at hn0
      obtain ⟨_, hn0⟩ := hn0
      subst hn0
      cases t0 with
      | nil => simp [Seg] at ht0
      | cons x1 t1 =>
        obtain ⟨b1, w1⟩ := x1
        simp only [Seg] at ht0
        obtain ⟨hb1, n1, hn1, ht1⟩ := ht0
        cases hb1
        simp at hn1
        obtain ⟨_, hn1⟩ := hn1
        subst hn1
        cases t1 with
        | nil => simp [Seg] at ht1
        | cons x2 t2 =>
          obtain ⟨b2, w2⟩ := x2
          have ht1b := ht1
          simp only [Seg] at ht1b
          obtain ⟨hb2, n2, hn2, ht2⟩ := ht1b
          cases hb2
          simp at hn2
          obtain ⟨_, hn2⟩ := hn2
          subst hn2
          have hdet := isList_det _ _ _ _ ht1 ht2
          have hlen := congrArg List.length hdet
          simp at hlen

/-- C24 (amended): for two finite lists that share no node and are sorted in non-decreasing
order (either may be empty), `mergeTwoLists` returns (given fuel for the `n + m` loop
iterations and the final link) a finite list made of exactly the nodes of the two inputs,
so that its values are the multiset union of the inputs' values, `n + m` of them, in
non-decreasing order. -/
theorem mergeTwoLists_merges_disjoint_lists (fuel : Nat) (h : Heap) (list1 list2 : Option Nat)
    (cells1 cells2 : List (Nat × Int))
    (h1 : IsList h list1 cells1) (h2 : IsList h list2 cells2)
    (hdisj : ∀ a ∈ cells1.map Prod.fst, a ∉ cells2.map Prod.fst)
    (hs1 : (cells1.map Prod.snd).Sorted (· ≤ ·)) (hs2 : (cells2.map Prod.snd).Sorted (· ≤ ·))
    (hfuel : cells1.length + cells2.length < fuel) :
    ∃ (h3 : Heap) (p : Option Nat) (merged : List (Nat × Int)),
      mergeTwoLists fuel h list1 list2 = some (h3, p) ∧ IsList h3 p merged ∧
      merged.Perm (cells1 ++ cells2) ∧
      (merged.map Prod.snd).Perm (cells1.map Prod.snd ++ cells2.map Prod.snd) ∧
      (merged.map Prod.snd).Sorted (· ≤ ·) ∧
      merged.length = cells1.length + cells2.length := by
  have hlt1 := seg_addr_lt h cells1 list1 none h1
  have hlt2 := seg_addr_lt h cells2 list2 none h2
  have hd : (h ++ [({ Val := 0, Next := none } : ListNode)])[h.length]?
      = some { Val := 0, Next := none } := by
    simp
  obtain ⟨hm, hloop, hfin⟩ := mergeLoop_spec fuel (h ++ [{ Val := 0, Next := none }]) h.length
    [] h.length 0 none list1 list2 cells1 cells2
    (by
      simp only [List.nil_append, Seg]
      exact ⟨trivial, none, hd, rfl⟩)
    (seg_append_heap h _ cells1 list1 none h1)
    (seg_append_heap h _ cells2 list2 none h2)
    (by simp)
    (by
      intro x hx
      simp only [List.nil_append, List.map_cons, List.map_nil, List.mem_singleton] at hx
      subst hx
      exact ⟨fun hmem => Nat.lt_irrefl _ (hlt1 _ hmem), fun hmem => Nat.lt_irrefl _ (hlt2 _ hmem)⟩)
    hdisj hfuel
  unfold IsList at hfin
  simp only [List.nil_append, List.singleton_append, Seg] at hfin
  obtain ⟨_, nxt, hnxt, hrest⟩ := hfin
  have hperm := mergeCells_perm fuel cells1 cells2
  refine ⟨hm, nxt, mergeCells fuel cells1 cells2, ?_, hrest, hperm, ?_,
    mergeCells_sorted fuel cells1 cells2 (Nat.le_of_lt hfuel) hs1 hs2, ?_⟩
  · simp only [mergeTwoLists, hloop, hnxt]
  · have := hperm.map Prod.snd
    simpa using this
  · have := hperm.length_eq
    simpa using this

/-- Witness for C24 (amended): merging `1 → 2 → 4` (nodes 0, 1, 2) with `1 → 3 → 4`
(nodes 3, 4, 5), the source's first test. -/
theorem mergeTwoLists_merges_disjoint_lists_witness :
    ∃ (h3 : Heap) (p : Option Nat) (merged : List (Nat × Int)),
      mergeTwoLists 7 [{ Val := 1, Next := some 1 }, { Val := 2, Next := some 2 },
          { Val := 4, Next := none }, { Val := 1, Next := some 4 }, { Val := 3, Next := some 5 },
          { Val := 4, Next := none }] (some 0) (some 3) = some (h3, p) ∧
      IsList h3 p merged ∧
      merged.Perm ([(0, 1), (1, 2), (2, 4)] ++ [(3, 1), (4, 3), (5, 4)]) ∧
      (merged.map Prod.snd).Perm
        (([(0, 1), (1, 2), (2, 4)] : List (Nat × Int)).map Prod.snd
          ++ ([(3, 1), (4, 3), (5, 4)] : List (Nat × Int)).map Prod.snd) ∧
      (merged.map Prod.snd).Sorted (· ≤ ·) ∧
      merged.length
        = ([(0, 1), (1, 2), (2, 4)] : List (Nat × Int)).length
          + ([(3, 1), (4, 3), (5, 4)] : List (Nat × Int)).length :=
  mergeTwoLists_merges_disjoint_lists 7 _ (some 0) (some 3)
    [(0, 1), (1, 2), (2, 4)] [(3, 1), (4, 3), (5, 4)]
    (by simp [IsList, Seg]) (by simp [IsList, Seg]) (by decide)
    (by decide) (by decide) (by decide)

/-! ## C25 -/

theorem follow_zero (h : Heap) (head : Option Nat) : follow h head 0 = head := rfl

theorem follow_succ (h : Heap) (head : Option Nat) (k : Nat) :
    follow h head (k + 1) = next h (follow h head k) := by
  unfold follow
  exact Function.iterate_succ_apply' _ _ _

theorem follow_succ_head (h : Heap) (head : Option Nat) (k : Nat) :
    follow h head (k + 1) = follow h (next h head) k := by
  unfold follow
  exact Function.iterate_succ_apply _ _ _

theorem follow_valid (h : Heap) (head : Option Nat) (hclosed : Closed h)
    (hhead : ∀ a, head = some a → a < h.length) :
    ∀ k a, follow h head k = some a → a < h.length := by
  intro k
  induction k with
  | zero => intro a ha; exact hhead a ha
  | succ k ih =>
    intro a ha
    rw [follow_succ] at ha
    cases hk : follow h head k with
    | none => rw [hk] at ha; simp [next] at ha
    | some b =>
      rw [hk] at ha
      simp only [next] at ha
      cases hb : h[b]? with
      | none => rw [hb] at ha; cases ha
      | some node =>
        rw [hb] at ha
        exact hclosed b node hb a ha

theorem follow_read (h : Heap) (head : Option Nat) (k a : Nat)
    (hlt : a < h.length) (hk : follow h head k = some a) :
    ∃ node, h[a]? = some node ∧ node.Next = follow h head (k + 1) := by
  refine ⟨h[a], List.getElem?_eq_getElem hlt, ?_⟩
  rw [follow_succ, hk]
  simp [next, List.getElem?_eq_getElem hlt]

theorem follow_nil_stays (h : Heap) (head : Option Nat) (n : Nat)
    (hn : follow h head n = none) : ∀ k, n ≤ k → follow h head k = none := by
  intro k hk
  induction k, hk using Nat.le_induction with
  | base => exact hn
  | succ k _ ih => rw [follow_succ, ih]; rfl

theorem follow_periodic (h : Heap) (head : Option Nat) (a b : Nat)
    (hab : follow h head a = follow h head b) :
    ∀ k, follow h head (a + k) = follow h head (b + k) := by
  intro k
  induction k with
  | zero => exact hab
  | succ k ih =>
    rw [← Nat.add_assoc, ← Nat.add_assoc, follow_succ, follow_succ, ih]

theorem follow_periodic_mul (h : Heap) (head : Option Nat) (a p : Nat)
    (hper : ∀ k, a ≤ k → follow h head (k + p) = follow h head k) :
    ∀ m k, a ≤ k → follow h head (k + m * p) = follow h head k := by
  intro m
  induction m with
  | zero => intro k _; simp
  | succ m ih =>
    intro k hk
    have h1 : k + (m + 1) * p = (k + m * p) + p := by
      rw [Nat.succ_mul, Nat.add_assoc]
    rw [h1, hper (k + m * p) (by omega), ih k hk]

theorem follow_repeat (h : Heap) (head : Option Nat)
    (hvalid : ∀ k a, follow h head k = some a → a < h.length)
    (hne : ∀ k, k ≤ h.length → follow h head k ≠ none) :
    ∃ a b, a < b ∧ b ≤ h.length ∧ follow h head a = follow h head b := by
  have hsome : ∀ k : Fin (h.length + 1), ∃ a, follow h head k.val = some a := fun k =>
    Option.ne_none_iff_exists'.mp (hne k.val (Nat.lt_succ_iff.mp k.isLt))
  let f : Fin (h.length + 1) → Fin h.length := fun k =>
    ⟨(follow h head k.val).getD 0, by
      obtain ⟨a, ha⟩ := hsome k
      rw [ha]
      exact hvalid k.val a ha⟩
  obtain ⟨x, y, hxy, hf⟩ := Fintype.exists_ne_map_eq_of_card_lt f (by simp)
  have hval : (follow h head x.val).getD 0 = (follow h head y.val).getD 0 :=
    congrArg Fin.val hf
  have heq : follow h head x.val = follow h head y.val := by
    obtain ⟨a, ha⟩ := hsome x
    obtain ⟨b, hb⟩ := hsome y
    rw [ha, hb] at hval
    rw [ha, hb]
    exact congrArg some hval
  have hne2 : x.val ≠ y.val := fun e => hxy (Fin.ext e)
  rcases Nat.lt_or_gt_of_ne hne2 with hlt | hgt
  · exact ⟨x.val, y.val, hlt, Nat.lt_succ_iff.mp y.isLt, heq⟩
  · exact ⟨y.val, x.val, hgt, Nat.lt_succ_iff.mp x.isLt, heq.symm⟩

theorem follow_meet (h : Heap) (head : Option Nat) (a b : Nat) (hab : a < b)
    (heq : follow h head a = follow h head b) :
    ∃ j, 1 ≤ j ∧ j ≤ b ∧ follow h head j = follow h head (2 * j) := by
  have hp : 0 < b - a := by omega
  have hper : ∀ k, a ≤ k → follow h head (k + (b - a)) = follow h head k := by
    intro k hk
    have := follow_periodic h head a b heq (k - a)
    have e1 : a + (k - a) = k := by omega
    have e2 : b + (k - a) = k + (b - a) := by omega
    rw [e1, e2] at this
    exact this.symm
  have hdm := Nat.div_add_mod a (b - a)
  have hmod := Nat.mod_lt a hp
  have hj : (a / (b - a) + 1) * (b - a) = (b - a) * (a / (b - a)) + (b - a) := by
    rw [Nat.succ_mul, Nat.mul_comm]
  refine ⟨(a / (b - a) + 1) * (b - a), by omega, by omega, ?_⟩
  have := follow_periodic_mul h head a (b - a) hper (a / (b - a) + 1)
    ((a / (b - a) + 1) * (b - a)) (by omega)
  rw [Nat.two_mul]
  exact this.symm

theorem hasCycleLoop_true (h : Heap) (head : Option Nat)
    (hvalid : ∀ k a, follow h head k = some a → a < h.length)
    (hne : ∀ k, follow h head k ≠ none) :
    ∀ (d i fuel : Nat), follow h head (i + d + 1) = follow h head (2 * (i + d + 1)) →
      d < fuel →
      hasCycleLoop fuel h (follow h head i) (follow h head (2 * i)) = some true := by
  intro d
  induction d with
  | zero =>
    intro i fuel hmeet hf
    obtain ⟨f, rfl⟩ : ∃ f, fuel = f + 1 := ⟨fuel - 1, by omega⟩
    obtain ⟨s, hs⟩ := Option.ne_none_iff_exists'.mp (hne i)
    obtain ⟨x, hx⟩ := Option.ne_none_iff_exists'.mp (hne (2 * i))
    obtain ⟨x1, hx1⟩ := Option.ne_none_iff_exists'.mp (hne (2 * i + 1))
    obtain ⟨snode, hsn, hsnext⟩ := follow_read h head i s (hvalid i s hs) hs
    obtain ⟨xnode, hxn, hxnext⟩ := follow_read h head (2 * i) x (hvalid _ x hx) hx
    obtain ⟨x1node, hx1n, hx1next⟩ := follow_read h head (2 * i + 1) x1 (hvalid _ x1 hx1) hx1
    rw [hx1] at hxnext
    have e : 2 * (i + 0 + 1) = 2 * i + 1 + 1 := by omega
    rw [e] at hmeet
    have hc : snode.Next = x1node.Next := by rw [hsnext, hx1next]; exact hmeet
    rw [hs, hx]
    simp only [hasCycleLoop, hxn, hxnext, hsn, hx1n, hc, if_true]
  | succ d ih =>
    intro i fuel hmeet hf
    obtain ⟨f, rfl⟩ : ∃ f, fuel = f + 1 := ⟨fuel - 1, by omega⟩
    obtain ⟨s, hs⟩ := Option.ne_none_iff_exists'.mp (hne i)
    obtain ⟨x, hx⟩ := Option.ne_none_iff_exists'.mp (hne (2 * i))
    obtain ⟨x1, hx1⟩ := Option.ne_none_iff_exists'.mp (hne (2 * i + 1))
    obtain ⟨snode, hsn, hsnext⟩ := follow_read h head i s (hvalid i s hs) hs
    obtain ⟨xnode, hxn, hxnext⟩ := follow_read h head (2 * i) x (hvalid _ x hx) hx
    obtain ⟨x1node, hx1n, hx1next⟩ := follow_read h head (2 * i + 1) x1 (hvalid _ x1 hx1) hx1
    rw [hx1] at hxnext
    rw [hs, hx]
    by_cases hc : snode.Next = x1node.Next
    · simp only [hasCycleLoop, hxn, hxnext, hsn, hx1n, hc, if_true]
    · have hrec := ih (i + 1) f (by
        have e : i + 1 + d + 1 = i + (d + 1) + 1 := by omega
        rw [e]; exact hmeet) (by omega)
      have e2 : 2 * (i + 1) = 2 * i + 1 + 1 := by omega
      rw [e2, ← hsnext, ← hx1next] at hrec
      simp only [hasCycleLoop, hxn, hxnext, hsn, hx1n, hc, if_false]
      exact hrec

theorem hasCycleLoop_false (h : Heap) (head : Option Nat)
    (hvalid : ∀ k a, follow h head k = some a → a < h.length) (n : Nat)
    (hn : follow h head n = none) (hmin : ∀ k, k < n → follow h head k ≠ none) :
    ∀ (fuel i : Nat), 2 * i ≤ n → n < 2 * (i + fuel) →
      hasCycleLoop fuel h (follow h head i) (follow h head (2 * i)) = some false := by
  intro fuel
  induction fuel with
  | zero => intro i h1 h2; omega
  | succ f ih =>
    intro i h1 h2
    cases hx : follow h head (2 * i) with
    | none => simp only [hasCycleLoop]
    | some x =>
      obtain ⟨xnode, hxn, hxnext⟩ := follow_read h head (2 * i) x (hvalid _ x hx) hx
      cases hx1 : follow h head (2 * i + 1) with
      | none =>
        rw [hx1] at hxnext
        simp only [hasCycleLoop, hxn, hxnext]
      | some x1 =>
        rw [hx1] at hxnext
        have hlt1 : 2 * i + 1 < n := by
          by_contra hge
          have := follow_nil_stays h head n hn (2 * i + 1) (by omega)
          rw [this] at hx1
          cases hx1
        obtain ⟨s, hs⟩ := Option.ne_none_iff_exists'.mp (hmin i (by omega))
        obtain ⟨snode, hsn, hsnext⟩ := follow_read h head i s (hvalid i s hs) hs
        obtain ⟨x1node, hx1n, hx1next⟩ :=
          follow_read h head (2 * i + 1) x1 (hvalid _ x1 hx1) hx1
        have hc : ¬ snode.Next = x1node.Next := by
          intro hc
          rw [hsnext, hx1next] at hc
          have hper := follow_periodic h head (i + 1) (2 * i + 1 + 1) hc (n - (2 * i + 1 + 1))
          have e : 2 * i + 1 + 1 + (n - (2 * i + 1 + 1)) = n := by omega
          rw [e, hn] at hper
          exact hmin _ (by omega) hper
        have hrec := ih (i + 1) (by omega) (by omega)
        have e2 : 2 * (i + 1) = 2 * i + 1 + 1 := by omega
        rw [e2, ← hsnext, ← hx1next] at hrec
        rw [hs]
        simp only [hasCycleLoop, hxn, hxnext, hsn, hx1n, hc, if_false]
        exact hrec

theorem seg_follow (h : Heap) (cells : List (Nat × Int)) :
    ∀ (p q : Option Nat), Seg h p cells q → follow h p cells.length = q := by
  induction cells with
  | nil => intro p q hs; simpa [Seg, follow] using hs
  | cons c rest ih =>
    intro p q hs
    obtain ⟨a, v⟩ := c
    simp only [Seg] at hs
    obtain ⟨hp, nxt, hn, hrest⟩ := hs
    subst hp
    rw [List.length_cons, follow_succ_head]
    have : next h (some a) = nxt := by simp [next, hn]
    rw [this]
    exact ih nxt q hrest

theorem hasCycle_spec_aux (fuel : Nat) (h : Heap) (head : Option Nat) (hclosed : Closed h)
    (hhead : ∀ a, head = some a → a < h.length) (hfuel : h.length < fuel) :
    ((∀ k, follow h head k ≠ none) → hasCycle fuel h head = some true) ∧
    ((∃ k, follow h head k = none) → hasCycle fuel h head = some false) := by
  have hvalid := follow_valid h head hclosed hhead
  constructor
  · intro hne
    obtain ⟨a, b, hab, hb, heq⟩ := follow_repeat h head hvalid (fun k _ => hne k)
    obtain ⟨j, hj1, hj2, hmeet⟩ := follow_meet h head a b hab heq
    obtain ⟨x, hx⟩ := Option.ne_none_iff_exists'.mp (hne 0)
    obtain ⟨x1, hx1⟩ := Option.ne_none_iff_exists'.mp (hne 1)
    obtain ⟨xnode, hxn, hxnext⟩ := follow_read h head 0 x (hvalid 0 x hx) hx
    rw [hx1] at hxnext
    have hloop := hasCycleLoop_true h head hvalid hne (j - 1) 0 fuel
      (by
        have e : 0 + (j - 1) + 1 = j := by omega
        rw [e]; exact hmeet)
      (by omega)
    rw [follow_zero] at hx
    simp only [Nat.mul_zero, follow_zero] at hloop
    subst hx
    simp only [hasCycle, hxn, hxnext]
    exact hloop
  · rintro ⟨k, hk⟩
    classical
    have hex : ∃ k, follow h head k = none := ⟨k, hk⟩
    have hn := Nat.find_spec hex
    have hmin : ∀ m, m < Nat.find hex → follow h head m ≠ none := fun m hm =>
      Nat.find_min hex hm
    have hle : Nat.find hex ≤ h.length := by
      by_contra hgt
      obtain ⟨a, b, hab, hb, heq⟩ := follow_repeat h head hvalid
        (fun m hm => hmin m (by omega))
      have hper := follow_periodic h head a b heq (Nat.find hex - b)
      have e : b + (Nat.find hex - b) = Nat.find hex := by omega
      rw [e, hn] at hper
      exact hmin _ (by omega) hper
    cases hx : head with
    | none => simp only [hasCycle]
    | some x =>
      subst hx
      obtain ⟨xnode, hxn, hxnext⟩ := follow_read h (some x) 0 x (hhead x rfl) rfl
      cases hx1 : follow h (some x) 1 with
      | none =>
        rw [zero_add, hx1] at hxnext
        simp only [hasCycle, hxn, hxnext]
      | some x1 =>
        rw [zero_add, hx1] at hxnext
        have hloop := hasCycleLoop_false h (some x) hvalid (Nat.find hex) hn hmin fuel 0
          (by omega) (by omega)
        simp only [Nat.mul_zero, follow_zero] at hloop
        simp only [hasCycle, hxn, hxnext]
        exact hloop

/-- C25: in every finite linked structure (a heap `h` in which each `Next` is nil or the
address of a node of `h`) and for every head (nil or a node of `h`), `hasCycle` terminates
(fuel for `h.length + 1` loop iterations is always enough) and returns `true` if and only if
following `Next` from the head never reaches nil; it returns `false` for a nil head and for
every acyclic list. -/
theorem hasCycle_true_iff_never_nil (fuel : Nat) (h : Heap) (head : Option Nat)
    (hclosed : Closed h) (hhead : ∀ a, head = some a → a < h.length)
    (hfuel : h.length < fuel) :
    (∃ b, hasCycle fuel h head = some b ∧
      (b = true ↔ ∀ k, follow h head k ≠ none) ∧
      (∀ cells, IsList h head cells → b = false)) ∧
    hasCycle fuel h none = some false := by
  refine ⟨?_, rfl⟩
  obtain ⟨htrue, hfalse⟩ := hasCycle_spec_aux fuel h head hclosed hhead hfuel
  by_cases hne : ∀ k, follow h head k ≠ none
  · refine ⟨true, htrue hne, ⟨fun _ => hne, fun _ => rfl⟩, ?_⟩
    intro cells hcells
    exact absurd (seg_follow h cells head none hcells) (hne cells.length)
  · refine ⟨false, hfalse (by
      by_contra hcon
      exact hne (fun k hk => hcon ⟨k, hk⟩)), ⟨fun hb => (by cases hb), fun hall => absurd hall hne⟩,
      fun _ _ => rfl⟩

/-- Witness for C25: the source's first test, the list `3 → 2 → 0 → -4` whose last node
points back to the node holding 2. -/
theorem hasCycle_true_iff_never_nil_witness :
    (∃ b, hasCycle 5 [{ Val := 3, Next := some 1 }, { Val := 2, Next := some 2 },
          { Val := 0, Next := some 3 }, { Val := -4, Next := some 1 }] (some 0) = some b ∧
      (b = true ↔ ∀ k, follow [{ Val := 3, Next := some 1 }, { Val := 2, Next := some 2 },
          { Val := 0, Next := some 3 }, { Val := -4, Next := some 1 }] (some 0) k ≠ none) ∧
      (∀ cells, IsList [{ Val := 3, Next := some 1 }, { Val := 2, Next := some 2 },
          { Val := 0, Next := some 3 }, { Val := -4, Next := some 1 }] (some 0) cells →
        b = false)) ∧
    hasCycle 5 [{ Val := 3, Next := some 1 }, { Val := 2, Next := some 2 },
          { Val := 0, Next := some 3 }, { Val := -4, Next := some 1 }] none = some false :=
  hasCycle_true_iff_never_nil 5 _ (some 0)
    (by
      unfold Closed
      intro a node ha b hb
      have hlt : a < 4 := by
        rcases Nat.lt_or_ge a 4 with hlt | hge
        · exact hlt
        · rw [List.getElem?_eq_none (by simpa using hge)] at ha
          cases ha
      interval_cases a <;> simp at ha <;> subst ha <;> simp at hb <;> subst hb <;> simp)
    (by intro a ha; cases ha; decide)
    (by decide)

end LinkedLists
